import Mathlib

/-!
# badgeindexer: canonicalisation, classification and aggregation of badges

A shallow embedding of `internal/generator/generator.go` (functions
`normalizeRepoName`, `lookupBadge`, `canonicalizeURL`, `buildDashboard`)
together with the parts of the Go standard library these functions call
(`strings`, `unicode/utf8`, `regexp`, `net/url` as of Go 1.22, `sort`).

Go strings are byte sequences; they are embedded as lists of naturals, one
entry per byte.  Every index and length below is a byte index, as in Go.

The case mapping `unicode.ToLower` is a table of the Unicode version built
into the Go release.  It is the argument `lower` of `toLower` and of every
function that lowers a string: a theorem stated for every `lower` holds for
the table of whatever release runs the program.  The closed examples are
evaluated with `lowerExcerpt`, an excerpt of that table that covers their
runes.
-/

namespace BadgeIndexer

/-! ## Go strings -/

/-- A Go string: its bytes, in order. -/
abbrev GoString := List Nat

/-- UTF-8 encoding of one rune (`utf8.AppendRune`); surrogates and values
above U+10FFFF are written as U+FFFD. -/
def encodeRune (r : Nat) : GoString :=
  if r < 0x80 then [r]
  else if r < 0x800 then [0xC0 + r / 64, 0x80 + r % 64]
  else if (0xD800 ≤ r ∧ r ≤ 0xDFFF) ∨ 0x10FFFF < r then [0xEF, 0xBF, 0xBD]
  else if r < 0x10000 then [0xE0 + r / 4096, 0x80 + r / 64 % 64, 0x80 + r % 64]
  else [0xF0 + r / 262144, 0x80 + r / 4096 % 64, 0x80 + r / 64 % 64, 0x80 + r % 64]

/-- The bytes of a string literal. -/
def bytes (s : String) : GoString :=
  s.toList.flatMap (fun c => encodeRune c.toNat)

/-- A UTF-8 continuation byte. -/
def isCont (b : Nat) : Bool := 0x80 ≤ b && b ≤ 0xBF

/-- The rune at the head of `s` and its width in bytes (`utf8.DecodeRuneInString`):
an invalid or truncated sequence decodes as U+FFFD of width 1, the empty
string as U+FFFD of width 0. -/
def decodeRune (s : GoString) : Nat × Nat :=
  let b0 := s.getD 0 0
  let b1 := s.getD 1 0
  let b2 := s.getD 2 0
  let b3 := s.getD 3 0
  if s = [] then (0xFFFD, 0)
  else if b0 < 0x80 then (b0, 1)
  else if 0xC2 ≤ b0 && b0 ≤ 0xDF && isCont b1 then
    ((b0 - 0xC0) * 64 + (b1 - 0x80), 2)
  else if b0 == 0xE0 && (0xA0 ≤ b1 && b1 ≤ 0xBF) && isCont b2 then
    ((b0 - 0xE0) * 4096 + (b1 - 0x80) * 64 + (b2 - 0x80), 3)
  else if ((0xE1 ≤ b0 && b0 ≤ 0xEC) || b0 == 0xEE || b0 == 0xEF) && isCont b1 && isCont b2 then
    ((b0 - 0xE0) * 4096 + (b1 - 0x80) * 64 + (b2 - 0x80), 3)
  else if b0 == 0xED && (0x80 ≤ b1 && b1 ≤ 0x9F) && isCont b2 then
    ((b0 - 0xE0) * 4096 + (b1 - 0x80) * 64 + (b2 - 0x80), 3)
  else if b0 == 0xF0 && (0x90 ≤ b1 && b1 ≤ 0xBF) && isCont b2 && isCont b3 then
    ((b0 - 0xF0) * 262144 + (b1 - 0x80) * 4096 + (b2 - 0x80) * 64 + (b3 - 0x80), 4)
  else if (0xF1 ≤ b0 && b0 ≤ 0xF3) && isCont b1 && isCont b2 && isCont b3 then
    ((b0 - 0xF0) * 262144 + (b1 - 0x80) * 4096 + (b2 - 0x80) * 64 + (b3 - 0x80), 4)
  else if b0 == 0xF4 && (0x80 ≤ b1 && b1 ≤ 0x8F) && isCont b2 && isCont b3 then
    ((b0 - 0xF0) * 262144 + (b1 - 0x80) * 4096 + (b2 - 0x80) * 64 + (b3 - 0x80), 4)
  else (0xFFFD, 1)

/-- The runes of `s` as a range loop over a Go string yields them, each with
a flag telling whether it was decoded from a valid sequence.  The first
argument counts the bytes of the current rune still to be skipped. -/
def runesFrom : Nat → GoString → List (Nat × Bool)
  | _, [] => []
  | skip + 1, _ :: rest => runesFrom skip rest
  | 0, b :: rest =>
    let d := decodeRune (b :: rest)
    (d.1, !(d.1 == 0xFFFD && d.2 == 1)) :: runesFrom (d.2 - 1) rest

/-- The runes of `s`, invalid bytes read as U+FFFD. -/
def runes (s : GoString) : List Nat := (runesFrom 0 s).map Prod.fst

/-- Whether `s` is valid UTF-8 (`utf8.ValidString`). -/
def validUTF8 (s : GoString) : Bool := (runesFrom 0 s).all Prod.snd

/-- Lower case of an ASCII byte. -/
def asciiLower (b : Nat) : Nat := if 0x41 ≤ b ∧ b ≤ 0x5A then b + 32 else b

/-- An excerpt of the lower-case mapping `unicode.ToLower`: Basic Latin,
Latin-1, U+0130, U+023A, U+023E, Greek and Cyrillic capitals, U+212A (Kelvin
sign) and U+212B (Angstrom sign); other runes are left as they are.  It is
the table of the closed examples, whose runes it covers, and of the scheme
in `parse`, which is ASCII; no general statement rests on it. -/
def lowerExcerpt (r : Nat) : Nat :=
  if 0x41 ≤ r ∧ r ≤ 0x5A then r + 32
  else if 0xC0 ≤ r ∧ r ≤ 0xDE ∧ r ≠ 0xD7 then r + 32
  else if r = 0x130 then 0x69
  else if r = 0x23A then 0x2C65
  else if r = 0x23E then 0x2C66
  else if (0x391 ≤ r ∧ r ≤ 0x3A1) ∨ (0x3A3 ≤ r ∧ r ≤ 0x3AB) then r + 32
  else if 0x400 ≤ r ∧ r ≤ 0x40F then r + 80
  else if 0x410 ≤ r ∧ r ≤ 0x42F then r + 32
  else if r = 0x212A then 0x6B
  else if r = 0x212B then 0xE5
  else r

/-- The body of `strings.Map`: every rune of `s` is replaced by its image,
re-encoded; an invalid byte is read as U+FFFD. -/
def mapRunes (f : Nat → Nat) : Nat → GoString → GoString
  | _, [] => []
  | skip + 1, _ :: rest => mapRunes f skip rest
  | 0, b :: rest =>
    let d := decodeRune (b :: rest)
    encodeRune (f d.1) ++ mapRunes f (d.2 - 1) rest

/-- The function `strings.ToLower`: ASCII-only strings are lowered byte by
byte, any other string rune by rune with `strings.Map(unicode.ToLower, s)`;
`lower` is `unicode.ToLower`. -/
def toLower (lower : Nat → Nat) (s : GoString) : GoString :=
  if s.all (fun b => decide (b < 0x80)) then s.map asciiLower
  else mapRunes lower 0 s

/-- The function `strings.Index`: the byte index of the first occurrence of
`sub` in `s`; `none` stands for Go's `-1`. -/
def index : GoString → GoString → Option Nat
  | [], sub => if sub = [] then some 0 else none
  | b :: rest, sub =>
    if sub.isPrefixOf (b :: rest) then some 0
    else (index rest sub).map (fun i => i + 1)

/-- The function `strings.ReplaceAll old new` for a non-empty `old` (it is
a non-empty constant at every call site): occurrences are replaced from
left to right without overlap.  The first argument counts the bytes of a
replaced occurrence still to be skipped. -/
def replaceAll (old new : GoString) : Nat → GoString → GoString
  | _, [] => []
  | skip + 1, _ :: rest => replaceAll old new skip rest
  | 0, b :: rest =>
    if old.isPrefixOf (b :: rest) then new ++ replaceAll old new (old.length - 1) rest
    else b :: replaceAll old new 0 rest

/-- The slice expression `s[lo:]`, which panics when `lo > len(s)`. -/
def sliceFrom (s : GoString) (lo : Nat) : Option GoString :=
  if lo ≤ s.length then some (s.drop lo) else none

/-- The slice expression `s[:hi]`, which panics when `hi > len(s)`. -/
def sliceTo (s : GoString) (hi : Nat) : Option GoString :=
  if hi ≤ s.length then some (s.take hi) else none

/-! ## `normalizeRepoName` -/

/-- Source: `strings.ReplaceAll(strings.ToLower(name), "/", "-")`. -/
def normalizeRepoName (lower : Nat → Nat) (name : GoString) : GoString :=
  replaceAll (bytes "/") (bytes "-") 0 (toLower lower name)

/-! ## Regular expressions (`regexp`)

The fragment of the RE2 syntax that `lookupBadge` can produce: a sequence
of atoms, each optionally followed by `*` or `+`, between `^` and `$`. -/

/-- One atom of a regular expression. -/
inductive Atom where
  /-- A literal rune. -/
  | lit (r : Nat)
  /-- The pattern `.`: any rune but a line feed. -/
  | any
  /-- The class `[^/]`: any rune but a slash (a line feed included). -/
  | notSlash
deriving DecidableEq, Repr

/-- How often an atom repeats. -/
inductive Quant where
  | one
  | star
  | plus
deriving DecidableEq, Repr

/-- A compiled expression `^ item* $`. -/
abbrev Regex := List (Atom × Quant)

/-- The bytes that `regexp.QuoteMeta` escapes. -/
def isSpecial (b : Nat) : Bool := (bytes "\\.+*?()|[]{}^$").contains b

/-- The function `regexp.QuoteMeta`: a backslash before every special byte. -/
def quoteMeta (s : GoString) : GoString :=
  s.flatMap (fun b => if isSpecial b then [0x5C, b] else [b])

/-- Reads the quantifier that may follow an atom. -/
def takeQuant : List Nat → Quant × List Nat
  | 0x2A :: rest => (Quant.star, rest)
  | 0x2B :: rest => (Quant.plus, rest)
  | rest => (Quant.one, rest)

/-- Parses the runes between `^` and `$`.  `fuel` bounds the number of
atoms; `none` is a syntax this fragment does not cover. -/
def parseItems : Nat → List Nat → Option Regex
  | _, [] => some []
  | 0, _ :: _ => none
  | fuel + 1, 0x5C :: c :: rest =>
    if c < 0x80 ∧ isSpecial c then
      let q := takeQuant rest
      (parseItems fuel q.2).map (fun items => (Atom.lit c, q.1) :: items)
    else none
  | fuel + 1, 0x2E :: rest =>
    let q := takeQuant rest
    (parseItems fuel q.2).map (fun items => (Atom.any, q.1) :: items)
  | fuel + 1, 0x5B :: 0x5E :: 0x2F :: 0x5D :: rest =>
    let q := takeQuant rest
    (parseItems fuel q.2).map (fun items => (Atom.notSlash, q.1) :: items)
  | fuel + 1, c :: rest =>
    if isSpecial c then none
    else
      let q := takeQuant rest
      (parseItems fuel q.2).map (fun items => (Atom.lit c, q.1) :: items)

/-- The function `regexp.Compile` on the fragment: the expression must be
valid UTF-8, start with `^` and end with `$`. -/
def compile (expr : GoString) : Option Regex :=
  if validUTF8 expr then
    match runes expr with
    | 0x5E :: body =>
      match body.reverse with
      | 0x24 :: revInner => parseItems revInner.length revInner.reverse
      | _ => none
    | _ => none
  else none

/-- Whether an atom accepts a rune. -/
def Atom.accepts : Atom → Nat → Bool
  | Atom.lit r, c => r == c
  | Atom.any, c => c != 0x0A
  | Atom.notSlash, c => c != 0x2F

/-- Whether `k` accepts the input after zero or more runes accepted by `a`. -/
def matchStar (a : Atom) (k : List Nat → Bool) : List Nat → Bool
  | [] => k []
  | c :: rest => k (c :: rest) || (a.accepts c && matchStar a k rest)

/-- Whether the items match the whole input. -/
def matchItems : Regex → List Nat → Bool
  | [], input => input.isEmpty
  | (a, Quant.one) :: items, input =>
    match input with
    | [] => false
    | c :: rest => a.accepts c && matchItems items rest
  | (a, Quant.star) :: items, input => matchStar a (matchItems items) input
  | (a, Quant.plus) :: items, input =>
    match input with
    | [] => false
    | c :: rest => a.accepts c && matchStar a (matchItems items) rest

/-- The method `(*Regexp).MatchString` for an expression anchored at both
ends: the input is read rune by rune, invalid bytes as U+FFFD. -/
def matchString (re : Regex) (s : GoString) : Bool := matchItems re (runes s)

/-! ## `lookupBadge` -/

/-- Source: `BadgeConfigEntry` (viewmodels.go). -/
structure BadgeConfigEntry where
  ID : GoString
  Pattern : GoString
  Name : GoString
  Category : GoString
  Placeholder : GoString
deriving DecidableEq, Repr

/-- Source: `BadgeConfig` (viewmodels.go). -/
structure BadgeConfig where
  Badges : List BadgeConfigEntry
deriving DecidableEq, Repr

/-- The expression `lookupBadge` compiles for a rule pattern: the quoted
pattern after the three `strings.ReplaceAll` calls, between `^` and `$`. -/
def ruleRegex (entryPattern : GoString) : GoString :=
  let regexPattern := quoteMeta entryPattern
  let regexPattern := replaceAll (bytes "\\\x7bORG\\\x7d") (bytes "[^/]+") 0 regexPattern
  let regexPattern := replaceAll (bytes "\\\x7bREPO\\\x7d") (bytes "[^/]+") 0 regexPattern
  let regexPattern := replaceAll (bytes "\\.*") (bytes ".*") 0 regexPattern
  bytes "^" ++ regexPattern ++ bytes "$"

/-- The loop of `lookupBadge` over `config.Badges`; the result is
`(name, category, placeholder, id)`. -/
def lookupBadgeLoop (lower : Nat → Nat) (pattern : GoString) :
    List BadgeConfigEntry → GoString × GoString × GoString × GoString
  | [] => (bytes "Unknown", bytes "Unknown", bytes "", normalizeRepoName lower pattern)
  | entry :: rest =>
    match compile (ruleRegex entry.Pattern) with
    | none => lookupBadgeLoop lower pattern rest
    | some re =>
      if matchString re pattern then
        (entry.Name, entry.Category, entry.Placeholder, entry.ID)
      else lookupBadgeLoop lower pattern rest

/-- Source: `lookupBadge(pattern, config)`. -/
def lookupBadge (lower : Nat → Nat) (pattern : GoString) (config : BadgeConfig) :
    GoString × GoString × GoString × GoString :=
  lookupBadgeLoop lower pattern config.Badges

/-- Whether the anchored matcher built from the rule compiles and matches
the whole pattern. -/
def ruleMatches (pattern : GoString) (entry : BadgeConfigEntry) : Bool :=
  match compile (ruleRegex entry.Pattern) with
  | none => false
  | some re => matchString re pattern

/-! ## URLs (`net/url`) -/

/-- The function `strings.Cut` for a one-byte separator: the text before
the first `sep`, the text after it, and whether `sep` occurs. -/
def cutByte (s : GoString) (sep : Nat) : GoString × GoString × Bool :=
  (s.takeWhile (fun b => b != sep), (s.dropWhile (fun b => b != sep)).drop 1, s.contains sep)

/-- The function `strings.LastIndex` for a one-byte separator (`none` for `-1`). -/
def lastIndexByte : GoString → Nat → Option Nat
  | [], _ => none
  | b :: rest, sep =>
    match lastIndexByte rest sep with
    | some i => some (i + 1)
    | none => if b = sep then some 0 else none

/-- Source: `type encoding` of net/url. -/
inductive Encoding where
  | encodePath
  | encodePathSegment
  | encodeHost
  | encodeZone
  | encodeUserPassword
  | encodeQueryComponent
  | encodeFragment
deriving DecidableEq, Repr

/-- ASCII letters and digits. -/
def isAlnum (c : Nat) : Bool :=
  (0x61 ≤ c && c ≤ 0x7A) || (0x41 ≤ c && c ≤ 0x5A) || (0x30 ≤ c && c ≤ 0x39)

/-- Source: `shouldEscape(c, mode)` of net/url. -/
def shouldEscape (c : Nat) (mode : Encoding) : Bool :=
  if isAlnum c then false
  else if (mode = Encoding.encodeHost ∨ mode = Encoding.encodeZone) ∧
      (bytes "!$&'()*+,;=:[]<>\"").contains c then false
  else if (bytes "-_.~").contains c then false
  else if (bytes "$&+,/:;=?@").contains c then
    match mode with
    | Encoding.encodePath => c == 0x3F
    | Encoding.encodePathSegment => c == 0x2F || c == 0x3B || c == 0x2C || c == 0x3F
    | Encoding.encodeUserPassword => c == 0x40 || c == 0x2F || c == 0x3F || c == 0x3A
    | Encoding.encodeQueryComponent => true
    | Encoding.encodeFragment => false
    | _ => true
  else if mode = Encoding.encodeFragment ∧ (bytes "!()*").contains c then false
  else true

/-- A hexadecimal digit. -/
def ishex (c : Nat) : Bool :=
  (0x30 ≤ c && c ≤ 0x39) || (0x61 ≤ c && c ≤ 0x66) || (0x41 ≤ c && c ≤ 0x46)

/-- The value of a hexadecimal digit. -/
def unhex (c : Nat) : Nat :=
  if 0x30 ≤ c ∧ c ≤ 0x39 then c - 0x30
  else if 0x61 ≤ c ∧ c ≤ 0x66 then c - 0x61 + 10
  else if 0x41 ≤ c ∧ c ≤ 0x46 then c - 0x41 + 10
  else 0

/-- The digit `"0123456789ABCDEF"[n]`. -/
def upperhex (n : Nat) : Nat := if n < 10 then 0x30 + n else 0x41 + (n - 10)

/-- Source: `unescape(s, mode)` of net/url; `none` is an error. -/
def unescape (mode : Encoding) : GoString → Option GoString
  | [] => some []
  | 0x25 :: h1 :: h2 :: rest =>
    if ishex h1 && ishex h2 then
      if mode = Encoding.encodeHost ∧ unhex h1 < 8 ∧ ¬ (h1 = 0x32 ∧ h2 = 0x35) then none
      else if mode = Encoding.encodeZone ∧ ¬ (h1 = 0x32 ∧ h2 = 0x35) ∧
          unhex h1 * 16 + unhex h2 ≠ 0x20 ∧
          shouldEscape (unhex h1 * 16 + unhex h2) Encoding.encodeHost then none
      else (unescape mode rest).map (fun t => (unhex h1 * 16 + unhex h2) :: t)
    else none
  | 0x25 :: _ => none
  | 0x2B :: rest =>
    (unescape mode rest).map
      (fun t => (if mode = Encoding.encodeQueryComponent then 0x20 else 0x2B) :: t)
  | c :: rest =>
    if (mode = Encoding.encodeHost ∨ mode = Encoding.encodeZone) ∧ c < 0x80 ∧
        shouldEscape c Encoding.encodeHost then none
    else (unescape mode rest).map (fun t => c :: t)

/-- The image of one byte under `escape`. -/
def escapeByte (mode : Encoding) (c : Nat) : GoString :=
  if shouldEscape c mode then
    if c = 0x20 ∧ mode = Encoding.encodeQueryComponent then [0x2B]
    else [0x25, upperhex (c / 16), upperhex (c % 16)]
  else [c]

/-- Source: `escape(s, mode)` of net/url. -/
def escape (mode : Encoding) (s : GoString) : GoString := s.flatMap (escapeByte mode)

/-- Source: `validEncoded(s, mode)` of net/url. -/
def validEncoded (mode : Encoding) (s : GoString) : Bool :=
  s.all (fun c => (bytes "!$&'()*+,;=:@[]%").contains c || !shouldEscape c mode)

/-- Source: `type Userinfo` of net/url. -/
structure Userinfo where
  username : GoString
  password : GoString
  passwordSet : Bool
deriving DecidableEq, Repr

/-- Source: `type URL` of net/url. -/
structure URL where
  Scheme : GoString
  Opaque : GoString
  User : Option Userinfo
  Host : GoString
  Path : GoString
  RawPath : GoString
  OmitHost : Bool
  ForceQuery : Bool
  RawQuery : GoString
  Fragment : GoString
  RawFragment : GoString
deriving DecidableEq, Repr

/-- The zero value of `URL`. -/
def URL.empty : URL :=
  { Scheme := [], Opaque := [], User := none, Host := [], Path := [], RawPath := [],
    OmitHost := false, ForceQuery := false, RawQuery := [], Fragment := [], RawFragment := [] }

/-- The loop of `getScheme`; `i = 0` is passed as `first`, `acc` holds the
bytes read so far.  The result is `(scheme, rest)`. -/
def getSchemeLoop (rawURL : GoString) : Bool → GoString → GoString →
    Option (GoString × GoString)
  | _, _, [] => some ([], rawURL)
  | first, acc, c :: rest =>
    if (0x61 ≤ c ∧ c ≤ 0x7A) ∨ (0x41 ≤ c ∧ c ≤ 0x5A) then
      getSchemeLoop rawURL false (acc ++ [c]) rest
    else if (0x30 ≤ c ∧ c ≤ 0x39) ∨ c = 0x2B ∨ c = 0x2D ∨ c = 0x2E then
      if first then some ([], rawURL) else getSchemeLoop rawURL false (acc ++ [c]) rest
    else if c = 0x3A then
      if first then none else some (acc, rest)
    else some ([], rawURL)

/-- Source: `getScheme(rawURL)` of net/url; `none` is the error
"missing protocol scheme". -/
def getScheme (rawURL : GoString) : Option (GoString × GoString) :=
  getSchemeLoop rawURL true [] rawURL

/-- Source: `validOptionalPort(port)` of net/url. -/
def validOptionalPort : GoString → Bool
  | [] => true
  | c :: digits => c == 0x3A && digits.all (fun b => 0x30 ≤ b && b ≤ 0x39)

/-- Source: `validUserinfo(s)` of net/url (a loop over the runes of `s`). -/
def validUserinfo (s : GoString) : Bool :=
  (runes s).all (fun r => isAlnum r || (bytes "-._:~!$&'()*+,;=%@").contains r)

/-- Source: `parseHost(host)` of net/url, as of Go 1.22.  Later releases
are stricter on two kinds of host: the text between brackets must be an
IPv6 address, and a host outside brackets may hold one colon only.  On a
host without bracket and colon all releases agree; the general statements
on token stripping are made for such hosts (`plainHost`). -/
def parseHost (host : GoString) : Option GoString :=
  if (bytes "[").isPrefixOf host then
    match lastIndexByte host 0x5D with
    | none => none
    | some i =>
      if !validOptionalPort (host.drop (i + 1)) then none
      else
        match index (host.take i) (bytes "%25") with
        | some zone =>
          (unescape Encoding.encodeHost (host.take zone)).bind fun host1 =>
          (unescape Encoding.encodeZone ((host.take i).drop zone)).bind fun host2 =>
          (unescape Encoding.encodeHost (host.drop i)).bind fun host3 =>
          some (host1 ++ host2 ++ host3)
        | none => unescape Encoding.encodeHost host
  else
    match lastIndexByte host 0x3A with
    | some i =>
      if !validOptionalPort (host.drop i) then none
      else unescape Encoding.encodeHost host
    | none => unescape Encoding.encodeHost host

/-- Source: `parseAuthority(authority)` of net/url. -/
def parseAuthority (authority : GoString) : Option (Option Userinfo × GoString) :=
  match lastIndexByte authority 0x40 with
  | none => (parseHost authority).map (fun host => (none, host))
  | some i =>
    (parseHost (authority.drop (i + 1))).bind fun host =>
    let userinfo := authority.take i
    if !validUserinfo userinfo then none
    else if !userinfo.contains 0x3A then
      (unescape Encoding.encodeUserPassword userinfo).map fun name =>
        (some { username := name, password := [], passwordSet := false }, host)
    else
      let c := cutByte userinfo 0x3A
      (unescape Encoding.encodeUserPassword c.1).bind fun name =>
      (unescape Encoding.encodeUserPassword c.2.1).map fun pass =>
        (some { username := name, password := pass, passwordSet := true }, host)

/-- Source: `(*URL).setPath(p)` of net/url. -/
def setPath (u : URL) (p : GoString) : Option URL :=
  (unescape Encoding.encodePath p).map fun path =>
    if p = escape Encoding.encodePath path then { u with Path := path, RawPath := [] }
    else { u with Path := path, RawPath := p }

/-- Source: `(*URL).setFragment(f)` of net/url. -/
def setFragment (u : URL) (f : GoString) : Option URL :=
  (unescape Encoding.encodeFragment f).map fun frag =>
    if f = escape Encoding.encodeFragment frag then { u with Fragment := frag, RawFragment := [] }
    else { u with Fragment := frag, RawFragment := f }

/-- The second half of `parse(rawURL, viaRequest)` of net/url (with
`viaRequest = false`): what is done with `rest` once the scheme and the
query have been split off into `url`. -/
def parseRest (url : URL) (rest : GoString) : Option URL :=
  if !(bytes "/").isPrefixOf rest ∧ url.Scheme ≠ [] then some { url with Opaque := rest }
  else if !(bytes "/").isPrefixOf rest ∧ (cutByte rest 0x2F).1.contains 0x3A then none
  else if (url.Scheme ≠ [] ∨ !(bytes "///").isPrefixOf rest) ∧ (bytes "//").isPrefixOf rest then
    let authority0 := rest.drop 2
    let authority := authority0.takeWhile (fun b => b != 0x2F)
    let rest := authority0.dropWhile (fun b => b != 0x2F)
    (parseAuthority authority).bind fun uh =>
      setPath { url with User := uh.1, Host := uh.2 } rest
  else if url.Scheme ≠ [] ∧ (bytes "/").isPrefixOf rest then
    setPath { url with OmitHost := true } rest
  else setPath url rest

/-- Source: `parse(rawURL, viaRequest)` of net/url with `viaRequest = false`.
The scheme `getScheme` returns is ASCII, so `strings.ToLower` lowers it byte
by byte and consults no case table. -/
def parse (rawURL : GoString) : Option URL :=
  if rawURL.any (fun b => b < 0x20 || b == 0x7F) then none
  else if rawURL = bytes "*" then some { URL.empty with Path := bytes "*" }
  else
    (getScheme rawURL).bind fun sr =>
    let url : URL := { URL.empty with Scheme := toLower lowerExcerpt sr.1 }
    if sr.2.getLast? = some 0x3F ∧ sr.2.count 0x3F = 1 then
      parseRest { url with ForceQuery := true } sr.2.dropLast
    else
      parseRest { url with RawQuery := (cutByte sr.2 0x3F).2.1 } (cutByte sr.2 0x3F).1

/-- Source: `url.Parse(rawURL)`; `none` is an error. -/
def urlParse (rawURL : GoString) : Option URL :=
  let c := cutByte rawURL 0x23
  (parse c.1).bind fun url =>
    if c.2.1 = [] then some url else setFragment url c.2.1

/-- Source: `(*URL).EscapedPath()` of net/url. -/
def URL.EscapedPath (u : URL) : GoString :=
  if u.RawPath ≠ [] ∧ validEncoded Encoding.encodePath u.RawPath ∧
      unescape Encoding.encodePath u.RawPath = some u.Path then u.RawPath
  else if u.Path = bytes "*" then bytes "*"
  else escape Encoding.encodePath u.Path

/-- Source: `(*URL).EscapedFragment()` of net/url. -/
def URL.EscapedFragment (u : URL) : GoString :=
  if u.RawFragment ≠ [] ∧ validEncoded Encoding.encodeFragment u.RawFragment ∧
      unescape Encoding.encodeFragment u.RawFragment = some u.Fragment then u.RawFragment
  else escape Encoding.encodeFragment u.Fragment

/-- Source: `(*Userinfo).String()` of net/url. -/
def Userinfo.String (ui : Userinfo) : GoString :=
  escape Encoding.encodeUserPassword ui.username ++
    (if ui.passwordSet then bytes ":" ++ escape Encoding.encodeUserPassword ui.password else [])

/-- The first bytes `(*URL).String()` writes: the scheme and its colon. -/
def URL.schemePart (u : URL) : GoString :=
  if u.Scheme ≠ [] then u.Scheme ++ bytes ":" else []

/-- What `(*URL).String()` writes for the authority: `//`, the user
information and the host. -/
def URL.authorityPart (u : URL) : GoString :=
  if u.Scheme ≠ [] ∨ u.Host ≠ [] ∨ u.User.isSome then
    if u.OmitHost ∧ u.Host = [] ∧ u.User.isNone then []
    else
      (if u.Host ≠ [] ∨ u.Path ≠ [] ∨ u.User.isSome then bytes "//" else []) ++
      (match u.User with
        | some ui => ui.String ++ bytes "@"
        | none => []) ++
      (if u.Host ≠ [] then escape Encoding.encodeHost u.Host else [])
  else []

/-- The part of `(*URL).String()` written before the query: scheme,
opaque part or authority and path. -/
def URL.head (u : URL) : GoString :=
  if u.Opaque ≠ [] then u.schemePart ++ u.Opaque
  else
    let path := u.EscapedPath
    let buf := u.schemePart ++ u.authorityPart
    let buf := buf ++
      (if path ≠ [] ∧ path.head? ≠ some 0x2F ∧ u.Host ≠ [] then bytes "/" else [])
    let buf := buf ++
      (if buf = [] ∧ (cutByte path 0x2F).1.contains 0x3A then bytes "./" else [])
    buf ++ path

/-- Source: `(*URL).String()` of net/url. -/
def URL.String (u : URL) : GoString :=
  u.head ++
    (if u.ForceQuery ∨ u.RawQuery ≠ [] then bytes "?" ++ u.RawQuery else []) ++
    (if u.Fragment ≠ [] then bytes "#" ++ u.EscapedFragment else [])

/-- The type `url.Values`, a map from keys to lists of values, kept as the
list of its (key, value) pairs in insertion order: the values of a key are
the second components of its pairs, in order. -/
abbrev Values := List (GoString × GoString)

/-- Source: `Values.Get(key)`: the first value of `key`, or `""`. -/
def Values.Get (v : Values) (key : GoString) : GoString :=
  match v.find? (fun kv => kv.1 = key) with
  | some kv => kv.2
  | none => []

/-- Source: `Values.Del(key)`. -/
def Values.Del (v : Values) (key : GoString) : Values := v.filter (fun kv => kv.1 ≠ key)

/-- Byte-wise order `a <= b` on Go strings. -/
def strLe : GoString → GoString → Bool
  | [], _ => true
  | _ :: _, [] => false
  | a :: as, b :: bs => decide (a < b) || (a == b && strLe as bs)

/-- The pairs in the order `Values.Encode` writes them: keys ascending,
the values of one key in their own order. -/
def Values.sorted (v : Values) : Values :=
  v.insertionSort (fun a b => strLe a.1 b.1 = true)

/-- Splits at every occurrence of the byte `sep` (`strings.Split`). -/
def splitByte (sep : Nat) : GoString → List GoString
  | [] => [[]]
  | b :: rest =>
    if b = sep then [] :: splitByte sep rest
    else
      match splitByte sep rest with
      | [] => [[b]]
      | p :: ps => (b :: p) :: ps

/-- Joins the pieces with the byte `sep` between them. -/
def joinByte (sep : Nat) : List GoString → GoString
  | [] => []
  | [p] => p
  | p :: q :: ps => p ++ sep :: joinByte sep (q :: ps)

/-- Source: `Values.Encode()`: `key=value` pairs, query-escaped, joined by `&`. -/
def Values.Encode (v : Values) : GoString :=
  joinByte 0x26 (v.sorted.map (fun kv =>
    escape Encoding.encodeQueryComponent kv.1 ++ 0x3D ::
      escape Encoding.encodeQueryComponent kv.2))

/-- One round of the loop of `parseQuery`, for the text `piece` between two
`&`: a piece that is empty, holds a `;` or does not unescape is skipped. -/
def parseQueryPiece (m : Values) (piece : GoString) : Values :=
  if piece.contains 0x3B then m
  else if piece = [] then m
  else
    let c := cutByte piece 0x3D
    match unescape Encoding.encodeQueryComponent c.1 with
    | none => m
    | some key =>
      match unescape Encoding.encodeQueryComponent c.2.1 with
      | none => m
      | some value => m ++ [(key, value)]

/-- Source: `url.ParseQuery(query)` with the error dropped, as
`(*URL).Query()` does: the loop cuts the query at each `&`. -/
def parseQuery (query : GoString) : Values :=
  (splitByte 0x26 query).foldl parseQueryPiece []

/-- Source: `(*URL).Query()`. -/
def URL.Query (u : URL) : Values := parseQuery u.RawQuery

/-! ## `canonicalizeURL` -/

/-- Lines 368-381 of `canonicalizeURL`: the `token` query parameter is
removed when the string parses as a URL and `q.Get("token")` is not empty. -/
def stripToken (result : GoString) : GoString :=
  match urlParse result with
  | none => result
  | some u =>
    let q := u.Query
    if q.Get (bytes "token") ≠ [] then
      let q := q.Del (bytes "token")
      let u := if q.length = 0 then { u with RawQuery := [] }
        else { u with RawQuery := q.Encode }
      u.String
    else result

/-- Lines 357-361 of `canonicalizeURL`: the organization substitution.  The
result is the new `(result, lowerURL)`; `none` is a slice-bounds panic. -/
def replaceOrg (lower : Nat → Nat) (rawURL org : GoString) : Option (GoString × GoString) :=
  match index (toLower lower rawURL) (toLower lower org) with
  | some idx =>
    (sliceTo rawURL idx).bind fun before =>
    (sliceFrom rawURL (idx + org.length)).map fun after =>
      let result := before ++ bytes "{ORG}" ++ after
      (result, toLower lower result)
  | none => some (rawURL, toLower lower rawURL)

/-- Lines 363-366 of `canonicalizeURL`: the repository substitution. -/
def replaceRepo (lower : Nat → Nat) (result lowerURL repo : GoString) : Option GoString :=
  match index lowerURL (toLower lower repo) with
  | some idx => (sliceTo result idx).map fun before => before ++ bytes "{REPO}/.*"
  | none => some result

/-- Source: `canonicalizeURL(rawURL, org, repo)`; `none` is a run-time panic
(slice bounds out of range). -/
def canonicalizeURL (lower : Nat → Nat) (rawURL org repo : GoString) : Option GoString :=
  (replaceOrg lower rawURL org).bind fun rl =>
  (replaceRepo lower rl.1 rl.2 repo).map stripToken

/-! ## `buildDashboard` -/

/-- Source: `models.Badge`. -/
structure Badge where
  AltText : GoString
  ImageURL : GoString
  TargetURL : GoString
  HostImage : GoString
  HostTarget : GoString
deriving DecidableEq, Repr

/-- Source: `models.RepositoryData`. -/
structure RepositoryData where
  Repository : GoString
  RepositoryURL : GoString
  DefaultBranch : GoString
  ReadmeFound : Bool
  Badges : List Badge
deriving DecidableEq, Repr

/-- Source: `type badgeInfo` (generator.go). -/
structure badgeInfo where
  SampleImage : GoString
  Placeholder : GoString
  Name : GoString
  Category : GoString
  ID : GoString
  Repos : List GoString
deriving DecidableEq, Repr

/-- Source: `RepoSummary` (viewmodels.go). -/
structure RepoSummary where
  Name : GoString
  BadgeCount : Nat
  BadgeIDs : List GoString
deriving DecidableEq, Repr

/-- Source: `BadgeSummary` (viewmodels.go). -/
structure BadgeSummary where
  ImageURL : GoString
  Pattern : GoString
  Name : GoString
  Category : GoString
  Count : Nat
  ID : GoString
deriving DecidableEq, Repr

/-- Source: `BadgeCategory` (viewmodels.go). -/
structure BadgeCategory where
  Name : GoString
  Badges : List BadgeSummary
deriving DecidableEq, Repr

/-- Source: `DashboardViewModel` (viewmodels.go); the counters are Go `int`s,
which the lengths of in-memory slices cannot overflow. -/
structure DashboardViewModel where
  OrgName : GoString
  TotalRepos : Nat
  TotalBadges : Nat
  ReposWithBadges : Nat
  ReposNoBadges : Nat
  Repositories : List RepoSummary
  BadgesByCategory : List BadgeCategory
  UniqueBadgeCount : Nat
  LastUpdated : GoString
deriving DecidableEq, Repr

/-- The map `badgeMap` of `buildDashboard` (canonical pattern to `*badgeInfo`),
kept as the list of its entries in insertion order, one entry per key. -/
abbrev BadgeMap := List (GoString × badgeInfo)

/-- Lines 238-250 of `buildDashboard`: the entry created for a pattern that
is seen for the first time, on badge `b`. -/
def newBadgeInfo (lower : Nat → Nat) (config : BadgeConfig) (pattern : GoString)
    (b : Badge) : badgeInfo :=
  let found := lookupBadge lower pattern config
  let placeholder := found.2.2.1
  let displayImage := if placeholder ≠ [] then placeholder else b.ImageURL
  { SampleImage := displayImage, Placeholder := placeholder, Name := found.1,
    Category := found.2.1, ID := found.2.2.2, Repos := [] }

/-- Line 252 of `buildDashboard`: the repository name is appended to the
`Repos` of the entry of `pattern`. -/
def appendRepo (pattern repository : GoString) (e : GoString × badgeInfo) :
    GoString × badgeInfo :=
  if e.1 = pattern then (e.1, { e.2 with Repos := e.2.Repos ++ [repository] }) else e

/-- Lines 237-252 of `buildDashboard`: the entry of `pattern` is created when
it is missing, then the repository name is appended to its `Repos`. -/
def recordBadge (lower : Nat → Nat) (config : BadgeConfig) (badgeMap : BadgeMap)
    (pattern : GoString) (b : Badge) (repository : GoString) : BadgeMap :=
  let badgeMap :=
    if badgeMap.any (fun e => e.1 = pattern) then badgeMap
    else badgeMap ++ [(pattern, newBadgeInfo lower config pattern b)]
  badgeMap.map (appendRepo pattern repository)

/-- Lines 232-253 of `buildDashboard`: the loop over the badges of one
repository; `none` is a panic of `canonicalizeURL`. -/
def badgesLoop (lower : Nat → Nat) (config : BadgeConfig) (orgName repository : GoString) :
    List Badge → RepoSummary → BadgeMap → Option (RepoSummary × BadgeMap)
  | [], summary, badgeMap => some (summary, badgeMap)
  | b :: rest, summary, badgeMap =>
    match canonicalizeURL lower b.ImageURL orgName repository with
    | none => none
    | some pattern =>
      let id := (lookupBadge lower pattern config).2.2.2
      badgesLoop lower config orgName repository rest
        { summary with BadgeIDs := summary.BadgeIDs ++ [id] }
        (recordBadge lower config badgeMap pattern b repository)

/-- Lines 217-256 of `buildDashboard`: the loop over the repositories. -/
def reposLoop (lower : Nat → Nat) (config : BadgeConfig) (orgName : GoString) :
    List RepositoryData → DashboardViewModel → BadgeMap → List RepoSummary →
      Option (DashboardViewModel × BadgeMap × List RepoSummary)
  | [], vm, badgeMap, repoSummaries => some (vm, badgeMap, repoSummaries)
  | r :: rest, vm, badgeMap, repoSummaries =>
    let vm := { vm with TotalBadges := vm.TotalBadges + r.Badges.length }
    let summary : RepoSummary :=
      { Name := r.Repository, BadgeCount := r.Badges.length, BadgeIDs := [] }
    let vm :=
      if r.Badges.length > 0 then { vm with ReposWithBadges := vm.ReposWithBadges + 1 }
      else { vm with ReposNoBadges := vm.ReposNoBadges + 1 }
    match badgesLoop lower config orgName r.Repository r.Badges summary badgeMap with
    | none => none
    | some (summary, badgeMap) =>
      reposLoop lower config orgName rest vm badgeMap (repoSummaries ++ [summary])

/-- The map `categoryMap` of `buildDashboard`, as the list of its entries. -/
abbrev CategoryMap := List (GoString × List BadgeSummary)

/-- Line 275: `categoryMap[info.Category] = append(categoryMap[info.Category], bs)`. -/
def categoryMapAppend (categoryMap : CategoryMap) (bs : BadgeSummary) : CategoryMap :=
  if categoryMap.any (fun e => e.1 = bs.Category) then
    categoryMap.map (fun e => if e.1 = bs.Category then (e.1, e.2 ++ [bs]) else e)
  else categoryMap ++ [(bs.Category, [bs])]

/-- Lines 266-276: the summary of one entry of `badgeMap`. -/
def summaryOf (e : GoString × badgeInfo) : BadgeSummary :=
  { ImageURL := e.2.SampleImage, Pattern := e.1, Name := e.2.Name,
    Category := e.2.Category, Count := e.2.Repos.length, ID := e.2.ID }

/-- The function `sort.Strings`. -/
def sortStrings (l : List GoString) : List GoString :=
  l.insertionSort (fun a b => strLe a b = true)

/-- Lines 285-299: the category `"Unknown"` is moved to the end. -/
def moveUnknownLast (categories : List GoString) : List GoString :=
  let hasUnknown := categories.any (fun cat => cat = bytes "Unknown")
  let filtered := categories.filter (fun cat => cat ≠ bytes "Unknown")
  if hasUnknown then filtered ++ [bytes "Unknown"] else filtered

/-- The lookup `categoryMap[cat]`. -/
def CategoryMap.get (categoryMap : CategoryMap) (cat : GoString) : List BadgeSummary :=
  match categoryMap.find? (fun e => e.1 = cat) with
  | some e => e.2
  | none => []

/-- Lines 264-276 of `buildDashboard`: the map `categoryMap` derived from
`badgeMap`, whose entries are visited in the order `iter`. -/
def categoryMapOf (iter : (α : Type) → List α → List α) (badgeMap : BadgeMap) : CategoryMap :=
  ((iter _ badgeMap).map summaryOf).foldl categoryMapAppend []

/-- Lines 302-309 of `buildDashboard`: the group of one category, its badges
sorted by descending count. -/
def categoryGroup (categoryMap : CategoryMap) (cat : GoString) : BadgeCategory :=
  { Name := cat
    Badges := (categoryMap.get cat).insertionSort (fun a b => a.Count ≥ b.Count) }

/-- Source: `buildDashboard(repos, config, orgName, lastUpdated)`.  The
argument `iter` is the order in which a `range` loop visits the entries of
a map, which Go leaves unspecified; `sort.Slice`, which is not stable, is
taken to be the stable sort.  `none` is a panic of `canonicalizeURL`. -/
def buildDashboard (lower : Nat → Nat) (iter : (α : Type) → List α → List α)
    (repos : List RepositoryData)
    (config : BadgeConfig) (orgName lastUpdated : GoString) :
    Option (DashboardViewModel × BadgeMap) :=
  let vm : DashboardViewModel :=
    { OrgName := orgName, TotalRepos := repos.length, TotalBadges := 0, ReposWithBadges := 0,
      ReposNoBadges := 0, Repositories := [], BadgesByCategory := [], UniqueBadgeCount := 0,
      LastUpdated := lastUpdated }
  match reposLoop lower config orgName repos vm [] [] with
  | none => none
  | some (vm, badgeMap, repoSummaries) =>
    let repoSummaries :=
      repoSummaries.insertionSort (fun a b => strLe a.Name b.Name = true)
    let vm := { vm with Repositories := repoSummaries }
    let categoryMap := categoryMapOf iter badgeMap
    let categories := sortStrings ((iter _ categoryMap).map Prod.fst)
    let categories := moveUnknownLast categories
    let vm := { vm with BadgesByCategory := categories.map (categoryGroup categoryMap) }
    let vm := { vm with UniqueBadgeCount := badgeMap.length }
    some (vm, badgeMap)

/-! ## Notions used in the statements -/

/-- Every byte is an ASCII byte. -/
def isASCII (s : GoString) : Prop := ∀ b ∈ s, b < 0x80

instance isASCII.decidable (s : GoString) : Decidable (isASCII s) :=
  inferInstanceAs (Decidable (∀ b ∈ s, b < 0x80))

/-- The query string of a URL as text: what follows the first `?` of the
part before the first `#`. -/
def rawQueryOf (s : GoString) : GoString := (cutByte (cutByte s 0x23).1 0x3F).2.1

/-- The bytes `getScheme` accepts inside a scheme. -/
def isSchemeByte (c : Nat) : Bool :=
  (0x61 ≤ c && c ≤ 0x7A) || (0x41 ≤ c && c ≤ 0x5A) || (0x30 ≤ c && c ≤ 0x39) ||
    c == 0x2B || c == 0x2D || c == 0x2E

/-- The badge occurrences of one repository, in order: the canonical pattern
of each badge paired with the repository name. -/
def occurrencesOf (lower : Nat → Nat) (orgName repository : GoString) (badges : List Badge) :
    List (GoString × GoString) :=
  badges.filterMap (fun b =>
    (canonicalizeURL lower b.ImageURL orgName repository).map (fun pattern =>
        (pattern, repository)))

/-- The badge occurrences of all repositories, in order. -/
def occurrences (lower : Nat → Nat) (orgName : GoString) (repos : List RepositoryData) :
    List (GoString × GoString) :=
  repos.flatMap (fun r => occurrencesOf lower orgName r.Repository r.Badges)

/-- The state of `badgeMap` after the occurrences `occ` have been recorded:
one entry per pattern seen, whose `Repos` lists the repository of every
occurrence of that pattern, in order. -/
def BadgeMap.Records (m : BadgeMap) (occ : List (GoString × GoString)) : Prop :=
  (m.map Prod.fst).Nodup ∧
  (∀ o ∈ occ, o.1 ∈ m.map Prod.fst) ∧
  (∀ e ∈ m, e.1 ∈ occ.map Prod.fst) ∧
  (∀ e ∈ m, e.2.Repos = (occ.filter (fun o => o.1 = e.1)).map Prod.snd)

/-- Whether some badge of the repository has the canonical pattern. -/
def references (lower : Nat → Nat) (orgName pattern : GoString) (r : RepositoryData) : Bool :=
  r.Badges.any (fun b => canonicalizeURL lower b.ImageURL orgName r.Repository = some pattern)

/-- Strict byte-wise order on Go strings. -/
def strLt (a b : GoString) : Prop := strLe a b = true ∧ a ≠ b

/-- Every entry is a byte. -/
def isBytes (s : GoString) : Prop := ∀ b ∈ s, b < 256

instance isBytes.decidable (s : GoString) : Decidable (isBytes s) :=
  inferInstanceAs (Decidable (∀ b ∈ s, b < 256))

/-- Every key and every value of the pairs is a byte string. -/
def Values.isBytes (v : Values) : Prop :=
  ∀ kv ∈ v, BadgeIndexer.isBytes kv.1 ∧ BadgeIndexer.isBytes kv.2

/-- The two bytes that end the part of a URL before the query: `?` and `#`. -/
def isMark (b : Nat) : Prop := b = 0x3F ∨ b = 0x23

/-- The shape of the text `lookupBadge` hands to `regexp.Compile` between
`^` and `$`: bytes that are not special, special bytes behind a backslash,
and the class `[^/]+` put in for a placeholder. -/
inductive Quoted : List Nat → Prop where
  | nil : Quoted []
  | plain (b : Nat) (s : List Nat) : isSpecial b = false → Quoted s → Quoted (b :: s)
  | escaped (c : Nat) (s : List Nat) : isSpecial c = true → Quoted s →
      Quoted (0x5C :: c :: s)
  | cls (s : List Nat) : Quoted s → Quoted (0x5B :: 0x5E :: 0x2F :: 0x5D :: 0x2B :: s)

/-- The text searched for by one of the three `strings.ReplaceAll` calls:
its first byte is a backslash and its second byte a special byte that is
neither a backslash nor `[`. -/
def isQuotedKey (old : GoString) : Prop :=
  ∃ c tail, old = 0x5C :: c :: tail ∧ isSpecial c = true ∧ c ≠ 0x5C ∧ c ≠ 0x5B

/-- An item that is a literal taken once, or the class `[^/]` taken one or
more times. -/
def isPlainItem (item : Atom × Quant) : Prop :=
  (∃ r, item = (Atom.lit r, Quant.one)) ∨ item = (Atom.notSlash, Quant.plus)

/-! ## `extractBadges` (internal/crawler/parser.go) -/

/-- The character classes that occur in the pattern of `extractBadges`: a
literal rune, the Perl class `\s` and a negated one-rune class `[^c]`. -/
inductive RuneClass where
  | lit (r : Nat)
  | space
  | notRune (r : Nat)
deriving DecidableEq, Repr

/-- Whether a rune is in the class. `\s` is `[\t\n\f\r ]` in the syntax of
Go's regexp. -/
def RuneClass.accepts : RuneClass → Nat → Bool
  | .lit r, c => c == r
  | .space, c => c == 0x09 || c == 0x0A || c == 0x0C || c == 0x0D || c == 0x20
  | .notRune r, c => c != r

/-- The regular expressions used by `extractBadges`: classes, concatenation,
the greedy repetitions `*` and `+`, the greedy option `?` and capturing
groups (a non-capturing group `(?:…)` is plain nesting). -/
inductive Re where
  | empty
  | rune (c : RuneClass)
  | seq (a b : Re)
  | star (a : Re)
  | plus (a : Re)
  | opt (a : Re)
  | group (i : Nat) (a : Re)
deriving Repr

/-- State of a match attempt: the input that is still to be read and the
text of the groups captured so far (`none`: the group took no part). -/
structure MatchState where
  rest : GoString
  caps : List (Option GoString)
deriving DecidableEq, Repr

/-- Greedy repetition: one more round of `step` is tried first, and only
when everything after it fails does the match go on with `k`. A round that
reads nothing is not repeated. The fuel is the length of the input. -/
def starRun (step : (MatchState → Option MatchState) → MatchState → Option MatchState) :
    Nat → (MatchState → Option MatchState) → MatchState → Option MatchState
  | 0, k, st => k st
  | fuel + 1, k, st =>
    match step (fun st' =>
        if st'.rest.length < st.rest.length then starRun step fuel k st' else none) st with
    | some r => some r
    | none => k st

/-- Source: the matching of package regexp, as a backtracking search in
priority order with the continuation `k`. The first result in that order is
the one Go returns for a given start ("leftmost-first": among the matches
that begin at the same place, the one a backtracking search finds first).
The input is read rune by rune, as `regexp` does on a byte slice. -/
def Re.run : Re → (MatchState → Option MatchState) → MatchState → Option MatchState
  | .empty, k, st => k st
  | .rune c, k, st =>
    if st.rest = [] then none
    else if c.accepts (decodeRune st.rest).1 then
      k { st with rest := st.rest.drop (decodeRune st.rest).2 }
    else none
  | .seq a b, k, st => a.run (b.run k) st
  | .star a, k, st => starRun a.run st.rest.length k st
  | .plus a, k, st => a.run (fun st' => starRun a.run st'.rest.length k st') st
  | .opt a, k, st =>
    match a.run k st with
    | some r => some r
    | none => k st
  | .group i a, k, st =>
    a.run (fun st' => k { st' with
      caps := st'.caps.set i (some (st.rest.take (st.rest.length - st'.rest.length))) }) st

/-- The concatenation of a list of expressions. -/
def Re.ofList : List Re → Re
  | [] => .empty
  | [a] => a
  | a :: rest => .seq a (Re.ofList rest)

/-- The expression of a literal text. -/
def Re.text (s : String) : Re :=
  Re.ofList ((bytes s).map fun b => Re.rune (.lit b))

/-- One match attempt at the start of `input`, with `ncap` groups. -/
def Re.matchAt (re : Re) (ncap : Nat) (input : GoString) : Option MatchState :=
  re.run some { rest := input, caps := List.replicate (ncap + 1) none }

/-- Source: the unanchored search of `(*Regexp).doExecute`: the leftmost
start at which the expression matches, the starts being tried rune by rune.
The result is the number of bytes skipped before the match and the state at
its end. -/
def Re.search (re : Re) (ncap : Nat) : Nat → GoString → Option (Nat × MatchState)
  | 0, input => (re.matchAt ncap input).map fun st => (0, st)
  | fuel + 1, input =>
    match re.matchAt ncap input with
    | some st => some (0, st)
    | none =>
      if input = [] then none
      else
        let w := (decodeRune input).2
        (re.search ncap fuel (input.drop w)).map fun r => (r.1 + w, r.2)

/-- The slices of one match, as `FindAllSubmatch` delivers them: element 0
is the whole match, element `i` the text of group `i`, `none` (a nil slice)
for a group that took no part. `input` starts at the start of the match. -/
def submatches (input : GoString) (st : MatchState) : List (Option GoString) :=
  some (input.take (input.length - st.rest.length)) :: st.caps.tail

/-- Source: the loop of `(*Regexp).allMatches` with `n = -1`. `input` is
the content from `pos` on, `afterMatch` says that `pos` is where the
previous match ended. An empty match right after a match is dropped, and
after an empty match the search moves on by one rune. -/
def allMatches (re : Re) (ncap : Nat) :
    Nat → GoString → Bool → List (List (Option GoString))
  | 0, _, _ => []
  | fuel + 1, input, afterMatch =>
    match re.search ncap input.length input with
    | none => []
    | some (skip, st) =>
      let m := submatches (input.drop skip) st
      if skip = 0 ∧ st.rest.length = input.length then
        let out := if afterMatch then [] else [m]
        if input = [] then out
        else out ++ allMatches re ncap fuel (input.drop (decodeRune input).2) false
      else m :: allMatches re ncap fuel st.rest true

/-- Source: `(*Regexp).FindAllSubmatch(b, -1)`. -/
def findAllSubmatch (re : Re) (ncap : Nat) (b : GoString) : List (List (Option GoString)) :=
  allMatches re ncap (b.length + 2) b false

/-- Source: the pattern compiled in `extractBadges`,
`<a\s+href="([^"]+)"[^>]*>\s*<img\s+src="([^"]+)"(?:\s+alt="([^"]*)")?[^>]*>\s*</a>`,
piece by piece. -/
def htmlBadgeRegex : Re :=
  Re.ofList [
    Re.text "<a", .plus (.rune .space), Re.text "href=\"",
    .group 1 (.plus (.rune (.notRune 0x22))), Re.text "\"",
    .star (.rune (.notRune 0x3E)), Re.text ">", .star (.rune .space),
    Re.text "<img", .plus (.rune .space), Re.text "src=\"",
    .group 2 (.plus (.rune (.notRune 0x22))), Re.text "\"",
    .opt (Re.ofList [.plus (.rune .space), Re.text "alt=\"",
      .group 3 (.star (.rune (.notRune 0x22))), Re.text "\""]),
    .star (.rune (.notRune 0x3E)), Re.text ">", .star (.rune .space),
    Re.text "</a>"]

/-- Source: `string(match[i])`; the string of a nil slice is empty. -/
def submatchString (m : List (Option GoString)) (i : Nat) : GoString :=
  ((m.getD i none).getD [])

/-- Source: `normalizeBadge` (internal/crawler/parser.go). -/
def normalizeBadge (b : Badge) : Badge :=
  let b := match urlParse b.ImageURL with
    | some u => { b with HostImage := u.Host }
    | none => b
  match urlParse b.TargetURL with
  | some u => { b with HostTarget := u.Host }
  | none => b

/-- Source: the loop body of the second pass of `extractBadges`. -/
def htmlBadge (m : List (Option GoString)) : Badge :=
  normalizeBadge {
    AltText := submatchString m 3
    ImageURL := submatchString m 2
    TargetURL := submatchString m 1
    HostImage := []
    HostTarget := [] }

/-- Source: the second pass of `extractBadges` (internal/crawler/parser.go),
the occurrences found by the pattern in the raw content. -/
def htmlBadges (content : GoString) : List Badge :=
  (findAllSubmatch htmlBadgeRegex 3 content).map htmlBadge

/-- Source: `extractBadges` (internal/crawler/parser.go). The first pass
walks the syntax tree that the goldmark library builds; its result is the
parameter `markdownBadges`. -/
def extractBadges (markdownBadges : GoString → List Badge) (content : GoString) : List Badge :=
  markdownBadges content ++ htmlBadges content

/-! ## Notions used in the statements about token stripping -/

/-- A host written alike by every release of net/url: no user information,
and a host name of letters, digits, dots and hyphens, so without a port and
without a bracketed address. -/
def plainHost (u : URL) : Prop :=
  u.User = none ∧ ∀ b ∈ u.Host, isAlnum b = true ∨ b = 0x2E ∨ b = 0x2D

instance plainHost.decidable (u : URL) : Decidable (plainHost u) :=
  inferInstanceAs (Decidable (u.User = none ∧ ∀ b ∈ u.Host, isAlnum b = true ∨ b = 0x2E ∨ b = 0x2D))

/-- Every text of the URL that `String` writes escaped is a byte string. -/
def URL.isBytes (u : URL) : Prop :=
  BadgeIndexer.isBytes u.Path ∧ BadgeIndexer.isBytes u.Host ∧
    BadgeIndexer.isBytes u.Fragment ∧
    ∀ ui, u.User = some ui →
      BadgeIndexer.isBytes ui.username ∧ BadgeIndexer.isBytes ui.password

/-- The braces `{` and `}`. -/
def isBrace (b : Nat) : Prop := b = 0x7B ∨ b = 0x7D

/-- The URL `https://svc/{ORG}/badge.svg?token=S&x=1` as `url.Parse` returns it. -/
def sampleOrgURL : URL :=
  { Scheme := bytes "https", Opaque := [], User := none, Host := bytes "svc",
    Path := bytes "/{ORG}/badge.svg", RawPath := bytes "/{ORG}/badge.svg", OmitHost := false,
    ForceQuery := false, RawQuery := bytes "token=S&x=1", Fragment := [], RawFragment := [] }

/-- How many runes a quantifier lets its atom take. -/
def Quant.admits : Quant → Nat → Prop
  | Quant.one, n => n = 1
  | Quant.star, _ => True
  | Quant.plus, n => 1 ≤ n

/-- The language of a compiled expression `^ item* $`, stated without the
matcher: the whole input is cut into one block per item, in order; every
rune of a block is accepted by the atom of its item, and the block holds one
rune, any number of runes or at least one rune, as the quantifier says. -/
def spells (re : Regex) (input : List Nat) : Prop :=
  ∃ blocks : List (List Nat),
    List.Forall₂ (fun item block =>
      (∀ c ∈ block, item.1.accepts c = true) ∧ item.2.admits block.length) re blocks ∧
    input = blocks.flatten

/-- The items of a literal text: every byte once. -/
def litItems (r : GoString) : Regex := r.map fun b => (Atom.lit b, Quant.one)

/-! ## Facts about strings -/

variable {lower : Nat → Nat}

theorem bytes_slash : bytes "/" = [0x2F] := by decide

theorem bytes_dash : bytes "-" = [0x2D] := by decide

theorem replaceAll_single (c d : Nat) (s : GoString) :
    replaceAll [c] [d] 0 s = s.map (fun b => if b = c then d else b) := by
  induction s with
  | nil => rfl
  | cons b rest ih =>
    by_cases h : b = c
    · subst h
      simp [replaceAll, List.isPrefixOf, ih]
    · have h' : ¬ c = b := fun e => h e.symm
      simp [replaceAll, List.isPrefixOf, ih, h, h']

theorem normalizeRepoName_eq_map (name : GoString) :
    normalizeRepoName lower name = (toLower lower name).map (fun b => if b
        = 0x2F then 0x2D else b) := by
  unfold normalizeRepoName
  rw [bytes_slash, bytes_dash, replaceAll_single]

/-! ## Facts about `lookupBadge` -/

theorem lookupBadgeLoop_cons_matching (pattern : GoString) (e : BadgeConfigEntry)
    (rest : List BadgeConfigEntry) (h : ruleMatches pattern e = true) :
    lookupBadgeLoop lower pattern (e :: rest) = (e.Name, e.Category, e.Placeholder, e.ID) := by
  unfold ruleMatches at h
  unfold lookupBadgeLoop
  cases hc : compile (ruleRegex e.Pattern) with
  | none => rw [hc] at h; cases h
  | some re => rw [hc] at h; simp only at h ⊢; rw [if_pos h]

theorem lookupBadgeLoop_cons_other (pattern : GoString) (e : BadgeConfigEntry)
    (rest : List BadgeConfigEntry) (h : ruleMatches pattern e = false) :
    lookupBadgeLoop lower pattern (e :: rest) = lookupBadgeLoop lower pattern rest := by
  unfold ruleMatches at h
  conv => lhs; unfold lookupBadgeLoop
  cases hc : compile (ruleRegex e.Pattern) with
  | none => rfl
  | some re => rw [hc] at h; simp only at h ⊢; rw [if_neg (by simp [h])]

theorem lookupBadgeLoop_find (pattern : GoString) (rules : List BadgeConfigEntry) :
    lookupBadgeLoop lower pattern rules =
      (match rules.find? (ruleMatches pattern) with
       | some e => (e.Name, e.Category, e.Placeholder, e.ID)
       | none =>
           (bytes "Unknown", bytes "Unknown", bytes "", normalizeRepoName lower pattern)) := by
  induction rules with
  | nil => rfl
  | cons e rest ih =>
    cases h : ruleMatches pattern e with
    | true => rw [lookupBadgeLoop_cons_matching pattern e rest h, List.find?_cons_of_pos _ h]
    | false =>
      rw [lookupBadgeLoop_cons_other pattern e rest h, List.find?_cons_of_neg _ (by simp [h])]
      exact ih

theorem lookupBadgeLoop_filter (pattern : GoString) (rules : List BadgeConfigEntry) :
    lookupBadgeLoop lower pattern (rules.filter (ruleMatches pattern)) =
      lookupBadgeLoop lower pattern rules := by
  induction rules with
  | nil => rfl
  | cons e rest ih =>
    cases h : ruleMatches pattern e with
    | true =>
      rw [List.filter_cons_of_pos h, lookupBadgeLoop_cons_matching pattern e _ h,
        lookupBadgeLoop_cons_matching pattern e _ h]
    | false =>
      rw [List.filter_cons_of_neg (by simp [h]), lookupBadgeLoop_cons_other pattern e rest h]
      exact ih

theorem lookupBadgeLoop_append_of_none (pattern : GoString)
    (pre post : List BadgeConfigEntry)
    (h : ∀ e ∈ pre, ruleMatches pattern e = false) :
    lookupBadgeLoop lower pattern (pre ++ post) = lookupBadgeLoop lower pattern post := by
  induction pre with
  | nil => rfl
  | cons e rest ih =>
    rw [List.cons_append, lookupBadgeLoop_cons_other pattern e _ (h e (List.mem_cons_self _ _))]
    exact ih (fun x hx => h x (List.mem_cons_of_mem _ hx))

/-! ## Facts about `strings.Index` and ASCII lower case -/

theorem isPrefixOf_iff (sub s : GoString) : sub.isPrefixOf s = true ↔ sub <+: s :=
  List.isPrefixOf_iff_prefix

theorem index_some_iff (sub : GoString) : ∀ (s : GoString) (i : Nat),
    index s sub = some i ↔
      (i ≤ s.length ∧ sub <+: s.drop i ∧ ∀ j, j < i → ¬ sub <+: s.drop j) := by
  intro s
  induction s with
  | nil =>
    intro i
    unfold index
    by_cases h : sub = []
    · subst h
      simp
      constructor
      · intro h; subst h; exact ⟨rfl, fun j => Nat.zero_le j⟩
      · intro h; exact h.1.symm
    · simp [h]
  | cons b rest ih =>
    intro i
    unfold index
    by_cases hp : sub.isPrefixOf (b :: rest) = true
    · rw [if_pos hp]
      have hp' := (isPrefixOf_iff _ _).mp hp
      constructor
      · intro h
        cases h
        exact ⟨Nat.zero_le _, by simpa using hp', fun j hj => absurd hj (Nat.not_lt_zero j)⟩
      · intro h
        rcases h with ⟨_, _, hmin⟩
        cases i with
        | zero => rfl
        | succ k => exact absurd (by simpa using hp') (hmin 0 (Nat.succ_pos k))
    · rw [if_neg hp]
      have hp' : ¬ sub <+: b :: rest := fun h => hp ((isPrefixOf_iff _ _).mpr h)
      cases i with
      | zero =>
        constructor
        · intro h
          cases hr : index rest sub with
          | none => rw [hr] at h; cases h
          | some k => rw [hr] at h; simp at h
        · intro h
          exact absurd (by simpa using h.2.1) hp'
      | succ k =>
        cases hr : index rest sub with
        | none =>
          simp only [Option.map_none']
          constructor
          · intro h; cases h
          · intro h
            rcases h with ⟨hle, hpre, hmin⟩
            have := (ih k).mpr ⟨by simpa using hle, by simpa using hpre,
              fun j hj => by simpa using hmin (j + 1) (Nat.succ_lt_succ hj)⟩
            rw [hr] at this; cases this
        | some m =>
          simp only [Option.map_some']
          have hm := (ih m).mp hr
          constructor
          · intro h
            have hk : m = k := by simpa using h
            subst hk
            refine ⟨by simpa using hm.1, by simpa using hm.2.1, ?_⟩
            intro j hj
            cases j with
            | zero => simpa using hp'
            | succ j' => simpa using hm.2.2 j' (Nat.lt_of_succ_lt_succ hj)
          · intro h
            rcases h with ⟨hle, hpre, hmin⟩
            have := (ih k).mpr ⟨by simpa using hle, by simpa using hpre,
              fun j hj => by simpa using hmin (j + 1) (Nat.succ_lt_succ hj)⟩
            rw [hr] at this
            simpa using this

theorem index_none_iff (sub s : GoString) :
    index s sub = none ↔ ∀ j, j ≤ s.length → ¬ sub <+: s.drop j := by
  constructor
  · intro h j hj hp
    -- take the least occurrence
    have hex : ∃ i, i ≤ s.length ∧ sub <+: s.drop i := ⟨j, hj, hp⟩
    classical
    let i := Nat.find hex
    have hi := Nat.find_spec hex
    have hmin : ∀ k, k < i → ¬ sub <+: s.drop k := by
      intro k hk hpk
      exact Nat.find_min hex hk ⟨Nat.le_trans (Nat.le_of_lt hk) hi.1, hpk⟩
    have := (index_some_iff sub s i).mpr ⟨hi.1, hi.2, hmin⟩
    rw [h] at this; cases this
  · intro h
    cases hr : index s sub with
    | none => rfl
    | some i =>
      have := (index_some_iff sub s i).mp hr
      exact absurd this.2.1 (h i this.1)

theorem toLower_of_isASCII (s : GoString) (h : isASCII s) : toLower lower s = s.map asciiLower := by
  unfold toLower
  rw [if_pos]
  simp only [List.all_eq_true, decide_eq_true_eq]
  exact h

theorem length_toLower_of_isASCII (s : GoString) (h : isASCII s) :
    (toLower lower s).length = s.length := by
  rw [toLower_of_isASCII s h, List.length_map]

theorem isASCII_append {s t : GoString} : isASCII (s ++ t) ↔ isASCII s ∧ isASCII t := by
  unfold isASCII
  simp only [List.mem_append]
  constructor
  · intro h; exact ⟨fun b hb => h b (Or.inl hb), fun b hb => h b (Or.inr hb)⟩
  · intro h b hb
    cases hb with
    | inl hb => exact h.1 b hb
    | inr hb => exact h.2 b hb

theorem toLower_append_of_isASCII (s t : GoString) (hs : isASCII s) (ht : isASCII t) :
    toLower lower (s ++ t) = toLower lower s ++ toLower lower t := by
  rw [toLower_of_isASCII _ (isASCII_append.mpr ⟨hs, ht⟩), toLower_of_isASCII s hs,
    toLower_of_isASCII t ht, List.map_append]

theorem asciiLower_lt {b : Nat} (h : b < 0x80) : asciiLower b < 0x80 := by
  unfold asciiLower
  split <;> omega

theorem isASCII_toLower (s : GoString) (h : isASCII s) : isASCII (toLower lower s) := by
  rw [toLower_of_isASCII s h]
  intro b hb
  rcases List.mem_map.mp hb with ⟨a, ha, rfl⟩
  exact asciiLower_lt (h a ha)

theorem toLower_ne_nil (s : GoString) (h : s ≠ []) : toLower lower s ≠ [] := by
  unfold toLower
  split
  · simpa using h
  · cases s with
    | nil => exact absurd rfl h
    | cons b rest =>
      unfold mapRunes
      intro hnil
      have h1 := (List.append_eq_nil.mp hnil).1
      unfold encodeRune at h1
      split at h1
      · cases h1
      · split at h1
        · cases h1
        · split at h1
          · cases h1
          · split at h1 <;> cases h1

/-! ## The query string of a parsed URL -/

theorem getSchemeLoop_spec (rawURL : GoString) :
    ∀ (l : GoString) (first : Bool) (acc sch rest : GoString),
      getSchemeLoop rawURL first acc l = some (sch, rest) →
      (sch = [] ∧ rest = rawURL) ∨
        (∃ pre, l = pre ++ 0x3A :: rest ∧ sch = acc ++ pre ∧
          ∀ b ∈ pre, isSchemeByte b = true) := by
  intro l
  induction l with
  | nil =>
    intro first acc sch rest h
    unfold getSchemeLoop at h
    simp only [Option.some.injEq, Prod.mk.injEq] at h
    exact Or.inl ⟨h.1.symm, h.2.symm⟩
  | cons c l ih =>
    intro first acc sch rest h
    unfold getSchemeLoop at h
    split at h
    · rename_i hc
      rcases ih false (acc ++ [c]) sch rest h with h1 | ⟨pre, hl, hs, hpre⟩
      · exact Or.inl h1
      · refine Or.inr ⟨c :: pre, by rw [hl]; rfl, by rw [hs]; simp, ?_⟩
        intro b hb
        rcases List.mem_cons.mp hb with hb | hb
        · subst hb
          unfold isSchemeByte
          rcases hc with hc | hc <;> simp [hc.1, hc.2]
        · exact hpre b hb
    · split at h
      · rename_i hc
        split at h
        · simp only [Option.some.injEq, Prod.mk.injEq] at h
          exact Or.inl ⟨h.1.symm, h.2.symm⟩
        · rcases ih false (acc ++ [c]) sch rest h with h1 | ⟨pre, hl, hs, hpre⟩
          · exact Or.inl h1
          · refine Or.inr ⟨c :: pre, by rw [hl]; rfl, by rw [hs]; simp, ?_⟩
            intro b hb
            rcases List.mem_cons.mp hb with hb | hb
            · subst hb
              unfold isSchemeByte
              rcases hc with hc | hc | hc | hc
              · simp [hc.1, hc.2]
              · simp [hc]
              · simp [hc]
              · simp [hc]
            · exact hpre b hb
      · split at h
        · rename_i hc
          split at h
          · cases h
          · simp only [Option.some.injEq, Prod.mk.injEq] at h
            refine Or.inr ⟨[], by rw [hc, h.2]; rfl, by rw [h.1]; simp, ?_⟩
            intro b hb
            cases hb
        · simp only [Option.some.injEq, Prod.mk.injEq] at h
          exact Or.inl ⟨h.1.symm, h.2.symm⟩

theorem getScheme_spec (rawURL sch rest : GoString)
    (h : getScheme rawURL = some (sch, rest)) :
    (sch = [] ∧ rest = rawURL) ∨
      (rawURL = sch ++ 0x3A :: rest ∧ ∀ b ∈ sch, isSchemeByte b = true) := by
  rcases getSchemeLoop_spec rawURL rawURL true [] sch rest h with h1 | ⟨pre, hl, hs, hpre⟩
  · exact Or.inl h1
  · simp only [List.nil_append] at hs
    subst hs
    exact Or.inr ⟨hl, hpre⟩

theorem dropWhile_append_of_all {p : Nat → Bool} (a b : GoString)
    (h : ∀ x ∈ a, p x = true) : (a ++ b).dropWhile p = b.dropWhile p := by
  induction a with
  | nil => rfl
  | cons x a ih =>
    have hx := h x (List.mem_cons_self _ _)
    rw [List.cons_append, List.dropWhile_cons, if_pos hx]
    exact ih (fun y hy => h y (List.mem_cons_of_mem _ hy))

theorem dropWhile_eq_nil_of_all {p : Nat → Bool} (a : GoString)
    (h : ∀ x ∈ a, p x = true) : a.dropWhile p = [] := by
  have := dropWhile_append_of_all a [] h
  simpa using this

theorem isSchemeByte_ne {b c : Nat} (hb : isSchemeByte b = true)
    (hc : isSchemeByte c = false) : (b != c) = true := by
  simp only [bne_iff_ne, ne_eq]
  intro h
  rw [h, hc] at hb
  cases hb

theorem cutByte_after_scheme (sch rest : GoString) (c : Nat)
    (hs : ∀ b ∈ sch, isSchemeByte b = true) (hc : isSchemeByte c = false) (hc2 : c ≠ 0x3A) :
    (cutByte (sch ++ 0x3A :: rest) c).2.1 = (cutByte rest c).2.1 := by
  unfold cutByte
  simp only
  have : (sch ++ 0x3A :: rest) = (sch ++ [0x3A]) ++ rest := by simp
  rw [this, dropWhile_append_of_all]
  intro x hx
  rcases List.mem_append.mp hx with hx | hx
  · exact isSchemeByte_ne (hs x hx) hc
  · simp only [List.mem_singleton] at hx
    subst hx
    simp only [bne_iff_ne, ne_eq]
    exact fun h => hc2 h.symm

theorem setPath_rawQuery (u u2 : URL) (p : GoString) (h : setPath u p = some u2) :
    u2.RawQuery = u.RawQuery ∧ u2.ForceQuery = u.ForceQuery ∧ u2.Fragment = u.Fragment := by
  unfold setPath at h
  cases hp : unescape Encoding.encodePath p with
  | none => rw [hp] at h; cases h
  | some path =>
    rw [hp] at h
    simp only [Option.map_some', Option.some.injEq] at h
    split at h <;> (subst h; exact ⟨rfl, rfl, rfl⟩)

theorem setFragment_rawQuery (u u2 : URL) (f : GoString) (h : setFragment u f = some u2) :
    u2.RawQuery = u.RawQuery ∧ u2.ForceQuery = u.ForceQuery := by
  unfold setFragment at h
  cases hp : unescape Encoding.encodeFragment f with
  | none => rw [hp] at h; cases h
  | some frag =>
    rw [hp] at h
    simp only [Option.map_some', Option.some.injEq] at h
    split at h <;> (subst h; exact ⟨rfl, rfl⟩)

theorem cutByte_force (s : GoString) (c : Nat) (h1 : s.getLast? = some c)
    (h2 : s.count c = 1) : (cutByte s c).2.1 = [] := by
  rcases List.getLast?_eq_some_iff.mp h1 with ⟨init, rfl⟩
  have hinit : c ∉ init := by
    intro hmem
    have : 0 < init.count c := List.count_pos_iff.mpr hmem
    simp [List.count_append] at h2
    omega
  unfold cutByte
  simp only
  rw [dropWhile_append_of_all]
  · simp
  · intro x hx
    simp only [bne_iff_ne, ne_eq]
    intro hxc
    exact hinit (hxc ▸ hx)

theorem parseRest_rawQuery (url u : URL) (rest : GoString)
    (h : parseRest url rest = some u) :
    u.RawQuery = url.RawQuery ∧ u.ForceQuery = url.ForceQuery ∧ u.Fragment = url.Fragment := by
  unfold parseRest at h
  split at h
  · simp only [Option.some.injEq] at h
    subst h
    exact ⟨rfl, rfl, rfl⟩
  · split at h
    · cases h
    · split at h
      · simp only at h
        cases ha : parseAuthority
            (List.takeWhile (fun b => b != 0x2F) (List.drop 2 rest)) with
        | none => rw [ha] at h; cases h
        | some uh =>
          rw [ha] at h
          simp only [Option.some_bind] at h
          have := setPath_rawQuery _ _ _ h
          exact this
      · split at h
        · have := setPath_rawQuery _ _ _ h
          exact this
        · exact setPath_rawQuery url _ _ h

theorem parse_rawQuery (s : GoString) (u : URL) (h : parse s = some u) :
    u.RawQuery = (cutByte s 0x3F).2.1 := by
  unfold parse at h
  split at h
  · cases h
  · split at h
    · rename_i hs
      simp only [Option.some.injEq] at h
      subst h
      rw [hs]
      decide
    · cases hg : getScheme s with
      | none => rw [hg] at h; cases h
      | some sr =>
        rw [hg] at h
        simp only [Option.some_bind] at h
        obtain ⟨sch, rest0⟩ := sr
        simp only at h
        have hrest : (cutByte rest0 0x3F).2.1 = (cutByte s 0x3F).2.1 := by
          rcases getScheme_spec s sch rest0 hg with ⟨_, hr⟩ | ⟨hr, hsch⟩
          · rw [hr]
          · rw [hr]
            exact (cutByte_after_scheme sch rest0 0x3F hsch (by decide) (by decide)).symm
        split at h
        · rename_i hf
          rw [(parseRest_rawQuery _ _ _ h).1, ← hrest, cutByte_force rest0 0x3F hf.1 hf.2]
          rfl
        · rw [(parseRest_rawQuery _ _ _ h).1, ← hrest]

theorem urlParse_rawQuery (s : GoString) (u : URL) (h : urlParse s = some u) :
    u.RawQuery = rawQueryOf s := by
  unfold urlParse at h
  simp only at h
  cases hp : parse (cutByte s 0x23).1 with
  | none => rw [hp] at h; cases h
  | some url =>
    rw [hp] at h
    simp only [Option.some_bind] at h
    have := parse_rawQuery _ _ hp
    unfold rawQueryOf
    split at h
    · simp only [Option.some.injEq] at h
      subst h
      exact this
    · rw [(setFragment_rawQuery _ _ _ h).1]
      exact this

theorem rawQueryOf_of_not_mem (s : GoString) (h : 0x3F ∉ s) : rawQueryOf s = [] := by
  unfold rawQueryOf cutByte
  simp only
  rw [dropWhile_eq_nil_of_all]
  · rfl
  · intro x hx
    have hx' : x ∈ s := (List.takeWhile_sublist _).subset hx
    simp only [bne_iff_ne, ne_eq]
    intro hxc
    exact h (hxc ▸ hx')

theorem stripToken_of_rawQuery_nil (s : GoString) (h : rawQueryOf s = []) :
    stripToken s = s := by
  unfold stripToken
  cases hp : urlParse s with
  | none => rfl
  | some u =>
    simp only
    have hq : u.Query = [] := by
      unfold URL.Query
      rw [urlParse_rawQuery s u hp, h]
      rfl
    rw [hq]
    rfl

theorem stripToken_of_not_mem (s : GoString) (h : 0x3F ∉ s) : stripToken s = s :=
  stripToken_of_rawQuery_nil s (rawQueryOf_of_not_mem s h)

/-! ## Facts about `canonicalizeURL` -/

theorem replaceOrg_snd (rawURL org R L : GoString) (h : replaceOrg lower rawURL org = some (R, L)) :
    L = toLower lower R := by
  unfold replaceOrg at h
  cases hi : index (toLower lower rawURL) (toLower lower org) with
  | none =>
    rw [hi] at h
    simp only [Option.some.injEq, Prod.mk.injEq] at h
    rw [← h.1, ← h.2]
  | some idx =>
    rw [hi] at h
    simp only at h
    cases h1 : sliceTo rawURL idx with
    | none => rw [h1] at h; cases h
    | some before =>
      cases h2 : sliceFrom rawURL (idx + org.length) with
      | none => rw [h1, h2] at h; cases h
      | some after =>
        rw [h1, h2] at h
        simp only [Option.some_bind, Option.map_some', Option.some.injEq, Prod.mk.injEq] at h
        rw [← h.1, ← h.2]

theorem replaceOrg_of_index_none (rawURL org : GoString)
    (h : index (toLower lower rawURL) (toLower lower org) = none) :
    replaceOrg lower rawURL org = some (rawURL, toLower lower rawURL) := by
  unfold replaceOrg
  rw [h]

theorem replaceOrg_of_index_some (rawURL org : GoString) (idx : Nat)
    (h : index (toLower lower rawURL) (toLower lower org) = some idx)
    (hlen : idx + org.length ≤ rawURL.length) :
    replaceOrg lower rawURL org =
      some (rawURL.take idx ++ bytes "{ORG}" ++ rawURL.drop (idx + org.length),
        toLower lower (rawURL.take idx ++ bytes "{ORG}" ++ rawURL.drop (idx + org.length))) := by
  unfold replaceOrg
  rw [h]
  simp only
  unfold sliceTo sliceFrom
  rw [if_pos (by omega), if_pos hlen]
  rfl

theorem replaceRepo_of_index_none (result lowerURL repo : GoString)
    (h : index lowerURL (toLower lower repo) = none) :
    replaceRepo lower result lowerURL repo = some result := by
  unfold replaceRepo
  rw [h]

theorem replaceRepo_of_index_some (result lowerURL repo : GoString) (idx : Nat)
    (h : index lowerURL (toLower lower repo) = some idx) (hlen : idx ≤ result.length) :
    replaceRepo lower result lowerURL repo = some (result.take idx ++ bytes "{REPO}/.*") := by
  unfold replaceRepo
  rw [h]
  simp only
  unfold sliceTo
  rw [if_pos hlen]
  rfl

theorem index_toLower_append (p d s sub : GoString) (hascii : isASCII (p ++ d ++ s))
    (hd : toLower lower d = sub)
    (hfirst : ∀ j, j < p.length → ¬ sub <+: (toLower lower (p ++ d ++ s)).drop j) :
    index (toLower lower (p ++ d ++ s)) sub = some p.length := by
  have hpd := isASCII_append.mp hascii
  have hp := (isASCII_append.mp hpd.1).1
  have hdA := (isASCII_append.mp hpd.1).2
  rw [index_some_iff]
  refine ⟨?_, ?_, hfirst⟩
  · rw [length_toLower_of_isASCII _ hascii]
    simp only [List.length_append]
    omega
  · rw [toLower_append_of_isASCII _ _ hpd.1 hpd.2, toLower_append_of_isASCII _ _ hp hdA,
      List.append_assoc]
    have hl : (toLower lower p).length = p.length := length_toLower_of_isASCII p hp
    rw [← hl, List.drop_left, hd]
    exact List.prefix_append _ _

theorem bytes_repo_pattern :
    bytes "{REPO}/.*" = [0x7B, 0x52, 0x45, 0x50, 0x4F, 0x7D, 0x2F, 0x2E, 0x2A] := by decide

theorem bytes_org_pattern : bytes "{ORG}" = [0x7B, 0x4F, 0x52, 0x47, 0x7D] := by decide

/-- C2 (failing input): the rule pattern `https://x/*` does not classify
`https://x/abc`; it matches the text `https://x/*` only, and neither does
the rule pattern `https://x/.*` classify `https://x/abc`. -/
theorem lookupBadge_star_is_literal :
    lookupBadge lowerExcerpt (bytes "https://x/abc")
        ⟨[⟨bytes "id", bytes "https://x/*", bytes "N", bytes "C", bytes ""⟩]⟩ =
      (bytes "Unknown", bytes "Unknown", bytes "", bytes "https:--x-abc")
    ∧ ruleRegex (bytes "https://x/*") = bytes "^https://x/\\*$"
    ∧ lookupBadge lowerExcerpt (bytes "https://x/*")
        ⟨[⟨bytes "id", bytes "https://x/*", bytes "N", bytes "C", bytes ""⟩]⟩ =
      (bytes "N", bytes "C", bytes "", bytes "id")
    ∧ lookupBadge lowerExcerpt (bytes "https://x/abc")
        ⟨[⟨bytes "id", bytes "https://x/.*", bytes "N", bytes "C", bytes ""⟩]⟩ =
      (bytes "Unknown", bytes "Unknown", bytes "", bytes "https:--x-abc") := by
  refine ⟨?_, ?_, ?_, ?_⟩ <;> decide

/-- C3 (counterexample): the empty pattern with no rule gets the empty id,
and so does any pattern matched by a rule whose id is empty. -/
theorem lookupBadge_id_empty :
    (lookupBadge lowerExcerpt (bytes "") ⟨[]⟩).2.2.2 = bytes ""
    ∧ (lookupBadge lowerExcerpt
        (bytes "a") ⟨[⟨bytes "", bytes "a", bytes "N", bytes "C", bytes ""⟩]⟩).2.2.2
        = bytes "" := by
  refine ⟨?_, ?_⟩ <;> decide

theorem normalizeRepoName_ne_nil (name : GoString) (h : name ≠ []) :
    normalizeRepoName lower name ≠ [] := by
  rw [normalizeRepoName_eq_map]
  intro hnil
  exact toLower_ne_nil name h (List.map_eq_nil_iff.mp hnil)

/-- C3 (amended): for a non-empty pattern and a rule list in which every
rule has a non-empty id, the id returned by `lookupBadge` is non-empty. -/
theorem lookupBadge_id_ne_nil (pattern : GoString) (config : BadgeConfig)
    (hp : pattern ≠ []) (hid : ∀ e ∈ config.Badges, e.ID ≠ []) :
    (lookupBadge lower pattern config).2.2.2 ≠ [] := by
  unfold lookupBadge
  rw [lookupBadgeLoop_find]
  cases hf : config.Badges.find? (ruleMatches pattern) with
  | none => exact normalizeRepoName_ne_nil pattern hp
  | some e => exact hid e (List.mem_of_find?_eq_some hf)

/-- Witness of C3 (amended) on the pattern `https://x/y` and one rule with id `id`. -/
theorem lookupBadge_id_ne_nil_witness :
    (lookupBadge lowerExcerpt (bytes "https://x/y")
      ⟨[⟨bytes "id", bytes "https://x/{REPO}", bytes "N", bytes "C", bytes ""⟩]⟩).2.2.2 ≠ [] :=
  lookupBadge_id_ne_nil (bytes "https://x/y")
    ⟨[⟨bytes "id", bytes "https://x/{REPO}", bytes "N", bytes "C", bytes ""⟩]⟩
    (by decide) (by decide)

/-- C4 (counterexample): the URL `https://h/repo/x.svg` of document `repo`
satisfies the premises of the claim, and the pattern returned ends in
`{REPO}/.*`, not in `{REPO}/*`. -/
theorem canonicalizeURL_repo_suffix :
    bytes "https://h/repo/x.svg" = bytes "https://h/" ++ bytes "repo" ++ bytes "/x.svg"
    ∧ replaceOrg lowerExcerpt (bytes "https://h/repo/x.svg") (bytes "acme") =
      some (bytes "https://h/repo/x.svg", toLower lowerExcerpt (bytes "https://h/repo/x.svg"))
    ∧ index (toLower lowerExcerpt (bytes "https://h/repo/x.svg")) (toLower lowerExcerpt
        (bytes "repo")) =
      some (bytes "https://h/").length
    ∧ 0x3F ∉ bytes "https://h/"
    ∧ canonicalizeURL lowerExcerpt (bytes "https://h/repo/x.svg") (bytes "acme") (bytes "repo") =
      some (bytes "https://h/" ++ bytes "{REPO}/.*")
    ∧ canonicalizeURL lowerExcerpt (bytes "https://h/repo/x.svg") (bytes "acme") (bytes "repo") ≠
      some (bytes "https://h/" ++ bytes "{REPO}/*") := by
  refine ⟨?_, ?_, ?_, ?_, ?_, ?_⟩ <;> decide

/-- C4 (amended): when the URL after the organization substitution is the
ASCII text `p ++ d ++ s`, where `d` equals the document name ignoring case,
the document name does not occur (ignoring case) at an earlier position and
`p` holds no `?`, then `canonicalizeURL` returns `p` followed by exactly
`{REPO}/.*`. -/
theorem canonicalizeURL_repo (rawURL org repo p d s L : GoString)
    (hsub : replaceOrg lower rawURL org = some (p ++ d ++ s, L))
    (hascii : isASCII (p ++ d ++ s))
    (hd : toLower lower d = toLower lower repo)
    (hfirst : ∀ j, j < p.length → ¬ toLower lower repo <+: (toLower lower (p ++ d ++ s)).drop j)
    (hq : 0x3F ∉ p) :
    canonicalizeURL lower rawURL org repo = some (p ++ bytes "{REPO}/.*") := by
  have hL := replaceOrg_snd _ _ _ _ hsub
  subst hL
  have hidx := index_toLower_append p d s (toLower lower repo) hascii hd hfirst
  unfold canonicalizeURL
  rw [hsub]
  simp only [Option.some_bind]
  rw [replaceRepo_of_index_some _ _ _ _ hidx (by simp only [List.length_append]; omega)]
  simp only [Option.map_some', Option.some.injEq]
  rw [List.append_assoc, List.take_left]
  apply stripToken_of_not_mem
  rw [bytes_repo_pattern]
  intro hmem
  rcases List.mem_append.mp hmem with hm | hm
  · exact hq hm
  · revert hm; decide

/-- Witness of C4 (amended) on `https://h/Acme/Repo/x.svg`, organization `acme`,
document `repo`. -/
theorem canonicalizeURL_repo_witness :
    canonicalizeURL lowerExcerpt (bytes "https://h/Acme/Repo/x.svg") (bytes "acme") (bytes "repo") =
      some (bytes "https://h/{ORG}/" ++ bytes "{REPO}/.*") :=
  canonicalizeURL_repo (bytes "https://h/Acme/Repo/x.svg") (bytes "acme") (bytes "repo")
    (bytes "https://h/{ORG}/") (bytes "Repo") (bytes "/x.svg")
    (bytes "https://h/{org}/repo/x.svg") (by decide) (by decide) (by decide) (by decide)
    (by decide)

/-- The organization substitution outside ASCII names: for the URL `xk/y`
and the name U+212A (Kelvin sign, three bytes, lower case `k`) the pattern
returned is `x{ORG}`, and on `xk` the function panics: the length cut out is
the byte length of the name, not of the occurrence.  The program never
passes such a name: the organization name is the owner part of a GitHub
repository URL, which is ASCII. -/
theorem canonicalizeURL_org_kelvin :
    toLower lowerExcerpt (bytes "k") = toLower lowerExcerpt [0xE2, 0x84, 0xAA]
    ∧ index (toLower lowerExcerpt (bytes "x" ++ bytes "{ORG}" ++ bytes "/y")) (toLower lowerExcerpt
        (bytes "zz")) = none
    ∧ canonicalizeURL lowerExcerpt (bytes "x" ++ bytes "k" ++ bytes "/y") [0xE2, 0x84, 0xAA]
        (bytes "zz") =
        some (bytes "x{ORG}")
    ∧ canonicalizeURL lowerExcerpt (bytes "xk") [0xE2, 0x84, 0xAA] (bytes "zz") = none := by
  refine ⟨?_, ?_, ?_, ?_⟩ <;> decide

/-- C8 (failing input): on the URL U+023A `x` (bytes C8 BA 78, lower case
E2 B1 A5 78) with organization `x`, the index found in the lower-cased URL
is 3 and the slice `result[idx+len(org):]` is out of range: the function
panics. -/
theorem canonicalizeURL_panics :
    toLower lowerExcerpt [0xC8, 0xBA, 0x78] = [0xE2, 0xB1, 0xA5, 0x78]
    ∧ index (toLower lowerExcerpt [0xC8, 0xBA, 0x78]) (toLower lowerExcerpt (bytes "x")) = some 3
    ∧ sliceFrom [0xC8, 0xBA, 0x78] (3 + (bytes "x").length) = none
    ∧ canonicalizeURL lowerExcerpt [0xC8, 0xBA, 0x78] (bytes "x") (bytes "repo") = none := by
  refine ⟨?_, ?_, ?_, ?_⟩ <;> decide

theorem index_append_left (s t sub : GoString) (j : Nat) (h : index s sub = some j) :
    index (s ++ t) sub = some j := by
  rw [index_some_iff] at h ⊢
  rcases h with ⟨hle, hpre, hmin⟩
  refine ⟨by simp only [List.length_append]; omega, ?_, ?_⟩
  · rw [List.drop_append_of_le_length hle]
    exact hpre.trans (List.prefix_append _ _)
  · intro k hk hp
    apply hmin k hk
    rw [List.drop_append_of_le_length (by omega)] at hp
    have hlen : sub.length ≤ (s.drop k).length := by
      have h1 := hpre.length_le
      simp only [List.length_drop] at h1 ⊢
      omega
    exact List.prefix_of_prefix_length_le hp (List.prefix_append _ _) hlen

theorem index_add_length_le (s sub : GoString) (j : Nat) (h : index s sub = some j) :
    j + sub.length ≤ s.length := by
  rw [index_some_iff] at h
  have h1 := h.2.1.length_le
  simp only [List.length_drop] at h1
  omega

theorem isASCII_take (s : GoString) (n : Nat) (h : isASCII s) : isASCII (s.take n) :=
  fun b hb => h b (List.mem_of_mem_take hb)

theorem isASCII_drop (s : GoString) (n : Nat) (h : isASCII s) : isASCII (s.drop n) :=
  fun b hb => h b (List.mem_of_mem_drop hb)

theorem isASCII_org_pattern : isASCII (bytes "{ORG}") := by decide

theorem replaceOrg_of_isASCII (rawURL org : GoString) (hu : isASCII rawURL)
    (ho : isASCII org) :
    ∃ R, replaceOrg lower rawURL org = some (R, toLower lower R) ∧ isASCII R := by
  cases hi : index (toLower lower rawURL) (toLower lower org) with
  | none => exact ⟨rawURL, replaceOrg_of_index_none _ _ hi, hu⟩
  | some idx =>
    have hlen := index_add_length_le _ _ _ hi
    rw [length_toLower_of_isASCII _ hu, length_toLower_of_isASCII _ ho] at hlen
    refine ⟨_, replaceOrg_of_index_some _ _ _ hi hlen, ?_⟩
    exact isASCII_append.mpr ⟨isASCII_append.mpr ⟨isASCII_take _ _ hu, isASCII_org_pattern⟩,
      isASCII_drop _ _ hu⟩

theorem replaceRepo_isSome (result repo : GoString) (hr : isASCII result) :
    ∃ out, replaceRepo lower result (toLower lower result) repo = some out := by
  cases hi : index (toLower lower result) (toLower lower repo) with
  | none => exact ⟨result, replaceRepo_of_index_none _ _ _ hi⟩
  | some idx =>
    have hlen := index_add_length_le _ _ _ hi
    rw [length_toLower_of_isASCII _ hr] at hlen
    exact ⟨_, replaceRepo_of_index_some _ _ _ _ hi (by omega)⟩

theorem canonicalizeURL_isSome_of_isASCII (rawURL org repo : GoString)
    (hu : isASCII rawURL) (ho : isASCII org) :
    ∃ pattern, canonicalizeURL lower rawURL org repo = some pattern := by
  rcases replaceOrg_of_isASCII rawURL org hu ho with ⟨R, hR, hRa⟩
  rcases replaceRepo_isSome R repo hRa with ⟨out, hout⟩
  refine ⟨stripToken out, ?_⟩
  unfold canonicalizeURL
  rw [hR]
  simp only [Option.some_bind]
  rw [hout]
  rfl

theorem replaceOrg_append_right (u org t : GoString) (hu : isASCII u) (ho : isASCII org)
    (ht : isASCII t) (j : Nat) (hj : index (toLower lower u) (toLower lower org) = some j) :
    ∃ Y, replaceOrg lower u org = some (Y, toLower lower Y) ∧ isASCII Y ∧
      replaceOrg lower (u ++ t) org = some (Y ++ t, toLower lower (Y ++ t)) := by
  have hlen := index_add_length_le _ _ _ hj
  rw [length_toLower_of_isASCII _ hu, length_toLower_of_isASCII _ ho] at hlen
  refine ⟨_, replaceOrg_of_index_some _ _ _ hj hlen, ?_, ?_⟩
  · exact isASCII_append.mpr ⟨isASCII_append.mpr ⟨isASCII_take _ _ hu, isASCII_org_pattern⟩,
      isASCII_drop _ _ hu⟩
  · have hj2 : index (toLower lower (u ++ t)) (toLower lower org) = some j := by
      rw [toLower_append_of_isASCII _ _ hu ht]
      exact index_append_left _ _ _ _ hj
    rw [replaceOrg_of_index_some _ _ _ hj2 (by simp only [List.length_append]; omega)]
    have e1 : (u ++ t).take j = u.take j := List.take_append_of_le_length (by omega)
    have e2 : (u ++ t).drop (j + org.length) = u.drop (j + org.length) ++ t :=
      List.drop_append_of_le_length hlen
    rw [e1, e2]
    simp only [List.append_assoc]

theorem index_org_in_suffix (a org : GoString) (ha : isASCII a) (ho : isASCII org) :
    ∃ j, index (toLower lower (a ++ org)) (toLower lower org) = some j := by
  cases hi : index (toLower lower (a ++ org)) (toLower lower org) with
  | some j => exact ⟨j, rfl⟩
  | none =>
    exfalso
    rw [index_none_iff] at hi
    apply hi a.length
    · rw [length_toLower_of_isASCII _ (isASCII_append.mpr ⟨ha, ho⟩)]
      simp
    · rw [toLower_append_of_isASCII _ _ ha ho]
      have hl : (toLower lower a).length = a.length := length_toLower_of_isASCII a ha
      rw [← hl, List.drop_left]

/-- The pattern of a URL in which the organization name and the document
name both stand at their first case-insensitive occurrence: `Y` is the
organization-substituted prefix `a ++ org`. -/
theorem canonicalizeURL_embedded (org a b c d Y LY : GoString)
    (ha : isASCII a) (ho : isASCII org) (hb : isASCII b) (hc : isASCII c) (hd : isASCII d)
    (hY : replaceOrg lower (a ++ org) org = some (Y, LY))
    (hfirst : ∀ j, j < (Y ++ b).length →
      ¬ toLower lower d <+: (toLower lower (Y ++ b ++ d ++ c)).drop j) :
    canonicalizeURL lower (a ++ org ++ b ++ d ++ c) org d =
      some (stripToken (Y ++ b ++ bytes "{REPO}/.*")) := by
  rcases index_org_in_suffix a org ha ho with ⟨j, hj⟩
  have ht : isASCII (b ++ d ++ c) := isASCII_append.mpr ⟨isASCII_append.mpr ⟨hb, hd⟩, hc⟩
  rcases replaceOrg_append_right (a ++ org) org (b ++ d ++ c) (isASCII_append.mpr ⟨ha, ho⟩) ho ht
    j hj with ⟨Y2, hY2, hY2a, hrep⟩
  rw [hY] at hY2
  simp only [Option.some.injEq, Prod.mk.injEq] at hY2
  obtain ⟨hYY, _⟩ := hY2
  subst hYY
  have hascii : isASCII (Y ++ b ++ d ++ c) :=
    isASCII_append.mpr ⟨isASCII_append.mpr ⟨isASCII_append.mpr ⟨hY2a, hb⟩, hd⟩, hc⟩
  have hidx := index_toLower_append (Y ++ b) d c (toLower lower d) hascii rfl hfirst
  have e : a ++ org ++ b ++ d ++ c = (a ++ org) ++ (b ++ d ++ c) := by
    simp only [List.append_assoc]
  have e2 : Y ++ (b ++ d ++ c) = Y ++ b ++ d ++ c := by simp only [List.append_assoc]
  unfold canonicalizeURL
  rw [e, hrep]
  simp only [Option.some_bind]
  rw [e2, replaceRepo_of_index_some _ _ _ _ hidx (by simp only [List.length_append]; omega)]
  simp only [Option.map_some', Option.some.injEq]
  have e3 : Y ++ b ++ d ++ c = (Y ++ b) ++ (d ++ c) := by simp only [List.append_assoc]
  rw [e3, List.take_left]

theorem reposLoop_two_same_pattern (config : BadgeConfig) (org : GoString)
    (r1 r2 : RepositoryData) (b1 b2 : Badge) (pattern : GoString)
    (vm : DashboardViewModel)
    (hr1 : r1.Badges = [b1]) (hr2 : r2.Badges = [b2])
    (h1 : canonicalizeURL lower b1.ImageURL org r1.Repository = some pattern)
    (h2 : canonicalizeURL lower b2.ImageURL org r2.Repository = some pattern) :
    ∃ vm2 info sums, reposLoop lower config org [r1, r2] vm [] [] = some
        (vm2, [(pattern, info)], sums)
      ∧ info.Repos = [r1.Repository, r2.Repository] := by
  simp [reposLoop, badgesLoop, hr1, hr2, h1, h2, recordBadge, appendRepo, newBadgeInfo]
  exact ⟨_, _, ⟨rfl, rfl⟩, rfl⟩

/-- C6 (counterexample): with `a = x`, `org = o`, `b` and `c` empty, the
document names `x` and `y` give different patterns, because `x` already
occurs before its embedded position. -/
theorem canonicalizeURL_doc_occurs_earlier :
    canonicalizeURL lowerExcerpt (bytes "x" ++ bytes "o" ++ bytes "" ++ bytes "x" ++ bytes "")
        (bytes "o")
        (bytes "x") = some (bytes "{REPO}/.*")
    ∧ canonicalizeURL lowerExcerpt (bytes "x" ++ bytes "o" ++ bytes "" ++ bytes "y" ++ bytes "")
        (bytes "o")
        (bytes "y") = some (bytes "x{ORG}{REPO}/.*")
    ∧ canonicalizeURL lowerExcerpt (bytes "x" ++ bytes "o" ++ bytes "" ++ bytes "x" ++ bytes "")
        (bytes "o")
        (bytes "x") ≠
      canonicalizeURL lowerExcerpt (bytes "x" ++ bytes "o" ++ bytes "" ++ bytes "y" ++ bytes "")
          (bytes "o")
        (bytes "y") := by
  refine ⟨?_, ?_, ?_⟩ <;> decide

/-- C6 (amended): for ASCII strings, when in each of the two URLs
`a ++ org ++ b ++ d ++ c` the document name `d` does not occur (ignoring
case) before its embedded position once the organization name has been
substituted (`Y` is the substituted `a ++ org`), the two URLs have the same
canonical pattern, and `buildDashboard` on two documents `d1`, `d2` carrying
one such badge each records a single aggregate whose document list is
`[d1, d2]`. -/
theorem canonicalizeURL_same_pattern (iter : (α : Type) → List α → List α)
    (config : BadgeConfig) (lastUpdated org a b c d1 d2 Y LY : GoString)
    (r1 r2 : RepositoryData)
    (ha : isASCII a) (ho : isASCII org) (hb : isASCII b) (hc : isASCII c)
    (hd1 : isASCII d1) (hd2 : isASCII d2)
    (hY : replaceOrg lower (a ++ org) org = some (Y, LY))
    (hfirst1 : ∀ j, j < (Y ++ b).length →
      ¬ toLower lower d1 <+: (toLower lower (Y ++ b ++ d1 ++ c)).drop j)
    (hfirst2 : ∀ j, j < (Y ++ b).length →
      ¬ toLower lower d2 <+: (toLower lower (Y ++ b ++ d2 ++ c)).drop j)
    (hr1 : r1.Repository = d1) (hr2 : r2.Repository = d2)
    (hb1 : r1.Badges.map (fun x => x.ImageURL) = [a ++ org ++ b ++ d1 ++ c])
    (hb2 : r2.Badges.map (fun x => x.ImageURL) = [a ++ org ++ b ++ d2 ++ c]) :
    canonicalizeURL lower (a ++ org ++ b ++ d1 ++ c) org d1 =
      canonicalizeURL lower (a ++ org ++ b ++ d2 ++ c) org d2
    ∧ ∃ vm pattern info,
        buildDashboard lower iter [r1, r2] config org lastUpdated = some (vm, [(pattern, info)])
        ∧ canonicalizeURL lower (a ++ org ++ b ++ d1 ++ c) org d1 = some pattern
        ∧ info.Repos = [d1, d2] := by
  have e1 := canonicalizeURL_embedded org a b c d1 Y LY ha ho hb hc hd1 hY hfirst1
  have e2 := canonicalizeURL_embedded org a b c d2 Y LY ha ho hb hc hd2 hY hfirst2
  refine ⟨by rw [e1, e2], ?_⟩
  obtain ⟨x1, hx1, hu1⟩ : ∃ x, r1.Badges = [x] ∧ x.ImageURL = a ++ org ++ b ++ d1 ++ c := by
    cases hB : r1.Badges with
    | nil => rw [hB] at hb1; cases hb1
    | cons x rest =>
      rw [hB] at hb1
      simp only [List.map_cons, List.cons.injEq, List.map_eq_nil_iff] at hb1
      exact ⟨x, by rw [hb1.2], hb1.1⟩
  obtain ⟨x2, hx2, hu2⟩ : ∃ x, r2.Badges = [x] ∧ x.ImageURL = a ++ org ++ b ++ d2 ++ c := by
    cases hB : r2.Badges with
    | nil => rw [hB] at hb2; cases hb2
    | cons x rest =>
      rw [hB] at hb2
      simp only [List.map_cons, List.cons.injEq, List.map_eq_nil_iff] at hb2
      exact ⟨x, by rw [hb2.2], hb2.1⟩
  have c1 : canonicalizeURL lower x1.ImageURL org r1.Repository =
      some (stripToken (Y ++ b ++ bytes "{REPO}/.*")) := by rw [hu1, hr1, e1]
  have c2 : canonicalizeURL lower x2.ImageURL org r2.Repository =
      some (stripToken (Y ++ b ++ bytes "{REPO}/.*")) := by rw [hu2, hr2, e2]
  rcases reposLoop_two_same_pattern config org r1 r2 x1 x2 _
    { OrgName := org, TotalRepos := [r1, r2].length, TotalBadges := 0, ReposWithBadges := 0,
      ReposNoBadges := 0, Repositories := [], BadgesByCategory := [], UniqueBadgeCount := 0,
      LastUpdated := lastUpdated } hx1 hx2 c1 c2 with ⟨vm2, info, sums, hloop, hrepos⟩
  unfold buildDashboard
  simp only
  rw [hloop]
  exact ⟨_, _, info, rfl, e1, by rw [hrepos, hr1, hr2]⟩

/-- Witness of C6 (amended): the badges `https://h/acme/r1/badge.svg` of document `r1`
and `https://h/acme/r2/badge.svg` of document `r2`. -/
theorem canonicalizeURL_same_pattern_witness :
    canonicalizeURL lowerExcerpt (bytes "https://h/" ++ bytes "acme" ++ bytes "/" ++ bytes "r1" ++
        bytes "/badge.svg") (bytes "acme") (bytes "r1") =
      canonicalizeURL lowerExcerpt (bytes "https://h/" ++ bytes "acme" ++ bytes "/" ++ bytes "r2" ++
        bytes "/badge.svg") (bytes "acme") (bytes "r2")
    ∧ ∃ vm pattern info,
        buildDashboard lowerExcerpt (fun _ l => l)
          [⟨bytes "r1", [], [], true, [⟨[], bytes "https://h/" ++ bytes "acme" ++ bytes "/" ++
              bytes "r1" ++ bytes "/badge.svg", [], [], []⟩]⟩,
           ⟨bytes "r2", [], [], true, [⟨[], bytes "https://h/" ++ bytes "acme" ++ bytes "/" ++
              bytes "r2" ++ bytes "/badge.svg", [], [], []⟩]⟩]
          ⟨[]⟩ (bytes "acme") (bytes "now") = some (vm, [(pattern, info)])
        ∧ canonicalizeURL lowerExcerpt
            (bytes "https://h/" ++ bytes "acme" ++ bytes "/" ++ bytes "r1" ++
            bytes "/badge.svg") (bytes "acme") (bytes "r1") = some pattern
        ∧ info.Repos = [bytes "r1", bytes "r2"] :=
  canonicalizeURL_same_pattern (fun _ l => l) ⟨[]⟩ (bytes "now") (bytes "acme")
    (bytes "https://h/") (bytes "/") (bytes "/badge.svg") (bytes "r1") (bytes "r2")
    (bytes "https://h/{ORG}") (bytes "https://h/{org}") _ _
    (by decide) (by decide) (by decide) (by decide) (by decide) (by decide) (by decide)
    (by decide) (by decide) rfl rfl rfl rfl

/-! ## Facts about `buildDashboard` -/

theorem any_fst_eq_iff {β : Type} (m : List (GoString × β)) (p : GoString) :
    m.any (fun e => decide (e.1 = p)) = true ↔ p ∈ m.map Prod.fst := by
  simp only [List.any_eq_true, decide_eq_true_eq, List.mem_map]

theorem appendRepo_fst (p repo : GoString) (e : GoString × badgeInfo) :
    (appendRepo p repo e).1 = e.1 := by
  unfold appendRepo
  split <;> rfl

theorem appendRepo_repos (p repo : GoString) (e : GoString × badgeInfo) :
    (appendRepo p repo e).2.Repos = if e.1 = p then e.2.Repos ++ [repo] else e.2.Repos := by
  unfold appendRepo
  split <;> rfl

theorem map_appendRepo_keys (p repo : GoString) (m : BadgeMap) :
    (m.map (appendRepo p repo)).map Prod.fst = m.map Prod.fst := by
  rw [List.map_map]
  apply List.map_congr_left
  intro e _
  exact appendRepo_fst p repo e

theorem filter_snoc_repos (occ : List (GoString × GoString)) (p repo k : GoString) :
    ((occ ++ [(p, repo)]).filter (fun o => decide (o.1 = k))).map Prod.snd =
      (occ.filter (fun o => decide (o.1 = k))).map Prod.snd ++ (if p = k then [repo] else []) := by
  rw [List.filter_append, List.map_append]
  congr 1
  by_cases h : p = k
  · simp [h]
  · simp [h]

theorem records_step (m m0 : BadgeMap) (p repo : GoString)
    (occ : List (GoString × GoString))
    (hnd : (m0.map Prod.fst).Nodup)
    (hp : p ∈ m0.map Prod.fst)
    (hocc : ∀ o ∈ occ, o.1 ∈ m0.map Prod.fst)
    (hkeys : ∀ e ∈ m0, e.1 = p ∨ e.1 ∈ occ.map Prod.fst)
    (hrepos : ∀ e ∈ m0, e.2.Repos = (occ.filter (fun o => o.1 = e.1)).map Prod.snd)
    (hm : m = m0.map (appendRepo p repo)) :
    m.Records (occ ++ [(p, repo)]) := by
  subst hm
  refine ⟨by rw [map_appendRepo_keys]; exact hnd, ?_, ?_, ?_⟩
  · intro o ho
    rw [map_appendRepo_keys]
    rcases List.mem_append.mp ho with ho | ho
    · exact hocc o ho
    · simp only [List.mem_singleton] at ho
      subst ho
      exact hp
  · intro e he
    rcases List.mem_map.mp he with ⟨e0, he0, rfl⟩
    rw [appendRepo_fst, List.map_append, List.mem_append]
    rcases hkeys e0 he0 with h | h
    · right; simp [h]
    · left; exact h
  · intro e he
    rcases List.mem_map.mp he with ⟨e0, he0, rfl⟩
    rw [appendRepo_repos, appendRepo_fst, filter_snoc_repos, hrepos e0 he0]
    by_cases h : e0.1 = p
    · rw [if_pos h, if_pos h.symm]
    · rw [if_neg h, if_neg (fun h2 => h h2.symm), List.append_nil]

theorem recordBadge_records (config : BadgeConfig) (m : BadgeMap) (p : GoString) (b : Badge)
    (repo : GoString) (occ : List (GoString × GoString)) (h : m.Records occ) :
    (recordBadge lower config m p b repo).Records (occ ++ [(p, repo)]) := by
  obtain ⟨hnd, hocc, hkeys, hrepos⟩ := h
  unfold recordBadge
  simp only
  by_cases hp : p ∈ m.map Prod.fst
  · rw [if_pos ((any_fst_eq_iff m p).mpr hp)]
    exact records_step _ m p repo occ hnd hp hocc (fun e he => Or.inr (hkeys e he)) hrepos rfl
  · rw [if_neg (fun h => hp ((any_fst_eq_iff m p).mp h))]
    have hnone : occ.filter (fun o => decide (o.1 = p)) = [] := by
      rw [List.filter_eq_nil_iff]
      intro o ho
      simp only [decide_eq_true_eq]
      intro hop
      exact hp (hop ▸ hocc o ho)
    apply records_step _ (m ++ [(p, newBadgeInfo lower config p b)]) p repo occ
    · rw [List.map_append]
      exact List.Nodup.append hnd (List.nodup_singleton p)
        (by simpa [List.disjoint_singleton] using hp)
    · simp
    · intro o ho
      rw [List.map_append]
      exact List.mem_append_left _ (hocc o ho)
    · intro e he
      rcases List.mem_append.mp he with he | he
      · exact Or.inr (hkeys e he)
      · simp only [List.mem_singleton] at he
        subst he
        exact Or.inl rfl
    · intro e he
      rcases List.mem_append.mp he with he | he
      · exact hrepos e he
      · simp only [List.mem_singleton] at he
        subst he
        rw [hnone]
        rfl
    · rfl

theorem records_nil : BadgeMap.Records [] [] := by
  refine ⟨List.nodup_nil, ?_, ?_, ?_⟩ <;> intro x hx <;> cases hx

theorem badgesLoop_records (config : BadgeConfig) (org repo : GoString) :
    ∀ (badges : List Badge) (summary : RepoSummary) (m : BadgeMap)
      (occ : List (GoString × GoString)) (res : RepoSummary × BadgeMap),
      badgesLoop lower config org repo badges summary m = some res → m.Records occ →
      res.2.Records (occ ++ occurrencesOf lower org repo badges) := by
  intro badges
  induction badges with
  | nil =>
    intro summary m occ res h hr
    unfold badgesLoop at h
    simp only [Option.some.injEq] at h
    subst h
    simpa [occurrencesOf] using hr
  | cons b rest ih =>
    intro summary m occ res h hr
    unfold badgesLoop at h
    cases hc : canonicalizeURL lower b.ImageURL org repo with
    | none => rw [hc] at h; cases h
    | some p =>
      rw [hc] at h
      simp only at h
      have := ih _ _ (occ ++ [(p, repo)]) res h (recordBadge_records config m p b repo occ hr)
      have e : occurrencesOf lower org repo (b :: rest) =
          (p, repo) :: occurrencesOf lower org repo rest := by
        unfold occurrencesOf
        rw [List.filterMap_cons, hc]
        rfl
      rw [e]
      simpa using this

theorem reposLoop_records (config : BadgeConfig) (org : GoString) :
    ∀ (repos : List RepositoryData) (vm : DashboardViewModel) (m : BadgeMap)
      (sums : List RepoSummary) (occ : List (GoString × GoString))
      (res : DashboardViewModel × BadgeMap × List RepoSummary),
      reposLoop lower config org repos vm m sums = some res → m.Records occ →
      res.2.1.Records (occ ++ occurrences lower org repos) := by
  intro repos
  induction repos with
  | nil =>
    intro vm m sums occ res h hr
    unfold reposLoop at h
    simp only [Option.some.injEq] at h
    subst h
    simpa [occurrences] using hr
  | cons r rest ih =>
    intro vm m sums occ res h hr
    unfold reposLoop at h
    simp only at h
    cases hb : badgesLoop lower config org r.Repository r.Badges
        { Name := r.Repository, BadgeCount := r.Badges.length, BadgeIDs := [] } m with
    | none => rw [hb] at h; cases h
    | some sm =>
      rw [hb] at h
      obtain ⟨s1, m1⟩ := sm
      simp only at h
      have h1 := badgesLoop_records config org r.Repository r.Badges _ m occ _ hb hr
      have := ih _ _ _ _ res h h1
      have e : occurrences lower org (r :: rest) =
          occurrencesOf lower org r.Repository r.Badges ++ occurrences lower org rest := by
        unfold occurrences
        rw [List.flatMap_cons]
      rw [e, ← List.append_assoc]
      exact this

theorem badgesLoop_isSome (config : BadgeConfig) (org repo : GoString) :
    ∀ (badges : List Badge) (summary : RepoSummary) (m : BadgeMap),
      (∀ b ∈ badges, (canonicalizeURL lower b.ImageURL org repo).isSome = true) →
      ∃ res, badgesLoop lower config org repo badges summary m = some res := by
  intro badges
  induction badges with
  | nil => intro summary m _; exact ⟨_, rfl⟩
  | cons b rest ih =>
    intro summary m h
    unfold badgesLoop
    have hb := h b (List.mem_cons_self _ _)
    cases hc : canonicalizeURL lower b.ImageURL org repo with
    | none => rw [hc] at hb; cases hb
    | some p =>
      simp only
      exact ih _ _ (fun x hx => h x (List.mem_cons_of_mem _ hx))

theorem reposLoop_isSome (config : BadgeConfig) (org : GoString) :
    ∀ (repos : List RepositoryData) (vm : DashboardViewModel) (m : BadgeMap)
      (sums : List RepoSummary),
      (∀ r ∈ repos, ∀ b ∈ r.Badges,
        (canonicalizeURL lower b.ImageURL org r.Repository).isSome = true) →
      ∃ res, reposLoop lower config org repos vm m sums = some res := by
  intro repos
  induction repos with
  | nil => intro vm m sums _; exact ⟨_, rfl⟩
  | cons r rest ih =>
    intro vm m sums h
    unfold reposLoop
    simp only
    rcases badgesLoop_isSome config org r.Repository r.Badges
      { Name := r.Repository, BadgeCount := r.Badges.length, BadgeIDs := [] } m
      (h r (List.mem_cons_self _ _)) with ⟨⟨s1, m1⟩, hres⟩
    rw [hres]
    simp only
    exact ih _ _ _ (fun x hx => h x (List.mem_cons_of_mem _ hx))

theorem strLe_refl : ∀ a : GoString, strLe a a = true := by
  intro a
  induction a with
  | nil => rfl
  | cons x xs ih => simp [strLe, ih]

theorem strLe_total : ∀ a b : GoString, strLe a b = true ∨ strLe b a = true := by
  intro a
  induction a with
  | nil => intro b; left; cases b <;> rfl
  | cons x xs ih =>
    intro b
    cases b with
    | nil => right; rfl
    | cons y ys =>
      simp only [strLe, Bool.or_eq_true, decide_eq_true_eq, Bool.and_eq_true, beq_iff_eq]
      rcases Nat.lt_trichotomy x y with h | h | h
      · left; left; exact h
      · subst h
        rcases ih ys with h2 | h2
        · left; right; exact ⟨rfl, h2⟩
        · right; right; exact ⟨rfl, h2⟩
      · right; left; exact h

theorem strLe_trans : ∀ a b c : GoString, strLe a b = true → strLe b c = true →
    strLe a c = true := by
  intro a
  induction a with
  | nil => intro b c _ _; cases c <;> rfl
  | cons x xs ih =>
    intro b c hab hbc
    cases b with
    | nil => simp [strLe] at hab
    | cons y ys =>
      cases c with
      | nil => simp [strLe] at hbc
      | cons z zs =>
        simp only [strLe, Bool.or_eq_true, decide_eq_true_eq, Bool.and_eq_true,
          beq_iff_eq] at hab hbc ⊢
        rcases hab with h1 | ⟨h1, h1'⟩
        · rcases hbc with h2 | ⟨h2, _⟩
          · left; omega
          · left; omega
        · rcases hbc with h2 | ⟨h2, h2'⟩
          · left; omega
          · right; exact ⟨h1.trans h2, ih ys zs h1' h2'⟩

theorem strLe_antisymm : ∀ a b : GoString, strLe a b = true → strLe b a = true → a = b := by
  intro a
  induction a with
  | nil =>
    intro b _ hba
    cases b with
    | nil => rfl
    | cons y ys => simp [strLe] at hba
  | cons x xs ih =>
    intro b hab hba
    cases b with
    | nil => simp [strLe] at hab
    | cons y ys =>
      simp only [strLe, Bool.or_eq_true, decide_eq_true_eq, Bool.and_eq_true,
        beq_iff_eq] at hab hba
      rcases hab with h1 | ⟨h1, h1'⟩
      · rcases hba with h2 | ⟨h2, _⟩ <;> omega
      · rcases hba with h2 | ⟨_, h2'⟩
        · omega
        · rw [h1, ih ys h1' h2']

theorem sortStrings_perm (l : List GoString) : (sortStrings l).Perm l :=
  List.perm_insertionSort _ l

theorem sortStrings_sorted (l : List GoString) :
    (sortStrings l).Pairwise (fun a b => strLe a b = true) := by
  haveI : IsTotal GoString (fun a b => strLe a b = true) := ⟨strLe_total⟩
  haveI : IsTrans GoString (fun a b => strLe a b = true) := ⟨strLe_trans⟩
  exact List.sorted_insertionSort _ l

theorem categoryMapAppend_keys (m : CategoryMap) (bs : BadgeSummary) :
    (categoryMapAppend m bs).map Prod.fst =
      if bs.Category ∈ m.map Prod.fst then m.map Prod.fst
      else m.map Prod.fst ++ [bs.Category] := by
  unfold categoryMapAppend
  by_cases h : bs.Category ∈ m.map Prod.fst
  · rw [if_pos ((any_fst_eq_iff m bs.Category).mpr h), if_pos h, List.map_map]
    apply List.map_congr_left
    intro e _
    simp only [Function.comp]
    split <;> rfl
  · rw [if_neg (fun h2 => h ((any_fst_eq_iff m bs.Category).mp h2)), if_neg h, List.map_append]
    rfl

theorem categoryMapAppend_values (m : CategoryMap) (bs x : BadgeSummary)
    (e : GoString × List BadgeSummary) (he : e ∈ categoryMapAppend m bs) (hx : x ∈ e.2) :
    x = bs ∨ ∃ e0 ∈ m, x ∈ e0.2 := by
  unfold categoryMapAppend at he
  split at he
  · rcases List.mem_map.mp he with ⟨e0, he0, rfl⟩
    split at hx
    · rcases List.mem_append.mp hx with hx | hx
      · exact Or.inr ⟨e0, he0, hx⟩
      · left; simpa using hx
    · exact Or.inr ⟨e0, he0, hx⟩
  · rcases List.mem_append.mp he with he | he
    · exact Or.inr ⟨e, he, hx⟩
    · simp only [List.mem_singleton] at he
      subst he
      left; simpa using hx

theorem foldl_categoryMapAppend_keys (l : List BadgeSummary) :
    ∀ m : CategoryMap, (m.map Prod.fst).Nodup →
      ((l.foldl categoryMapAppend m).map Prod.fst).Nodup ∧
      ∀ c, c ∈ (l.foldl categoryMapAppend m).map Prod.fst ↔
        c ∈ m.map Prod.fst ∨ ∃ s ∈ l, s.Category = c := by
  induction l with
  | nil => intro m h; exact ⟨h, fun c => by simp⟩
  | cons bs rest ih =>
    intro m h
    rw [List.foldl_cons]
    have hk := categoryMapAppend_keys m bs
    have hnd : ((categoryMapAppend m bs).map Prod.fst).Nodup := by
      rw [hk]
      split
      · exact h
      · rename_i hn
        exact List.Nodup.append h (List.nodup_singleton _)
          (by simpa [List.disjoint_singleton] using hn)
    refine ⟨(ih _ hnd).1, ?_⟩
    intro c
    rw [(ih _ hnd).2 c, hk]
    constructor
    · rintro (hc | ⟨s, hs, rfl⟩)
      · split at hc
        · exact Or.inl hc
        · rcases List.mem_append.mp hc with hc | hc
          · exact Or.inl hc
          · simp only [List.mem_singleton] at hc
            exact Or.inr ⟨bs, List.mem_cons_self _ _, hc.symm⟩
      · exact Or.inr ⟨s, List.mem_cons_of_mem _ hs, rfl⟩
    · rintro (hc | ⟨s, hs, rfl⟩)
      · left
        split
        · exact hc
        · exact List.mem_append_left _ hc
      · rcases List.mem_cons.mp hs with hs | hs
        · subst hs
          left
          split
          · assumption
          · simp
        · exact Or.inr ⟨s, hs, rfl⟩

theorem foldl_categoryMapAppend_values (l : List BadgeSummary) :
    ∀ (m : CategoryMap) (e : GoString × List BadgeSummary) (x : BadgeSummary),
      e ∈ l.foldl categoryMapAppend m → x ∈ e.2 → x ∈ l ∨ ∃ e0 ∈ m, x ∈ e0.2 := by
  induction l with
  | nil => intro m e x he hx; exact Or.inr ⟨e, he, hx⟩
  | cons bs rest ih =>
    intro m e x he hx
    rw [List.foldl_cons] at he
    rcases ih _ e x he hx with h | ⟨e0, he0, hx0⟩
    · exact Or.inl (List.mem_cons_of_mem _ h)
    · rcases categoryMapAppend_values m bs x e0 he0 hx0 with h | h
      · exact Or.inl (h ▸ List.mem_cons_self _ _)
      · exact Or.inr h

theorem mem_summaries_iff (iter : (α : Type) → List α → List α)
    (hiter : ∀ (α : Type) (l : List α), (iter α l).Perm l) (badgeMap : BadgeMap)
    (x : BadgeSummary) :
    x ∈ (iter _ badgeMap).map summaryOf ↔ ∃ e ∈ badgeMap, x = summaryOf e := by
  rw [List.mem_map]
  constructor
  · rintro ⟨e, he, rfl⟩; exact ⟨e, (hiter _ badgeMap).subset he, rfl⟩
  · rintro ⟨e, he, rfl⟩; exact ⟨e, (hiter _ badgeMap).symm.subset he, rfl⟩

theorem categoryMapOf_keys (iter : (α : Type) → List α → List α)
    (hiter : ∀ (α : Type) (l : List α), (iter α l).Perm l) (badgeMap : BadgeMap) :
    ((categoryMapOf iter badgeMap).map Prod.fst).Nodup ∧
    ∀ c, c ∈ (categoryMapOf iter badgeMap).map Prod.fst ↔ ∃ e ∈ badgeMap, e.2.Category = c := by
  have h := foldl_categoryMapAppend_keys ((iter _ badgeMap).map summaryOf) [] List.nodup_nil
  refine ⟨h.1, ?_⟩
  intro c
  unfold categoryMapOf
  rw [h.2 c]
  constructor
  · rintro (hc | ⟨s, hs, rfl⟩)
    · cases hc
    · rcases (mem_summaries_iff iter hiter badgeMap s).mp hs with ⟨e, he, rfl⟩
      exact ⟨e, he, rfl⟩
  · rintro ⟨e, he, rfl⟩
    exact Or.inr ⟨summaryOf e, (mem_summaries_iff iter hiter badgeMap _).mpr ⟨e, he, rfl⟩, rfl⟩

theorem categoryMap_get_mem (m : CategoryMap) (cat : GoString) (x : BadgeSummary)
    (hx : x ∈ m.get cat) : ∃ e ∈ m, x ∈ e.2 := by
  unfold CategoryMap.get at hx
  cases hf : m.find? (fun e => decide (e.1 = cat)) with
  | none => rw [hf] at hx; cases hx
  | some e =>
    rw [hf] at hx
    exact ⟨e, List.mem_of_find?_eq_some hf, hx⟩

theorem moveUnknownLast_spec (l : List GoString) (hnd : l.Nodup)
    (hs : l.Pairwise (fun a b => strLe a b = true)) :
    (moveUnknownLast l).Nodup ∧ (∀ c, c ∈ moveUnknownLast l ↔ c ∈ l) ∧
    ∃ named, (moveUnknownLast l = named ∨ moveUnknownLast l = named ++ [bytes "Unknown"]) ∧
      bytes "Unknown" ∉ named ∧ named.Pairwise strLt := by
  have hfnd : (l.filter (fun cat => decide (cat ≠ bytes "Unknown"))).Nodup := hnd.filter _
  have hU : bytes "Unknown" ∉ l.filter (fun cat => decide (cat ≠ bytes "Unknown")) := by
    intro h
    have := (List.mem_filter.mp h).2
    simp at this
  have hsorted : (l.filter (fun cat => decide (cat ≠ bytes "Unknown"))).Pairwise strLt := by
    have h1 : l.Pairwise strLt := (hs.and hnd).imp (fun h => h)
    exact h1.filter _
  unfold moveUnknownLast
  simp only
  by_cases hany : l.any (fun cat => decide (cat = bytes "Unknown")) = true
  · rw [if_pos hany]
    have hmem : bytes "Unknown" ∈ l := by
      rcases List.any_eq_true.mp hany with ⟨x, hx, hxe⟩
      simp only [decide_eq_true_eq] at hxe
      exact hxe ▸ hx
    refine ⟨?_, ?_, _, Or.inr rfl, hU, hsorted⟩
    · exact List.Nodup.append hfnd (List.nodup_singleton _)
        (List.disjoint_singleton.mpr hU)
    · intro c
      rw [List.mem_append, List.mem_filter, List.mem_singleton]
      constructor
      · rintro (h | h)
        · exact h.1
        · exact h ▸ hmem
      · intro h
        by_cases hc : c = bytes "Unknown"
        · exact Or.inr hc
        · exact Or.inl ⟨h, by simpa using hc⟩
  · rw [if_neg hany]
    have hnot : bytes "Unknown" ∉ l := by
      intro h
      exact hany (List.any_eq_true.mpr ⟨_, h, by simp⟩)
    refine ⟨hfnd, ?_, _, Or.inl rfl, hU, hsorted⟩
    intro c
    rw [List.mem_filter]
    constructor
    · exact fun h => h.1
    · intro h
      refine ⟨h, ?_⟩
      simp only [ne_eq, decide_not, Bool.not_eq_true', decide_eq_false_iff_not]
      exact fun hc => hnot (hc ▸ h)

/-- What `buildDashboard` returns when no call of `canonicalizeURL` panics. -/
theorem buildDashboard_eq (iter : (α : Type) → List α → List α)
    (repos : List RepositoryData) (config : BadgeConfig) (orgName lastUpdated : GoString)
    (hsome : ∀ r ∈ repos, ∀ b ∈ r.Badges,
      (canonicalizeURL lower b.ImageURL orgName r.Repository).isSome = true) :
    ∃ vm badgeMap, buildDashboard lower iter repos config orgName lastUpdated = some
        (vm, badgeMap) ∧
      badgeMap.Records (occurrences lower orgName repos) ∧
      vm.BadgesByCategory =
        (moveUnknownLast (sortStrings ((iter _ (categoryMapOf iter badgeMap)).map Prod.fst))).map
          (categoryGroup (categoryMapOf iter badgeMap)) := by
  rcases reposLoop_isSome config orgName repos
    { OrgName := orgName, TotalRepos := repos.length, TotalBadges := 0, ReposWithBadges := 0,
      ReposNoBadges := 0, Repositories := [], BadgesByCategory := [], UniqueBadgeCount := 0,
      LastUpdated := lastUpdated } [] [] hsome with ⟨⟨vm0, m, sums⟩, hloop⟩
  have hrec := reposLoop_records config orgName repos _ [] [] [] _ hloop records_nil
  simp only [List.nil_append] at hrec
  unfold buildDashboard
  simp only
  rw [hloop]
  exact ⟨_, m, rfl, hrec, rfl⟩

/-- The groups of `buildDashboard` when no call of `canonicalizeURL` panics:
it returns, and the names of the groups in `BadgesByCategory` are pairwise distinct,
are exactly the categories of the aggregates in `badgeMap`, and consist of
the names other than `Unknown` in strictly ascending byte order, followed
by `Unknown` when it is present; this holds for every order `iter` in which
the maps are visited. -/
theorem buildDashboard_groups (iter : (α : Type) → List α → List α)
    (hiter : ∀ (α : Type) (l : List α), (iter α l).Perm l)
    (repos : List RepositoryData) (config : BadgeConfig) (orgName lastUpdated : GoString)
    (hsome : ∀ r ∈ repos, ∀ b ∈ r.Badges,
      (canonicalizeURL lower b.ImageURL orgName r.Repository).isSome = true) :
    ∃ vm badgeMap, buildDashboard lower iter repos config orgName lastUpdated = some
        (vm, badgeMap) ∧
      (vm.BadgesByCategory.map (fun g => g.Name)).Nodup ∧
      (∀ c, c ∈ vm.BadgesByCategory.map (fun g => g.Name) ↔ ∃ e ∈ badgeMap, e.2.Category = c) ∧
      ∃ named,
        (vm.BadgesByCategory.map (fun g => g.Name) = named ∨
          vm.BadgesByCategory.map (fun g => g.Name) = named ++ [bytes "Unknown"]) ∧
        bytes "Unknown" ∉ named ∧ named.Pairwise strLt := by
  rcases buildDashboard_eq iter repos config orgName lastUpdated hsome with
    ⟨vm, badgeMap, hbuild, _, hcats⟩
  refine ⟨vm, badgeMap, hbuild, ?_⟩
  have hnames : vm.BadgesByCategory.map (fun g => g.Name) =
      moveUnknownLast (sortStrings ((iter _ (categoryMapOf iter badgeMap)).map Prod.fst)) := by
    rw [hcats, List.map_map]
    exact List.map_id'' (fun _ => rfl) _
  rw [hnames]
  have hkeys := categoryMapOf_keys iter hiter badgeMap
  have hperm : (sortStrings ((iter _ (categoryMapOf iter badgeMap)).map Prod.fst)).Perm
      ((categoryMapOf iter badgeMap).map Prod.fst) :=
    (sortStrings_perm _).trans ((hiter _ _).map _)
  have hnd : (sortStrings ((iter _ (categoryMapOf iter badgeMap)).map Prod.fst)).Nodup :=
    hperm.nodup_iff.mpr hkeys.1
  have hspec := moveUnknownLast_spec _ hnd (sortStrings_sorted _)
  refine ⟨hspec.1, ?_, hspec.2.2⟩
  intro c
  rw [hspec.2.1 c, hperm.mem_iff, hkeys.2 c]

theorem occurrencesOf_filter (org repo p : GoString) :
    ∀ badges : List Badge,
      (badges.map (fun b => canonicalizeURL lower b.ImageURL org repo)).Nodup →
      ((occurrencesOf lower org repo badges).filter (fun o => decide (o.1 = p))).map Prod.snd =
        if badges.any (fun b => decide (canonicalizeURL lower b.ImageURL org repo = some p)) = true
        then [repo] else [] := by
  intro badges
  induction badges with
  | nil => intro _; rfl
  | cons b rest ih =>
    intro hnd
    rw [List.map_cons, List.nodup_cons] at hnd
    have ihr := ih hnd.2
    unfold occurrencesOf at ihr ⊢
    rw [List.filterMap_cons, List.any_cons]
    cases hc : canonicalizeURL lower b.ImageURL org repo with
    | none =>
      simp only [Option.map_none']
      rw [ihr]
      simp
    | some q =>
      simp only [Option.map_some']
      by_cases hq : q = p
      · subst hq
        have hrest : ¬ (rest.any (fun b => decide (canonicalizeURL lower b.ImageURL org repo
            = some q))
            = true) := by
          intro h
          rcases List.any_eq_true.mp h with ⟨x, hx, hxe⟩
          simp only [decide_eq_true_eq] at hxe
          apply hnd.1
          rw [hc, ← hxe]
          exact List.mem_map_of_mem _ hx
        rw [if_neg hrest] at ihr
        rw [List.filter_cons_of_pos (by simp), List.map_cons, ihr]
        simp
      · rw [List.filter_cons_of_neg (by simpa using hq), ihr]
        have : ¬ (some q = some p) := fun h => hq (Option.some.inj h)
        simp [this]

theorem occurrences_filter (org p : GoString) :
    ∀ repos : List RepositoryData,
      (∀ r ∈ repos,
        (r.Badges.map (fun b => canonicalizeURL lower b.ImageURL org r.Repository)).Nodup) →
      ((occurrences lower org repos).filter (fun o => decide (o.1 = p))).map Prod.snd =
        (repos.filter (references lower org p)).map (fun r => r.Repository) := by
  intro repos
  induction repos with
  | nil => intro _; rfl
  | cons r rest ih =>
    intro h
    have ihr := ih (fun x hx => h x (List.mem_cons_of_mem _ hx))
    have hr := occurrencesOf_filter org r.Repository p r.Badges (h r (List.mem_cons_self _ _))
    unfold occurrences at ihr ⊢
    rw [List.flatMap_cons, List.filter_append, List.map_append, ihr, hr]
    by_cases hp : references lower org p r = true
    · rw [List.filter_cons_of_pos hp]
      unfold references at hp
      rw [if_pos hp]
      rfl
    · rw [List.filter_cons_of_neg hp]
      unfold references at hp
      rw [if_neg hp]
      rfl

/-- C10 (counterexample): one document `r` (so the names are pairwise
distinct) with two badges of the same image URL gets an aggregate whose
document list is `[r, r]` and whose reported count is 2. -/
theorem buildDashboard_repeats_document :
    (buildDashboard lowerExcerpt (fun _ l => l)
        [⟨bytes "r", [], [], true,
          [⟨[], bytes "https://h/x.svg", [], [], []⟩, ⟨[], bytes "https://h/x.svg", [], [], []⟩]⟩]
        ⟨[]⟩ (bytes "acme") (bytes "now")).map
      (fun res => (res.2.map (fun e => e.2.Repos),
        res.1.BadgesByCategory.map (fun g => g.Badges.map (fun bs => bs.Count)))) =
      some ([[bytes "r", bytes "r"]], [[2]])
    ∧ ¬ [bytes "r", bytes "r"].Nodup := by
  refine ⟨?_, ?_⟩ <;> decide

/-- C10 (amended): for documents with pairwise distinct names of which none
carries two badges with the same canonical pattern, and on whose badges no
call of `canonicalizeURL` panics, `buildDashboard` returns, the document
list of each aggregate holds no name twice and is the list of the documents
that reference its pattern, and the count reported for each badge is the
number of those documents; this holds for every order `iter` in which the
maps are visited and every case table `lower`. -/
theorem buildDashboard_documents (iter : (α : Type) → List α → List α)
    (hiter : ∀ (α : Type) (l : List α), (iter α l).Perm l)
    (repos : List RepositoryData) (config : BadgeConfig) (orgName lastUpdated : GoString)
    (hsome : ∀ r ∈ repos, ∀ b ∈ r.Badges,
      (canonicalizeURL lower b.ImageURL orgName r.Repository).isSome = true)
    (hnames : (repos.map (fun r => r.Repository)).Nodup)
    (hbadges : ∀ r ∈ repos,
      (r.Badges.map (fun b => canonicalizeURL lower b.ImageURL orgName r.Repository)).Nodup) :
    ∃ vm badgeMap, buildDashboard lower iter repos config orgName lastUpdated = some
        (vm, badgeMap) ∧
      (∀ e ∈ badgeMap, e.2.Repos.Nodup ∧
        e.2.Repos = (repos.filter (references lower orgName e.1)).map (fun r => r.Repository)) ∧
      (∀ g ∈ vm.BadgesByCategory, ∀ bs ∈ g.Badges,
        bs.Count = (repos.filter (references lower orgName bs.Pattern)).length) := by
  rcases buildDashboard_eq iter repos config orgName lastUpdated hsome with
    ⟨vm, badgeMap, hbuild, hrec, hcats⟩
  have hrepos : ∀ e ∈ badgeMap,
      e.2.Repos = (repos.filter (references lower orgName e.1)).map (fun r => r.Repository) := by
    intro e he
    rw [hrec.2.2.2 e he, occurrences_filter orgName e.1 repos hbadges]
  refine ⟨vm, badgeMap, hbuild, ?_, ?_⟩
  · intro e he
    refine ⟨?_, hrepos e he⟩
    rw [hrepos e he]
    exact hnames.sublist ((List.filter_sublist _).map _)
  · intro g hg bs hbs
    rw [hcats] at hg
    rcases List.mem_map.mp hg with ⟨cat, _, rfl⟩
    unfold categoryGroup at hbs
    simp only at hbs
    have hbs2 : bs ∈ (categoryMapOf iter badgeMap).get cat :=
      (List.perm_insertionSort _ _).subset hbs
    rcases categoryMap_get_mem _ _ _ hbs2 with ⟨e0, he0, hx⟩
    unfold categoryMapOf at he0
    rcases foldl_categoryMapAppend_values _ [] e0 bs he0 hx with h | ⟨e1, he1, _⟩
    · rcases (mem_summaries_iff iter hiter badgeMap bs).mp h with ⟨e, he, rfl⟩
      unfold summaryOf
      simp only
      rw [hrepos e he, List.length_map]
    · cases he1

/-- Witness of C10 (amended): two documents, the first with one badge, the second with
two badges of different patterns. -/
theorem buildDashboard_documents_witness :
    ∃ vm badgeMap,
      buildDashboard lowerExcerpt (fun _ l => l)
        [⟨bytes "r1", [], [], true, [⟨[], bytes "https://h/acme/r1/x.svg", [], [], []⟩]⟩,
         ⟨bytes "r2", [], [], true, [⟨[], bytes "https://h/acme/r2/x.svg", [], [], []⟩,
            ⟨[], bytes "https://k/y.svg", [], [], []⟩]⟩]
        ⟨[]⟩ (bytes "acme") (bytes "now") = some (vm, badgeMap) ∧
      (∀ e ∈ badgeMap, e.2.Repos.Nodup ∧
        e.2.Repos = ([⟨bytes "r1", [], [], true,
            [⟨[], bytes "https://h/acme/r1/x.svg", [], [], []⟩]⟩,
          ⟨bytes "r2", [], [], true, [⟨[], bytes "https://h/acme/r2/x.svg", [], [], []⟩,
            ⟨[], bytes "https://k/y.svg", [], [], []⟩]⟩].filter
              (references lowerExcerpt (bytes "acme") e.1)).map (fun r => r.Repository)) ∧
      (∀ g ∈ vm.BadgesByCategory, ∀ bs ∈ g.Badges,
        bs.Count = ([⟨bytes "r1", [], [], true,
            [⟨[], bytes "https://h/acme/r1/x.svg", [], [], []⟩]⟩,
          ⟨bytes "r2", [], [], true, [⟨[], bytes "https://h/acme/r2/x.svg", [], [], []⟩,
            ⟨[], bytes "https://k/y.svg", [], [], []⟩]⟩].filter
              (references lowerExcerpt (bytes "acme") bs.Pattern)).length) :=
  buildDashboard_documents (fun _ l => l) (fun _ l => List.Perm.refl l) _ _ _ _
    (by decide) (by decide) (by decide)

/-! ## Escaping and query strings -/

theorem unhex_lt (c : Nat) : unhex c < 16 := by
  unfold unhex
  split
  · omega
  · split
    · omega
    · split <;> omega

theorem unescape_cons_other (mode : Encoding) (c : Nat) (rest : GoString)
    (h1 : c ≠ 0x25) (h2 : c ≠ 0x2B) (hm : mode ≠ Encoding.encodeHost)
    (hz : mode ≠ Encoding.encodeZone) :
    unescape mode (c :: rest) = (unescape mode rest).map (fun t => c :: t) := by
  rw [unescape.eq_def]
  split
  · rename_i heq; cases heq
  · rename_i heq; simp only [List.cons.injEq] at heq; exact absurd heq.1 h1
  · rename_i heq; simp only [List.cons.injEq] at heq; exact absurd heq.1 h1
  · rename_i heq; simp only [List.cons.injEq] at heq; exact absurd heq.1 h2
  · rename_i heq
    simp only [List.cons.injEq] at heq
    obtain ⟨rfl, rfl⟩ := heq
    simp [hm, hz]

theorem unescape_plus (mode : Encoding) (rest : GoString) :
    unescape mode (0x2B :: rest) = (unescape mode rest).map
      (fun t => (if mode = Encoding.encodeQueryComponent then 0x20 else 0x2B) :: t) := by
  rw [unescape.eq_def]

theorem unescape_percent (mode : Encoding) (h1 h2 : Nat) (rest : GoString)
    (hh1 : ishex h1 = true) (hh2 : ishex h2 = true)
    (hm : mode ≠ Encoding.encodeHost) (hz : mode ≠ Encoding.encodeZone) :
    unescape mode (0x25 :: h1 :: h2 :: rest) =
      (unescape mode rest).map (fun t => (unhex h1 * 16 + unhex h2) :: t) := by
  rw [unescape.eq_def]
  simp [hh1, hh2, hm, hz]

theorem values_sorted_perm (v : Values) : v.sorted.Perm v :=
  List.perm_insertionSort _ v

theorem unescape_percent_short (mode : Encoding) (rest : GoString) (h : rest.length < 2) :
    unescape mode (0x25 :: rest) = none := by
  cases rest with
  | nil => rw [unescape.eq_def]
  | cons a r =>
    cases r with
    | nil => rw [unescape.eq_def]
    | cons b r2 => simp only [List.length_cons] at h; omega

theorem unescape_percent_bad (mode : Encoding) (h1 h2 : Nat) (rest : GoString)
    (h : ¬ (ishex h1 = true ∧ ishex h2 = true)) :
    unescape mode (0x25 :: h1 :: h2 :: rest) = none := by
  rw [unescape.eq_def]
  simp only [Bool.and_eq_true]
  rw [if_neg h]

theorem isBytes_unescape_query : ∀ (n : Nat) (s t : GoString), s.length ≤ n → isBytes s →
    unescape Encoding.encodeQueryComponent s = some t → isBytes t := by
  intro n
  induction n with
  | zero =>
    intro s t hn _ h
    have : s = [] := List.length_eq_zero.mp (Nat.le_zero.mp hn)
    subst this
    rw [unescape.eq_def] at h
    simp only [Option.some.injEq] at h
    subst h
    intro b hb; cases hb
  | succ n ih =>
    intro s t hn hs h
    cases s with
    | nil =>
      rw [unescape.eq_def] at h
      simp only [Option.some.injEq] at h
      subst h
      intro b hb; cases hb
    | cons c rest =>
      have hrest : isBytes rest := fun b hb => hs b (List.mem_cons_of_mem _ hb)
      simp only [List.length_cons] at hn
      by_cases hc : c = 0x25
      · subst hc
        cases rest with
        | nil => rw [unescape_percent_short _ _ (by simp)] at h; cases h
        | cons h1 r =>
          cases r with
          | nil => rw [unescape_percent_short _ _ (by simp)] at h; cases h
          | cons h2 r2 =>
            by_cases hh : ishex h1 = true ∧ ishex h2 = true
            · rw [unescape_percent _ _ _ _ hh.1 hh.2 (by decide) (by decide)] at h
              cases hr : unescape Encoding.encodeQueryComponent r2 with
              | none => rw [hr] at h; cases h
              | some r3 =>
                rw [hr] at h
                simp only [Option.map_some', Option.some.injEq] at h
                subst h
                have hr2 : isBytes r2 := fun b hb =>
                  hrest b (List.mem_cons_of_mem _ (List.mem_cons_of_mem _ hb))
                simp only [List.length_cons] at hn
                intro b hb
                rcases List.mem_cons.mp hb with hb | hb
                · subst hb
                  have := unhex_lt h1
                  have := unhex_lt h2
                  omega
                · exact ih r2 r3 (by omega) hr2 hr b hb
            · rw [unescape_percent_bad _ _ _ _ hh] at h; cases h
      · by_cases hp : c = 0x2B
        · subst hp
          rw [unescape_plus] at h
          cases hr : unescape Encoding.encodeQueryComponent rest with
          | none => rw [hr] at h; cases h
          | some r3 =>
            rw [hr] at h
            simp only [Option.map_some', Option.some.injEq] at h
            subst h
            intro b hb
            rcases List.mem_cons.mp hb with hb | hb
            · subst hb; simp
            · exact ih rest r3 (by omega) hrest hr b hb
        · rw [unescape_cons_other _ _ _ hc hp (by decide) (by decide)] at h
          cases hr : unescape Encoding.encodeQueryComponent rest with
          | none => rw [hr] at h; cases h
          | some r3 =>
            rw [hr] at h
            simp only [Option.map_some', Option.some.injEq] at h
            subst h
            intro b hb
            rcases List.mem_cons.mp hb with hb | hb
            · subst hb; exact hs _ (List.mem_cons_self _ _)
            · exact ih rest r3 (by omega) hrest hr b hb

theorem isBytes_sublist {s t : GoString} (h : s.Sublist t) (ht : isBytes t) : isBytes s :=
  fun b hb => ht b (h.subset hb)

theorem splitByte_sublist (sep : Nat) :
    ∀ (s p : GoString), p ∈ splitByte sep s → p.Sublist s := by
  intro s
  induction s with
  | nil =>
    intro p hp
    simp only [splitByte, List.mem_singleton] at hp
    subst hp
    exact List.Sublist.refl _
  | cons b rest ih =>
    intro p hp
    unfold splitByte at hp
    split at hp
    · rcases List.mem_cons.mp hp with hp | hp
      · subst hp; exact List.nil_sublist _
      · exact (ih p hp).cons _
    · cases hsp : splitByte sep rest with
      | nil =>
        rw [hsp] at hp
        simp only [List.mem_singleton] at hp
        subst hp
        exact (List.nil_sublist rest).cons₂ b
      | cons q qs =>
        rw [hsp] at hp
        simp only at hp
        rcases List.mem_cons.mp hp with hp | hp
        · subst hp
          exact (ih q (by rw [hsp]; exact List.mem_cons_self _ _)).cons₂ b
        · exact (ih p (by rw [hsp]; exact List.mem_cons_of_mem _ hp)).cons _

theorem parseQueryPiece_isBytes (m : Values) (piece : GoString) (hm : m.isBytes)
    (hp : isBytes piece) : (parseQueryPiece m piece).isBytes := by
  unfold parseQueryPiece
  split
  · exact hm
  · split
    · exact hm
    · simp only
      cases hk : unescape Encoding.encodeQueryComponent (cutByte piece 0x3D).1 with
      | none => exact hm
      | some key =>
        cases hv : unescape Encoding.encodeQueryComponent (cutByte piece 0x3D).2.1 with
        | none => exact hm
        | some value =>
          simp only
          intro kv hkv
          rcases List.mem_append.mp hkv with hkv | hkv
          · exact hm kv hkv
          · simp only [List.mem_singleton] at hkv
            subst hkv
            refine ⟨isBytes_unescape_query _ _ _ (Nat.le_refl _) ?_ hk,
              isBytes_unescape_query _ _ _ (Nat.le_refl _) ?_ hv⟩
            · exact isBytes_sublist (List.takeWhile_sublist _) hp
            · exact isBytes_sublist
                ((List.drop_sublist _ _).trans (List.dropWhile_sublist _)) hp

theorem foldl_parseQueryPiece_isBytes (pieces : List GoString) :
    ∀ m : Values, m.isBytes → (∀ p ∈ pieces, isBytes p) →
      (pieces.foldl parseQueryPiece m).isBytes := by
  induction pieces with
  | nil => intro m hm _; exact hm
  | cons p rest ih =>
    intro m hm hp
    rw [List.foldl_cons]
    exact ih _ (parseQueryPiece_isBytes m p hm (hp p (List.mem_cons_self _ _)))
      (fun x hx => hp x (List.mem_cons_of_mem _ hx))

theorem parseQuery_isBytes (query : GoString) (h : isBytes query) :
    (parseQuery query).isBytes := by
  unfold parseQuery
  apply foldl_parseQueryPiece_isBytes
  · intro kv hkv; cases hkv
  · intro p hp
    exact isBytes_sublist (splitByte_sublist _ _ p hp) h

theorem mem_of_mem_ite_nil {c : Prop} [Decidable c] {x : GoString} {b : Nat}
    (h : b ∈ (if c then x else [])) : b ∈ x := by
  split at h
  · exact h
  · cases h

theorem setPath_fields (u u2 : URL) (p : GoString) (h : setPath u p = some u2) :
    u2.Scheme = u.Scheme ∧ u2.Opaque = u.Opaque := by
  unfold setPath at h
  cases hp : unescape Encoding.encodePath p with
  | none => rw [hp] at h; cases h
  | some path =>
    rw [hp] at h
    simp only [Option.map_some', Option.some.injEq] at h
    split at h <;> (subst h; exact ⟨rfl, rfl⟩)

theorem setFragment_fields (u u2 : URL) (f : GoString) (h : setFragment u f = some u2) :
    u2.Scheme = u.Scheme ∧ u2.Opaque = u.Opaque := by
  unfold setFragment at h
  cases hp : unescape Encoding.encodeFragment f with
  | none => rw [hp] at h; cases h
  | some frag =>
    rw [hp] at h
    simp only [Option.map_some', Option.some.injEq] at h
    split at h <;> (subst h; exact ⟨rfl, rfl⟩)

theorem parseRest_fields (url u : URL) (rest : GoString)
    (h : parseRest url rest = some u) :
    u.Scheme = url.Scheme ∧ (u.Opaque = url.Opaque ∨ u.Opaque = rest) := by
  unfold parseRest at h
  split at h
  · simp only [Option.some.injEq] at h
    subst h
    exact ⟨rfl, Or.inr rfl⟩
  · split at h
    · cases h
    · split at h
      · simp only at h
        cases ha : parseAuthority
            (List.takeWhile (fun b => b != 0x2F) (List.drop 2 rest)) with
        | none => rw [ha] at h; cases h
        | some uh =>
          rw [ha] at h
          simp only [Option.some_bind] at h
          have := setPath_fields _ _ _ h
          exact ⟨this.1, Or.inl this.2⟩
      · split at h
        · have := setPath_fields _ _ _ h
          exact ⟨this.1, Or.inl this.2⟩
        · have := setPath_fields _ _ _ h
          exact ⟨this.1, Or.inl this.2⟩

theorem isSchemeByte_asciiLower {b : Nat} (h : isSchemeByte b = true) :
    isSchemeByte (asciiLower b) = true := by
  unfold isSchemeByte at h ⊢
  unfold asciiLower
  simp only [Bool.or_eq_true, Bool.and_eq_true, decide_eq_true_eq, beq_iff_eq] at h ⊢
  split <;> omega

theorem isSchemeByte_lt {b : Nat} (h : isSchemeByte b = true) : b < 0x80 := by
  unfold isSchemeByte at h
  simp only [Bool.or_eq_true, Bool.and_eq_true, decide_eq_true_eq, beq_iff_eq] at h
  omega

theorem isSchemeByte_toLower (sch : GoString) (h : ∀ b ∈ sch, isSchemeByte b = true) :
    ∀ b ∈ toLower lower sch, isSchemeByte b = true := by
  rw [toLower_of_isASCII sch (fun b hb => isSchemeByte_lt (h b hb))]
  intro b hb
  rcases List.mem_map.mp hb with ⟨a, ha, rfl⟩
  exact isSchemeByte_asciiLower (h a ha)

theorem not_mem_dropLast_of_count (s : GoString) (c : Nat) (h1 : s.getLast? = some c)
    (h2 : s.count c = 1) : c ∉ s.dropLast := by
  rcases List.getLast?_eq_some_iff.mp h1 with ⟨init, rfl⟩
  rw [List.dropLast_concat]
  intro hmem
  have : 0 < init.count c := List.count_pos_iff.mpr hmem
  simp [List.count_append] at h2
  omega

theorem parse_head_facts (s : GoString) (u : URL) (h : parse s = some u) :
    (∀ x ∈ u.Scheme, isSchemeByte x = true) ∧ 0x3F ∉ u.Opaque ∧ (∀ x ∈ u.Opaque, x ∈ s) ∧
      (u.ForceQuery = true → u.RawQuery = []) := by
  unfold parse at h
  split at h
  · cases h
  · split at h
    · simp only [Option.some.injEq] at h
      subst h
      refine ⟨?_, ?_, ?_, ?_⟩
      · intro x hx; cases hx
      · intro hx; cases hx
      · intro x hx; cases hx
      · intro hf; cases hf
    · cases hg : getScheme s with
      | none => rw [hg] at h; cases h
      | some sr =>
        rw [hg] at h
        simp only [Option.some_bind] at h
        obtain ⟨sch, rest0⟩ := sr
        simp only at h
        have hspec := getScheme_spec s sch rest0 hg
        have hsch : ∀ b ∈ toLower lowerExcerpt sch, isSchemeByte b = true := by
          rcases hspec with ⟨he, _⟩ | ⟨_, hs⟩
          · subst he
            intro b hb
            cases hb
          · exact isSchemeByte_toLower sch hs
        have hrest0 : ∀ x ∈ rest0, x ∈ s := by
          rcases hspec with ⟨_, he⟩ | ⟨he, _⟩
          · intro x hx; rw [he] at hx; exact hx
          · intro x hx
            rw [he]
            exact List.mem_append_right _ (List.mem_cons_of_mem _ hx)
        split at h
        · rename_i hf
          have hflds := parseRest_fields _ _ _ h
          have hq := parseRest_rawQuery _ _ _ h
          refine ⟨by rw [hflds.1]; exact hsch, ?_, ?_, ?_⟩
          · rcases hflds.2 with ho | ho
            · rw [ho]; intro hx; cases hx
            · rw [ho]; exact not_mem_dropLast_of_count rest0 0x3F hf.1 hf.2
          · rcases hflds.2 with ho | ho
            · rw [ho]; intro x hx; cases hx
            · rw [ho]
              intro x hx
              exact hrest0 x (List.mem_of_mem_dropLast hx)
          · intro _
            rw [hq.1]
            rfl
        · have hflds := parseRest_fields _ _ _ h
          have hq := parseRest_rawQuery _ _ _ h
          refine ⟨by rw [hflds.1]; exact hsch, ?_, ?_, ?_⟩
          · rcases hflds.2 with ho | ho
            · rw [ho]; intro hx; cases hx
            · rw [ho]
              intro hx
              unfold cutByte at hx
              simp only at hx
              have := List.mem_takeWhile_imp hx
              simp at this
          · rcases hflds.2 with ho | ho
            · rw [ho]; intro x hx; cases hx
            · rw [ho]
              intro x hx
              unfold cutByte at hx
              simp only at hx
              exact hrest0 x ((List.takeWhile_sublist _).subset hx)
          · intro hf
            rw [hq.2.1] at hf
            cases hf

theorem urlParse_head_facts (s : GoString) (u : URL) (h : urlParse s = some u) :
    (∀ x ∈ u.Scheme, isSchemeByte x = true) ∧ (∀ b, isMark b → b ∉ u.Opaque) ∧
      (u.ForceQuery = true → u.RawQuery = []) := by
  unfold urlParse at h
  simp only at h
  cases hp : parse (cutByte s 0x23).1 with
  | none => rw [hp] at h; cases h
  | some url =>
    rw [hp] at h
    simp only [Option.some_bind] at h
    have hf := parse_head_facts _ _ hp
    have hmark : ∀ b, isMark b → b ∉ url.Opaque := by
      intro b hb hmem
      rcases hb with hb | hb
      · subst hb; exact hf.2.1 hmem
      · subst hb
        have := hf.2.2.1 _ hmem
        unfold cutByte at this
        simp only at this
        have := List.mem_takeWhile_imp this
        simp at this
    split at h
    · simp only [Option.some.injEq] at h
      subst h
      exact ⟨hf.1, hmark, hf.2.2.2⟩
    · have h2 := setFragment_fields _ _ _ h
      have h3 := setFragment_rawQuery _ _ _ h
      refine ⟨by rw [h2.1]; exact hf.1, by rw [h2.2]; exact hmark, ?_⟩
      rw [h3.1, h3.2]
      exact hf.2.2.2

theorem not_mem_joinByte (sep b : Nat) (hb : b ≠ sep) :
    ∀ ps : List GoString, (∀ p ∈ ps, b ∉ p) → b ∉ joinByte sep ps := by
  intro ps
  induction ps with
  | nil => intro _ h; cases h
  | cons p rest ih =>
    intro hps
    cases rest with
    | nil =>
      unfold joinByte
      exact hps p (List.mem_cons_self _ _)
    | cons q rest2 =>
      unfold joinByte
      intro h
      rcases List.mem_append.mp h with h | h
      · exact hps p (List.mem_cons_self _ _) h
      · rcases List.mem_cons.mp h with h | h
        · exact hb h
        · exact ih (fun x hx => hps x (List.mem_cons_of_mem _ hx)) h

theorem isBytes_rawQueryOf (s : GoString) (h : isBytes s) : isBytes (rawQueryOf s) := by
  unfold rawQueryOf cutByte
  simp only
  exact isBytes_sublist (((List.drop_sublist _ _).trans (List.dropWhile_sublist _)).trans
    (List.takeWhile_sublist _)) h

theorem values_get_nil (key : GoString) : Values.Get [] key = [] := rfl

theorem stripToken_of_token (s : GoString) (u : URL) (hp : urlParse s = some u)
    (ht : u.Query.Get (bytes "token") ≠ []) :
    stripToken s = { u with RawQuery := (u.Query.Del (bytes "token")).Encode }.String := by
  unfold stripToken
  rw [hp]
  simp only
  rw [if_pos ht]
  split
  · rename_i hl
    have : u.Query.Del (bytes "token") = [] := List.length_eq_zero.mp hl
    rw [this]
    rfl
  · rfl

theorem quoted_quoteMeta (p : GoString) : Quoted (quoteMeta p) := by
  induction p with
  | nil => exact Quoted.nil
  | cons b rest ih =>
    unfold quoteMeta at ih ⊢
    rw [List.flatMap_cons]
    cases hb : isSpecial b with
    | true => exact Quoted.escaped b _ hb ih
    | false => exact Quoted.plain b _ hb ih

theorem replaceAll_skip (old new : GoString) :
    ∀ (s : GoString) (k : Nat), replaceAll old new k s = replaceAll old new 0 (s.drop k) := by
  intro s
  induction s with
  | nil => intro k; cases k <;> rfl
  | cons b rest ih =>
    intro k
    cases k with
    | zero => rfl
    | succ k => rw [replaceAll, ih k]; rfl

theorem replaceAll_nil (old new : GoString) : replaceAll old new 0 [] = [] := rfl

theorem replaceAll_cons_of_no_match (old new : GoString) (b : Nat) (rest : GoString)
    (h : old.isPrefixOf (b :: rest) = false) :
    replaceAll old new 0 (b :: rest) = b :: replaceAll old new 0 rest := by
  rw [replaceAll, h]
  rfl

theorem replaceAll_of_match (old new : GoString) (t : GoString) (hne : old ≠ []) :
    replaceAll old new 0 (old ++ t) = new ++ replaceAll old new 0 t := by
  cases old with
  | nil => exact absurd rfl hne
  | cons o os =>
    rw [List.cons_append, replaceAll, if_pos, replaceAll_skip]
    · simp
    · rw [← List.cons_append]
      exact List.isPrefixOf_iff_prefix.mpr (List.prefix_append _ _)

theorem quoted_head_special {b : Nat} {t : List Nat} (h : Quoted (b :: t))
    (hb : isSpecial b = true) : b = 0x5C ∨ b = 0x5B := by
  cases h with
  | plain _ _ hn _ => rw [hb] at hn; cases hn
  | escaped _ _ _ _ => exact Or.inl rfl
  | cls _ _ => exact Or.inr rfl

theorem quoted_tail_of_plain {b : Nat} {t : List Nat} (h : Quoted (b :: t))
    (hb : isSpecial b = false) : Quoted t := by
  cases h with
  | plain _ _ _ ht => exact ht
  | escaped _ _ _ _ => exact absurd hb (by decide)
  | cls _ _ => exact absurd hb (by decide)

theorem quoted_tail_of_escaped {c : Nat} {t : List Nat} (h : Quoted (0x5C :: c :: t)) :
    isSpecial c = true ∧ Quoted t := by
  cases h with
  | plain _ _ hn _ => exact absurd hn (by decide)
  | escaped _ _ hc ht => exact ⟨hc, ht⟩

theorem not_prefix_of_head_ne (old : GoString) (b : Nat) (rest : GoString)
    (h : ∀ o os, old = o :: os → o ≠ b) (hne : old ≠ []) :
    old.isPrefixOf (b :: rest) = false := by
  cases old with
  | nil => exact absurd rfl hne
  | cons o os =>
    have := h o os rfl
    simp [List.isPrefixOf, this]

theorem key_not_prefix_of_ne (old : GoString) (hk : isQuotedKey old) (b : Nat)
    (rest : GoString) (hb : b ≠ 0x5C) : old.isPrefixOf (b :: rest) = false := by
  rcases hk with ⟨c, tail, rfl, _, _, _⟩
  have : ¬ (0x5C = b) := fun h => hb h.symm
  simp [List.isPrefixOf, this]

theorem key_not_prefix_misaligned (old : GoString) (hk : isQuotedKey old)
    (s : List Nat) (hs : Quoted s) : old.isPrefixOf (0x5C :: s) = false := by
  rcases hk with ⟨c, tail, rfl, hc, hc1, hc2⟩
  cases s with
  | nil => simp [List.isPrefixOf]
  | cons x xs =>
    by_cases hx : c = x
    · subst hx
      rcases quoted_head_special hs hc with h | h
      · exact absurd h hc1
      · exact absurd h hc2
    · simp [List.isPrefixOf, hx]

theorem replaceAll_cls (old new : GoString) (hk : isQuotedKey old) (s : List Nat) :
    replaceAll old new 0 (0x5B :: 0x5E :: 0x2F :: 0x5D :: 0x2B :: s) =
      0x5B :: 0x5E :: 0x2F :: 0x5D :: 0x2B :: replaceAll old new 0 s := by
  rw [replaceAll_cons_of_no_match _ _ _ _ (key_not_prefix_of_ne old hk _ _ (by decide)),
    replaceAll_cons_of_no_match _ _ _ _ (key_not_prefix_of_ne old hk _ _ (by decide)),
    replaceAll_cons_of_no_match _ _ _ _ (key_not_prefix_of_ne old hk _ _ (by decide)),
    replaceAll_cons_of_no_match _ _ _ _ (key_not_prefix_of_ne old hk _ _ (by decide)),
    replaceAll_cons_of_no_match _ _ _ _ (key_not_prefix_of_ne old hk _ _ (by decide))]

theorem isSpecial_backslash : isSpecial 0x5C = true := by decide

theorem replaceAll_escaped_of_no_match (old new : GoString) (hk : isQuotedKey old)
    (c : Nat) (s : List Nat) (hs : Quoted s)
    (hp : old.isPrefixOf (0x5C :: c :: s) = false) :
    replaceAll old new 0 (0x5C :: c :: s) = 0x5C :: c :: replaceAll old new 0 s := by
  rw [replaceAll_cons_of_no_match _ _ _ _ hp]
  by_cases hc : c = 0x5C
  · subst hc
    rw [replaceAll_cons_of_no_match _ _ _ _ (key_not_prefix_misaligned old hk s hs)]
  · rw [replaceAll_cons_of_no_match _ _ _ _ (key_not_prefix_of_ne old hk _ _ hc)]

theorem quoted_replaceAll (old : GoString) (hk : isQuotedKey old)
    (hinv : ∀ t, Quoted (old ++ t) → Quoted t) :
    ∀ (n : Nat) (s : List Nat), s.length ≤ n → Quoted s →
      Quoted (replaceAll old [0x5B, 0x5E, 0x2F, 0x5D, 0x2B] 0 s) := by
  have hne : old ≠ [] := by
    rcases hk with ⟨c, tail, rfl, _⟩
    simp
  intro n
  induction n with
  | zero =>
    intro s hn _
    have : s = [] := List.length_eq_zero.mp (Nat.le_zero.mp hn)
    subst this
    exact Quoted.nil
  | succ n ih =>
    intro s hn hs
    cases hs with
    | nil => exact Quoted.nil
    | plain b t hb ht =>
      simp only [List.length_cons] at hn
      have hb5 : b ≠ 0x5C := fun h => by rw [h] at hb; exact absurd hb (by decide)
      rw [replaceAll_cons_of_no_match _ _ _ _ (key_not_prefix_of_ne old hk _ _ hb5)]
      exact Quoted.plain b _ hb (ih t (by omega) ht)
    | cls t ht =>
      simp only [List.length_cons] at hn
      rw [replaceAll_cls old _ hk]
      exact Quoted.cls _ (ih t (by omega) ht)
    | escaped c t hc ht =>
      simp only [List.length_cons] at hn
      cases hp : old.isPrefixOf (0x5C :: c :: t) with
      | false =>
        rw [replaceAll_escaped_of_no_match old _ hk c t ht hp]
        exact Quoted.escaped c _ hc (ih t (by omega) ht)
      | true =>
        rcases List.isPrefixOf_iff_prefix.mp hp with ⟨t2, ht2⟩
        rw [← ht2, replaceAll_of_match old _ t2 hne]
        have hq : Quoted t2 := hinv t2 (by rw [ht2]; exact Quoted.escaped c t hc ht)
        have hlen : t2.length ≤ n := by
          have := congrArg List.length ht2
          simp only [List.length_append, List.length_cons] at this
          rcases hk with ⟨c2, tail, rfl, _⟩
          simp only [List.length_cons] at this
          omega
        exact Quoted.cls _ (ih t2 hlen hq)

theorem replaceAll_eq_self_of_never (old new : GoString) (hk : isQuotedKey old)
    (hnever : ∀ t, ¬ Quoted (old ++ t)) :
    ∀ s : List Nat, Quoted s → replaceAll old new 0 s = s := by
  intro s hs
  induction hs with
  | nil => rfl
  | plain b t hb _ ih =>
    have hb5 : b ≠ 0x5C := fun h => by rw [h] at hb; exact absurd hb (by decide)
    rw [replaceAll_cons_of_no_match _ _ _ _ (key_not_prefix_of_ne old hk _ _ hb5), ih]
  | cls t _ ih => rw [replaceAll_cls old _ hk, ih]
  | escaped c t hc ht ih =>
    cases hp : old.isPrefixOf (0x5C :: c :: t) with
    | false => rw [replaceAll_escaped_of_no_match old _ hk c t ht hp, ih]
    | true =>
      exfalso
      rcases List.isPrefixOf_iff_prefix.mp hp with ⟨t2, ht2⟩
      exact hnever t2 (by rw [ht2]; exact Quoted.escaped c t hc ht)

theorem bytes_org_key : bytes "\\\x7bORG\\\x7d" = [0x5C, 0x7B, 0x4F, 0x52, 0x47, 0x5C, 0x7D] := by
  decide

theorem bytes_repo_key :
    bytes "\\\x7bREPO\\\x7d" = [0x5C, 0x7B, 0x52, 0x45, 0x50, 0x4F, 0x5C, 0x7D] := by decide

theorem bytes_star_key : bytes "\\.*" = [0x5C, 0x2E, 0x2A] := by decide

theorem bytes_cls : bytes "[^/]+" = [0x5B, 0x5E, 0x2F, 0x5D, 0x2B] := by decide

/-- The third `strings.ReplaceAll` of `lookupBadge` (line 337) changes
nothing: the text `\.*` does not occur in a quoted pattern, in which every
`*` stands behind its own backslash. -/
theorem ruleRegex_wildcard_noop (entryPattern : GoString) :
    ruleRegex entryPattern =
      bytes "^" ++ replaceAll (bytes "\\\x7bREPO\\\x7d") (bytes "[^/]+") 0
        (replaceAll (bytes "\\\x7bORG\\\x7d") (bytes "[^/]+") 0 (quoteMeta entryPattern)) ++
      bytes "$"
    ∧ Quoted (replaceAll (bytes "\\\x7bREPO\\\x7d") (bytes "[^/]+") 0
        (replaceAll (bytes "\\\x7bORG\\\x7d") (bytes "[^/]+") 0 (quoteMeta entryPattern))) := by
  have h1 : Quoted (replaceAll (bytes "\\\x7bORG\\\x7d") (bytes "[^/]+") 0
      (quoteMeta entryPattern)) := by
    rw [bytes_org_key, bytes_cls]
    apply quoted_replaceAll _ ⟨0x7B, _, rfl, by decide, by decide, by decide⟩ _ _ _
      (Nat.le_refl _) (quoted_quoteMeta _)
    intro t ht
    have h := (quoted_tail_of_escaped ht).2
    have h := quoted_tail_of_plain h (by decide)
    have h := quoted_tail_of_plain h (by decide)
    have h := quoted_tail_of_plain h (by decide)
    exact (quoted_tail_of_escaped h).2
  have h2 : Quoted (replaceAll (bytes "\\\x7bREPO\\\x7d") (bytes "[^/]+") 0
      (replaceAll (bytes "\\\x7bORG\\\x7d") (bytes "[^/]+") 0 (quoteMeta entryPattern))) := by
    rw [bytes_repo_key, bytes_cls] at *
    apply quoted_replaceAll _ ⟨0x7B, _, rfl, by decide, by decide, by decide⟩ _ _ _
      (Nat.le_refl _) h1
    intro t ht
    have h := (quoted_tail_of_escaped ht).2
    have h := quoted_tail_of_plain h (by decide)
    have h := quoted_tail_of_plain h (by decide)
    have h := quoted_tail_of_plain h (by decide)
    have h := quoted_tail_of_plain h (by decide)
    exact (quoted_tail_of_escaped h).2
  refine ⟨?_, h2⟩
  unfold ruleRegex
  simp only
  rw [bytes_star_key, replaceAll_eq_self_of_never _ _
    ⟨0x2E, _, rfl, by decide, by decide, by decide⟩ _ _ h2]
  intro t ht
  have h := (quoted_tail_of_escaped ht).2
  rcases quoted_head_special h (by decide) with h5 | h5 <;> exact absurd h5 (by decide)

theorem decodeRune_ascii (b : Nat) (rest : GoString) (h : b < 0x80) :
    decodeRune (b :: rest) = (b, 1) := by
  unfold decodeRune
  simp [h]

theorem decodeRune_high (b : Nat) (rest : GoString) (h : 0x80 ≤ b) :
    0x80 ≤ (decodeRune (b :: rest)).1 ∧
      ∀ i, i + 1 < (decodeRune (b :: rest)).2 → 0x80 ≤ rest.getD i 0 := by
  unfold decodeRune
  simp only [List.getD_cons_zero, List.getD_cons_succ, reduceCtorEq, if_false]
  have hlt : ¬ b < 0x80 := by omega
  rw [if_neg hlt]
  split
  · rename_i hc
    simp only [Bool.and_eq_true, decide_eq_true_eq, isCont] at hc
    refine ⟨by simp only; omega, ?_⟩
    intro i hi
    simp only at hi
    have : i = 0 := by omega
    subst this
    exact hc.2.1
  · split
    · rename_i hc
      simp only [Bool.and_eq_true, decide_eq_true_eq, isCont, beq_iff_eq] at hc
      refine ⟨by simp only; omega, ?_⟩
      intro i hi
      simp only at hi
      have : i = 0 ∨ i = 1 := by omega
      rcases this with h0 | h0 <;> subst h0
      · omega
      · exact hc.2.1
    · split
      · rename_i hc
        simp only [Bool.and_eq_true, decide_eq_true_eq, isCont, beq_iff_eq,
          Bool.or_eq_true] at hc
        refine ⟨by simp only; omega, ?_⟩
        intro i hi
        simp only at hi
        have : i = 0 ∨ i = 1 := by omega
        rcases this with h0 | h0 <;> subst h0
        · exact hc.1.2.1
        · exact hc.2.1
      · split
        · rename_i hc
          simp only [Bool.and_eq_true, decide_eq_true_eq, isCont, beq_iff_eq] at hc
          refine ⟨by simp only; omega, ?_⟩
          intro i hi
          simp only at hi
          have : i = 0 ∨ i = 1 := by omega
          rcases this with h0 | h0 <;> subst h0
          · exact hc.1.2.1
          · exact hc.2.1
        · split
          · rename_i hc
            simp only [Bool.and_eq_true, decide_eq_true_eq, isCont, beq_iff_eq] at hc
            refine ⟨by simp only; omega, ?_⟩
            intro i hi
            simp only at hi
            have : i = 0 ∨ i = 1 ∨ i = 2 := by omega
            rcases this with h0 | h0 | h0 <;> subst h0
            · omega
            · exact hc.1.2.1
            · exact hc.2.1
          · split
            · rename_i hc
              simp only [Bool.and_eq_true, decide_eq_true_eq, isCont, beq_iff_eq] at hc
              refine ⟨by simp only; omega, ?_⟩
              intro i hi
              simp only at hi
              have : i = 0 ∨ i = 1 ∨ i = 2 := by omega
              rcases this with h0 | h0 | h0 <;> subst h0
              · exact hc.1.1.2.1
              · exact hc.1.2.1
              · exact hc.2.1
            · split
              · rename_i hc
                simp only [Bool.and_eq_true, decide_eq_true_eq, isCont, beq_iff_eq] at hc
                refine ⟨by simp only; omega, ?_⟩
                intro i hi
                simp only at hi
                have : i = 0 ∨ i = 1 ∨ i = 2 := by omega
                rcases this with h0 | h0 | h0 <;> subst h0
                · omega
                · exact hc.1.2.1
                · exact hc.2.1
              · refine ⟨by simp, ?_⟩
                intro i hi
                simp only at hi
                omega

theorem isSpecial_lt {b : Nat} (h : isSpecial b = true) : b < 0x80 := by
  unfold isSpecial at h
  have e : bytes "\\.+*?()|[]{}^$" =
      [0x5C, 0x2E, 0x2B, 0x2A, 0x3F, 0x28, 0x29, 0x7C, 0x5B, 0x5D, 0x7B, 0x7D, 0x5E, 0x24] := by
    decide
  rw [e] at h
  have := List.elem_iff.mp h
  simp only [List.mem_cons, List.mem_singleton, List.not_mem_nil, or_false] at this
  omega

theorem runesFrom_ascii (b : Nat) (rest : GoString) (h : b < 0x80) :
    (runesFrom 0 (b :: rest)).map Prod.fst = b :: (runesFrom 0 rest).map Prod.fst := by
  rw [runesFrom, decodeRune_ascii b rest h]
  rfl

theorem runesFrom_high (b : Nat) (rest : GoString) :
    (runesFrom 0 (b :: rest)).map Prod.fst =
      (decodeRune (b :: rest)).1 ::
        (runesFrom ((decodeRune (b :: rest)).2 - 1) rest).map Prod.fst := by
  rw [runesFrom]
  rfl

theorem quoted_runes_anchor : ∀ s : List Nat, Quoted s → ∀ k : Nat,
    (∀ i, i < k → 0x80 ≤ (s ++ [0x24]).getD i 0) →
    ∃ inner, (runesFrom k (s ++ [0x24])).map Prod.fst = inner ++ [0x24] ∧ Quoted inner := by
  intro s hs
  induction hs with
  | nil =>
    intro k hk
    cases k with
    | zero => exact ⟨[], by decide, Quoted.nil⟩
    | succ k =>
      have := hk 0 (Nat.succ_pos k)
      simp at this
  | plain b t hb _ ih =>
    intro k hk
    cases k with
    | zero =>
      by_cases hlt : b < 0x80
      · rcases ih 0 (fun i hi => absurd hi (Nat.not_lt_zero i)) with ⟨inner, he, hq⟩
        refine ⟨b :: inner, ?_, Quoted.plain b inner hb hq⟩
        rw [List.cons_append, runesFrom_ascii b _ hlt, he]
        rfl
      · have hhigh := decodeRune_high b (t ++ [0x24]) (by omega)
        rcases ih ((decodeRune (b :: (t ++ [0x24]))).2 - 1)
          (fun i hi => hhigh.2 i (by omega)) with ⟨inner, he, hq⟩
        refine ⟨(decodeRune (b :: (t ++ [0x24]))).1 :: inner, ?_, Quoted.plain _ inner ?_ hq⟩
        · rw [List.cons_append, runesFrom_high, he]
          rfl
        · cases hsp : isSpecial (decodeRune (b :: (t ++ [0x24]))).1 with
          | false => rfl
          | true =>
            have := isSpecial_lt hsp
            omega
    | succ k =>
      rcases ih k (fun i hi => by
        have := hk (i + 1) (Nat.succ_lt_succ hi)
        simpa using this) with ⟨inner, he, hq⟩
      exact ⟨inner, by rw [List.cons_append, runesFrom]; exact he, hq⟩
  | escaped c t hc _ ih =>
    intro k hk
    cases k with
    | zero =>
      rcases ih 0 (fun i hi => absurd hi (Nat.not_lt_zero i)) with ⟨inner, he, hq⟩
      refine ⟨0x5C :: c :: inner, ?_, Quoted.escaped c inner hc hq⟩
      rw [List.cons_append, List.cons_append, runesFrom_ascii _ _ (by decide),
        runesFrom_ascii c _ (isSpecial_lt hc), he]
      rfl
    | succ k =>
      have := hk 0 (Nat.succ_pos k)
      simp at this
  | cls t _ ih =>
    intro k hk
    cases k with
    | zero =>
      rcases ih 0 (fun i hi => absurd hi (Nat.not_lt_zero i)) with ⟨inner, he, hq⟩
      refine ⟨0x5B :: 0x5E :: 0x2F :: 0x5D :: 0x2B :: inner, ?_, Quoted.cls inner hq⟩
      simp only [List.cons_append]
      rw [runesFrom_ascii _ _ (by decide), runesFrom_ascii _ _ (by decide),
        runesFrom_ascii _ _ (by decide), runesFrom_ascii _ _ (by decide),
        runesFrom_ascii _ _ (by decide), he]
    | succ k =>
      have := hk 0 (Nat.succ_pos k)
      simp at this

theorem takeQuant_quoted (t : List Nat) (h : Quoted t) : takeQuant t = (Quant.one, t) := by
  cases t with
  | nil => rfl
  | cons x xs =>
    by_cases h1 : x = 0x2A
    · subst h1
      rcases quoted_head_special h (by decide) with h5 | h5 <;> exact absurd h5 (by decide)
    · by_cases h2 : x = 0x2B
      · subst h2
        rcases quoted_head_special h (by decide) with h5 | h5 <;> exact absurd h5 (by decide)
      · unfold takeQuant
        split
        · rename_i heq; simp only [List.cons.injEq] at heq; exact absurd heq.1 h1
        · rename_i heq; simp only [List.cons.injEq] at heq; exact absurd heq.1 h2
        · rfl

theorem parseItems_plain (fuel b : Nat) (rest : List Nat) (hb : isSpecial b = false) :
    parseItems (fuel + 1) (b :: rest) =
      (parseItems fuel (takeQuant rest).2).map
        (fun items => (Atom.lit b, (takeQuant rest).1) :: items) := by
  have h1 : b ≠ 0x5C := fun h => by rw [h] at hb; exact absurd hb (by decide)
  have h2 : b ≠ 0x2E := fun h => by rw [h] at hb; exact absurd hb (by decide)
  have h3 : b ≠ 0x5B := fun h => by rw [h] at hb; exact absurd hb (by decide)
  rw [parseItems.eq_def]
  split
  · rename_i heq; cases heq
  · rename_i h0 _; exact absurd h0 (Nat.succ_ne_zero _)
  · rename_i heq; simp only [List.cons.injEq] at heq; exact absurd heq.1 h1
  · rename_i heq; simp only [List.cons.injEq] at heq; exact absurd heq.1 h2
  · rename_i heq; simp only [List.cons.injEq] at heq; exact absurd heq.1 h3
  · rename_i hfu heq
    simp only [Nat.succ_eq_add_one, Nat.add_right_cancel_iff, List.cons.injEq] at hfu heq
    obtain ⟨rfl, rfl⟩ := heq
    subst hfu
    simp [hb]

theorem parseItems_escaped (fuel c : Nat) (rest : List Nat) :
    parseItems (fuel + 1) (0x5C :: c :: rest) =
      if c < 0x80 ∧ isSpecial c = true then
        (parseItems fuel (takeQuant rest).2).map
          (fun items => (Atom.lit c, (takeQuant rest).1) :: items)
      else none := by
  rw [parseItems]

theorem parseItems_cls (fuel : Nat) (rest : List Nat) :
    parseItems (fuel + 1) (0x5B :: 0x5E :: 0x2F :: 0x5D :: rest) =
      (parseItems fuel (takeQuant rest).2).map
        (fun items => (Atom.notSlash, (takeQuant rest).1) :: items) := by
  rw [parseItems]

theorem parseItems_quoted : ∀ inner : List Nat, Quoted inner → ∀ fuel : Nat,
    inner.length ≤ fuel →
    ∃ re, parseItems fuel inner = some re ∧ ∀ item ∈ re, isPlainItem item := by
  intro inner hq
  induction hq with
  | nil =>
    intro fuel _
    refine ⟨[], ?_, fun item h => by cases h⟩
    cases fuel <;> rfl
  | plain b t hb ht ih =>
    intro fuel hf
    cases fuel with
    | zero => simp at hf
    | succ fuel =>
      simp only [List.length_cons] at hf
      rcases ih fuel (by omega) with ⟨re, hre, hitems⟩
      refine ⟨(Atom.lit b, Quant.one) :: re, ?_, ?_⟩
      · rw [parseItems_plain fuel b t hb, takeQuant_quoted t ht, hre]
        rfl
      · intro item hi
        rcases List.mem_cons.mp hi with hi | hi
        · exact Or.inl ⟨b, hi⟩
        · exact hitems item hi
  | escaped c t hc ht ih =>
    intro fuel hf
    cases fuel with
    | zero => simp at hf
    | succ fuel =>
      simp only [List.length_cons] at hf
      rcases ih fuel (by omega) with ⟨re, hre, hitems⟩
      refine ⟨(Atom.lit c, Quant.one) :: re, ?_, ?_⟩
      · rw [parseItems_escaped, if_pos ⟨isSpecial_lt hc, hc⟩, takeQuant_quoted t ht, hre]
        rfl
      · intro item hi
        rcases List.mem_cons.mp hi with hi | hi
        · exact Or.inl ⟨c, hi⟩
        · exact hitems item hi
  | cls t ht ih =>
    intro fuel hf
    cases fuel with
    | zero => simp at hf
    | succ fuel =>
      simp only [List.length_cons] at hf
      rcases ih fuel (by omega) with ⟨re, hre, hitems⟩
      refine ⟨(Atom.notSlash, Quant.plus) :: re, ?_, ?_⟩
      · rw [parseItems_cls]
        have hq : takeQuant (0x2B :: t) = (Quant.plus, t) := rfl
        rw [hq, hre]
        rfl
      · intro item hi
        rcases List.mem_cons.mp hi with hi | hi
        · exact Or.inr hi
        · exact hitems item hi

/-- For every rule pattern, the expression built by `lookupBadge` compiles
unless it is not valid UTF-8, and the compiled matcher consists of literal
runes and of the class `[^/]+` only: it never holds a wildcard. -/
theorem compile_ruleRegex (entryPattern : GoString)
    (hvalid : validUTF8 (ruleRegex entryPattern) = true) :
    ∃ re, compile (ruleRegex entryPattern) = some re ∧ ∀ item ∈ re, isPlainItem item := by
  have hw := ruleRegex_wildcard_noop entryPattern
  rcases quoted_runes_anchor _ hw.2 0 (fun i hi => absurd hi (Nat.not_lt_zero i)) with
    ⟨inner, he, hq⟩
  rcases parseItems_quoted inner hq inner.length (Nat.le_refl _) with ⟨re, hre, hitems⟩
  refine ⟨re, ?_, hitems⟩
  unfold compile
  rw [if_pos hvalid]
  have hrunes : runes (ruleRegex entryPattern) = 0x5E :: (inner ++ [0x24]) := by
    unfold runes
    rw [hw.1]
    have e1 : bytes "^" = [0x5E] := by decide
    have e2 : bytes "$" = [0x24] := by decide
    rw [e1, e2, List.append_assoc, List.singleton_append, runesFrom_ascii _ _ (by decide), he]
  rw [hrunes]
  simp only [List.reverse_append, List.reverse_cons, List.reverse_nil, List.nil_append,
    List.singleton_append, List.length_reverse, List.reverse_reverse]
  exact hre

/-- C5: for every ASCII image URL `p ++ o ++ s` without a query string,
where `o` equals the organization name ignoring case, the organization name
does not occur (ignoring case) at an earlier position and the document name
does not occur (ignoring case) in `p ++ "{ORG}" ++ s`, `canonicalizeURL`
returns exactly `p ++ "{ORG}" ++ s`: only the first occurrence is replaced,
`p` and `s` keep their casing, and a later occurrence inside `s` stays.  The
organization name is ASCII, as the owner part of a GitHub repository URL
is; the statement holds for every case table `lower`. -/
theorem canonicalizeURL_org_of_isASCII (p o s org repo : GoString)
    (hascii : isASCII (p ++ o ++ s)) (horg : isASCII org)
    (ho : toLower lower o = toLower lower org)
    (hfirst : ∀ j, j < p.length → ¬ toLower lower org <+: (toLower lower (p ++ o ++ s)).drop j)
    (hdoc : index (toLower lower (p ++ bytes "{ORG}" ++ s)) (toLower lower repo) = none)
    (hq : 0x3F ∉ p ++ o ++ s) :
    canonicalizeURL lower (p ++ o ++ s) org repo = some (p ++ bytes "{ORG}" ++ s) := by
  have hpo := isASCII_append.mp hascii
  have hoA := (isASCII_append.mp hpo.1).2
  have hidx := index_toLower_append p o s (toLower lower org) hascii ho hfirst
  have hlen : o.length = org.length := by
    rw [← length_toLower_of_isASCII o hoA, ← length_toLower_of_isASCII org horg, ho]
  have hrep := replaceOrg_of_index_some (p ++ o ++ s) org p.length hidx
    (by simp only [List.length_append]; omega)
  have e1 : (p ++ o ++ s).take p.length = p := by
    rw [List.append_assoc, List.take_left]
  have e2 : (p ++ o ++ s).drop (p.length + org.length) = s := by
    rw [← hlen, ← List.length_append, List.drop_left]
  rw [e1, e2] at hrep
  unfold canonicalizeURL
  rw [hrep]
  simp only [Option.some_bind]
  rw [replaceRepo_of_index_none _ _ _ hdoc]
  simp only [Option.map_some', Option.some.injEq]
  apply stripToken_of_not_mem
  rw [bytes_org_pattern]
  intro hmem
  rcases List.mem_append.mp hmem with hm | hm
  · rcases List.mem_append.mp hm with hm | hm
    · exact hq (List.mem_append_left _ (List.mem_append_left _ hm))
    · revert hm; decide
  · exact hq (List.mem_append_right _ hm)

/-! ## Facts about the pattern of extractBadges -/

theorem decodeRune_width_pos (b : Nat) (rest : GoString) :
    1 ≤ (decodeRune (b :: rest)).2 := by
  unfold decodeRune
  simp only [reduceCtorEq, if_false]
  split_ifs <;> simp

theorem run_rune_ascii (c : RuneClass) (k : MatchState → Option MatchState)
    (b : Nat) (rest : GoString) (caps : List (Option GoString)) (hb : b < 0x80) :
    (Re.rune c).run k ⟨b :: rest, caps⟩ =
      if c.accepts b then k ⟨rest, caps⟩ else none := by
  simp [Re.run, decodeRune_ascii b rest hb]

theorem run_rune_cons (c : RuneClass) (k : MatchState → Option MatchState)
    (b : Nat) (rest : GoString) (caps : List (Option GoString)) :
    (Re.rune c).run k ⟨b :: rest, caps⟩ =
      if c.accepts (decodeRune (b :: rest)).1 then
        k ⟨(b :: rest).drop (decodeRune (b :: rest)).2, caps⟩
      else none := by
  simp [Re.run]

theorem run_rune_nil (c : RuneClass) (k : MatchState → Option MatchState)
    (caps : List (Option GoString)) :
    (Re.rune c).run k ⟨[], caps⟩ = none := by
  simp [Re.run]

theorem run_ofList_cons (a : Re) (l : List Re) (k : MatchState → Option MatchState)
    (st : MatchState) :
    (Re.ofList (a :: l)).run k st = a.run ((Re.ofList l).run k) st := by
  cases l with
  | nil => simp [Re.ofList, Re.run]
  | cons b l => simp [Re.ofList, Re.run]

/-- A literal text is read off the input. -/
theorem run_lits (l : GoString) (hl : ∀ b ∈ l, b < 0x80)
    (k : MatchState → Option MatchState) (rest : GoString)
    (caps : List (Option GoString)) :
    (Re.ofList (l.map fun b => Re.rune (.lit b))).run k ⟨l ++ rest, caps⟩ =
      k ⟨rest, caps⟩ := by
  induction l with
  | nil => simp [Re.ofList, Re.run]
  | cons b l ih =>
    rw [List.map_cons, run_ofList_cons, List.cons_append,
      run_rune_ascii _ _ _ _ _ (hl b (List.mem_cons_self _ _))]
    simp only [RuneClass.accepts, beq_self_eq_true, if_true]
    exact ih fun c hc => hl c (List.mem_cons_of_mem _ hc)

theorem run_text (s : String) (hl : ∀ b ∈ bytes s, b < 0x80)
    (k : MatchState → Option MatchState) (rest : GoString)
    (caps : List (Option GoString)) :
    (Re.text s).run k ⟨bytes s ++ rest, caps⟩ = k ⟨rest, caps⟩ :=
  run_lits (bytes s) hl k rest caps

/-- A repetition stops at once at an ASCII byte outside the class. -/
theorem starRun_stop (c : RuneClass) (fuel : Nat) (k : MatchState → Option MatchState)
    (b : Nat) (rest : GoString) (caps : List (Option GoString)) (hb : b < 0x80)
    (hc : c.accepts b = false) :
    starRun (Re.rune c).run fuel k ⟨b :: rest, caps⟩ = k ⟨b :: rest, caps⟩ := by
  cases fuel with
  | zero => rfl
  | succ fuel => simp [starRun, run_rune_ascii _ _ _ _ _ hb, hc]

theorem starRun_nil (c : RuneClass) (fuel : Nat) (k : MatchState → Option MatchState)
    (caps : List (Option GoString)) :
    starRun (Re.rune c).run fuel k ⟨[], caps⟩ = k ⟨[], caps⟩ := by
  cases fuel with
  | zero => rfl
  | succ fuel => simp [starRun, run_rune_nil]

/-- One rune of a text without the byte `q`, read in front of a `q`: the
rune is not `q` and lies within the text. -/
theorem decodeRune_before (q b : Nat) (h rest : GoString) (hq : q < 0x80)
    (hb : b ≠ q) :
    (decodeRune (b :: (h ++ q :: rest))).1 ≠ q ∧
      (decodeRune (b :: (h ++ q :: rest))).2 - 1 ≤ h.length := by
  by_cases hlt : b < 0x80
  · rw [decodeRune_ascii b _ hlt]
    exact ⟨hb, by simp⟩
  · have hge : 0x80 ≤ b := by omega
    obtain ⟨h1, h2⟩ := decodeRune_high b (h ++ q :: rest) hge
    refine ⟨by omega, ?_⟩
    by_contra hcon
    have := h2 h.length (by omega)
    rw [List.getD_eq_getElem?_getD, List.getElem?_append_right (le_refl _)] at this
    simp at this
    omega

/-- Greedy repetition of `[^q]` over a text without `q` that is followed by
`q`: the first result is the one with the whole text read, when the rest of
the match succeeds there. -/
theorem starRun_notRune (q : Nat) (hq : q < 0x80) (k : MatchState → Option MatchState)
    (rest : GoString) (caps : List (Option GoString)) (r : MatchState)
    (hk : k ⟨q :: rest, caps⟩ = some r) :
    ∀ (n : Nat) (h : GoString) (fuel : Nat), h.length ≤ n → h.length ≤ fuel → q ∉ h →
      starRun (Re.rune (.notRune q)).run fuel k ⟨h ++ q :: rest, caps⟩ = some r := by
  intro n
  induction n with
  | zero =>
    intro h fuel hn _ _
    have : h = [] := List.length_eq_zero.mp (by omega)
    subst this
    rw [List.nil_append, starRun_stop _ _ _ _ _ _ hq (by simp [RuneClass.accepts]), hk]
  | succ n ih =>
    intro h fuel hn hf hqh
    cases h with
    | nil =>
      rw [List.nil_append, starRun_stop _ _ _ _ _ _ hq (by simp [RuneClass.accepts]), hk]
    | cons b h =>
      have hbq : b ≠ q := fun e => hqh (e ▸ List.mem_cons_self _ _)
      have hqh' : q ∉ h := fun e => hqh (List.mem_cons_of_mem _ e)
      obtain ⟨h1, h2⟩ := decodeRune_before q b h rest hq hbq
      have hw := decodeRune_width_pos b (h ++ q :: rest)
      cases fuel with
      | zero => simp at hf
      | succ fuel =>
        simp only [List.length_cons] at hn hf
        have hdrop : List.drop (decodeRune (b :: (h ++ q :: rest))).2 (b :: (h ++ q :: rest)) =
            List.drop ((decodeRune (b :: (h ++ q :: rest))).2 - 1) h ++ q :: rest := by
          obtain ⟨w, hw'⟩ : ∃ w, (decodeRune (b :: (h ++ q :: rest))).2 = w + 1 :=
            ⟨_, (Nat.sub_add_cancel hw).symm⟩
          rw [hw'] at h2 ⊢
          simp only [List.drop_succ_cons, Nat.add_sub_cancel] at h2 ⊢
          rw [List.drop_append_of_le_length h2]
        have hrec := ih (List.drop ((decodeRune (b :: (h ++ q :: rest))).2 - 1) h) fuel
          (by rw [List.length_drop]; omega) (by rw [List.length_drop]; omega)
          (fun e => hqh' (List.mem_of_mem_drop e))
        rw [starRun, List.cons_append, run_rune_cons]
        have hacc : (RuneClass.notRune q).accepts (decodeRune (b :: (h ++ q :: rest))).1 = true := by
          simpa [RuneClass.accepts] using h1
        rw [if_pos hacc]
        simp only [hdrop]
        rw [if_pos (by simp [List.length_drop]; omega), hrec]

theorem run_plus_space (k : MatchState → Option MatchState)
    (b : Nat) (rest : GoString) (caps : List (Option GoString)) (hb : b < 0x80)
    (hc : RuneClass.space.accepts b = false) :
    (Re.plus (.rune .space)).run k ⟨0x20 :: b :: rest, caps⟩ = k ⟨b :: rest, caps⟩ := by
  rw [Re.run, run_rune_ascii _ _ _ _ _ (by decide)]
  simp only [RuneClass.accepts]
  rw [if_pos (by decide)]
  exact starRun_stop _ _ _ _ _ _ hb hc

theorem run_star_stop (c : RuneClass) (k : MatchState → Option MatchState)
    (b : Nat) (rest : GoString) (caps : List (Option GoString)) (hb : b < 0x80)
    (hc : c.accepts b = false) :
    (Re.star (.rune c)).run k ⟨b :: rest, caps⟩ = k ⟨b :: rest, caps⟩ := by
  rw [Re.run]
  exact starRun_stop _ _ _ _ _ _ hb hc

theorem run_star_notRune (q : Nat) (hq : q < 0x80) (k : MatchState → Option MatchState)
    (h rest : GoString) (caps : List (Option GoString)) (r : MatchState) (hqh : q ∉ h)
    (hk : k ⟨q :: rest, caps⟩ = some r) :
    (Re.star (.rune (.notRune q))).run k ⟨h ++ q :: rest, caps⟩ = some r := by
  rw [Re.run]
  exact starRun_notRune q hq k rest caps r hk h.length h _ (le_refl _) (by simp) hqh

theorem run_plus_notRune (q : Nat) (hq : q < 0x80) (k : MatchState → Option MatchState)
    (h rest : GoString) (caps : List (Option GoString)) (r : MatchState) (hqh : q ∉ h)
    (hne : h ≠ [])
    (hk : k ⟨q :: rest, caps⟩ = some r) :
    (Re.plus (.rune (.notRune q))).run k ⟨h ++ q :: rest, caps⟩ = some r := by
  cases h with
  | nil => exact absurd rfl hne
  | cons b h =>
    have hbq : b ≠ q := fun e => hqh (e ▸ List.mem_cons_self _ _)
    have hqh' : q ∉ h := fun e => hqh (List.mem_cons_of_mem _ e)
    obtain ⟨h1, h2⟩ := decodeRune_before q b h rest hq hbq
    have hw := decodeRune_width_pos b (h ++ q :: rest)
    have hdrop : List.drop (decodeRune (b :: (h ++ q :: rest))).2 (b :: (h ++ q :: rest)) =
        List.drop ((decodeRune (b :: (h ++ q :: rest))).2 - 1) h ++ q :: rest := by
      obtain ⟨w, hw'⟩ : ∃ w, (decodeRune (b :: (h ++ q :: rest))).2 = w + 1 :=
        ⟨_, (Nat.sub_add_cancel hw).symm⟩
      rw [hw'] at h2 ⊢
      simp only [List.drop_succ_cons, Nat.add_sub_cancel] at h2 ⊢
      rw [List.drop_append_of_le_length h2]
    have hacc : (RuneClass.notRune q).accepts (decodeRune (b :: (h ++ q :: rest))).1 = true := by
      simpa [RuneClass.accepts] using h1
    rw [Re.run, List.cons_append, run_rune_cons, if_pos hacc]
    simp only [hdrop]
    exact starRun_notRune q hq k rest caps r hk _ _ _ (le_refl _)
      (by simp) (fun e => hqh' (List.mem_of_mem_drop e))

/-- A group records the text its body read. -/
theorem run_group (i : Nat) (a : Re) (k : MatchState → Option MatchState) (st : MatchState) :
    (Re.group i a).run k st =
      a.run (fun st' => k ⟨st'.rest, st'.caps.set i
        (some (st.rest.take (st.rest.length - st'.rest.length)))⟩) st := by
  rw [Re.run]

theorem run_opt_some (a : Re) (k : MatchState → Option MatchState) (st r : MatchState)
    (h : a.run k st = some r) : (Re.opt a).run k st = some r := by
  rw [Re.run, h]

theorem run_opt_none (a : Re) (k : MatchState → Option MatchState) (st : MatchState)
    (h : a.run k st = none) : (Re.opt a).run k st = k st := by
  rw [Re.run, h]

theorem take_append_sub (h rest : GoString) :
    (h ++ rest).take ((h ++ rest).length - rest.length) = h := by
  simp

theorem run_group_plus_notRune (i q : Nat) (hq : q < 0x80)
    (k : MatchState → Option MatchState) (h rest : GoString)
    (caps : List (Option GoString)) (r : MatchState) (hqh : q ∉ h) (hne : h ≠ [])
    (hk : k ⟨q :: rest, caps.set i (some h)⟩ = some r) :
    (Re.group i (.plus (.rune (.notRune q)))).run k ⟨h ++ q :: rest, caps⟩ = some r := by
  rw [run_group]
  apply run_plus_notRune q hq _ h rest caps r hqh hne
  simp only [take_append_sub]
  exact hk

theorem run_group_star_notRune (i q : Nat) (hq : q < 0x80)
    (k : MatchState → Option MatchState) (h rest : GoString)
    (caps : List (Option GoString)) (r : MatchState) (hqh : q ∉ h)
    (hk : k ⟨q :: rest, caps.set i (some h)⟩ = some r) :
    (Re.group i (.star (.rune (.notRune q)))).run k ⟨h ++ q :: rest, caps⟩ = some r := by
  rw [run_group]
  apply run_star_notRune q hq _ h rest caps r hqh
  simp only [take_append_sub]
  exact hk

theorem run_seq (a b : Re) (k : MatchState → Option MatchState) (st : MatchState) :
    (Re.seq a b).run k st = a.run (b.run k) st := by
  rw [Re.run]

theorem run_lit (b : Nat) (hb : b < 0x80) (k : MatchState → Option MatchState)
    (rest : GoString) (caps : List (Option GoString)) :
    (Re.rune (.lit b)).run k ⟨b :: rest, caps⟩ = k ⟨rest, caps⟩ := by
  rw [run_rune_ascii _ _ _ _ _ hb]
  simp [RuneClass.accepts]

/-- The pattern of `extractBadges`, spelled out. -/
theorem htmlBadgeRegex_eq :
    htmlBadgeRegex =
      .seq (.seq (.rune (.lit 0x3C)) (.rune (.lit 0x61))) (
      .seq (.plus (.rune .space)) (
      .seq (.seq (.rune (.lit 0x68)) (.seq (.rune (.lit 0x72)) (.seq (.rune (.lit 0x65))
        (.seq (.rune (.lit 0x66)) (.seq (.rune (.lit 0x3D)) (.rune (.lit 0x22))))))) (
      .seq (.group 1 (.plus (.rune (.notRune 0x22)))) (
      .seq (.rune (.lit 0x22)) (
      .seq (.star (.rune (.notRune 0x3E))) (
      .seq (.rune (.lit 0x3E)) (
      .seq (.star (.rune .space)) (
      .seq (.seq (.rune (.lit 0x3C)) (.seq (.rune (.lit 0x69)) (.seq (.rune (.lit 0x6D))
        (.rune (.lit 0x67))))) (
      .seq (.plus (.rune .space)) (
      .seq (.seq (.rune (.lit 0x73)) (.seq (.rune (.lit 0x72)) (.seq (.rune (.lit 0x63))
        (.seq (.rune (.lit 0x3D)) (.rune (.lit 0x22)))))) (
      .seq (.group 2 (.plus (.rune (.notRune 0x22)))) (
      .seq (.rune (.lit 0x22)) (
      .seq (.opt (.seq (.plus (.rune .space)) (
        .seq (.seq (.rune (.lit 0x61)) (.seq (.rune (.lit 0x6C)) (.seq (.rune (.lit 0x74))
          (.seq (.rune (.lit 0x3D)) (.rune (.lit 0x22)))))) (
        .seq (.group 3 (.star (.rune (.notRune 0x22)))) (.rune (.lit 0x22)))))) (
      .seq (.star (.rune (.notRune 0x3E))) (
      .seq (.rune (.lit 0x3E)) (
      .seq (.star (.rune .space))
        (.seq (.rune (.lit 0x3C)) (.seq (.rune (.lit 0x2F)) (.seq (.rune (.lit 0x61))
          (.rune (.lit 0x3E))))))))))))))))))))) := by
  rfl

/-- The pattern on an anchor with an image and its `alt` text. -/
theorem matchAt_anchor_alt (h s a : GoString) (hh : h ≠ []) (hs : s ≠ [])
    (qh : 0x22 ∉ h) (qs : 0x22 ∉ s) (qa : 0x22 ∉ a) :
    htmlBadgeRegex.matchAt 3 (bytes "<a href=\"" ++ h ++ bytes "\"><img src=\"" ++ s ++
        bytes "\" alt=\"" ++ a ++ bytes "\"></a>") =
      some ⟨[], [none, some h, some s, some a]⟩ := by
  have b1 : bytes "<a href=\"" = [0x3C, 0x61, 0x20, 0x68, 0x72, 0x65, 0x66, 0x3D, 0x22] := by
    decide
  have b2 : bytes "\"><img src=\"" =
      [0x22, 0x3E, 0x3C, 0x69, 0x6D, 0x67, 0x20, 0x73, 0x72, 0x63, 0x3D, 0x22] := by decide
  have b3 : bytes "\" alt=\"" = [0x22, 0x20, 0x61, 0x6C, 0x74, 0x3D, 0x22] := by decide
  have b4 : bytes "\"></a>" = [0x22, 0x3E, 0x3C, 0x2F, 0x61, 0x3E] := by decide
  rw [b1, b2, b3, b4, Re.matchAt, htmlBadgeRegex_eq]
  simp only [List.append_assoc, List.cons_append, List.nil_append]
  simp [run_seq, run_lit, run_plus_space, run_star_stop, RuneClass.accepts]
  apply run_group_plus_notRune _ _ (by decide) _ _ _ _ _ qh hh
  simp [run_seq, run_lit, run_plus_space, run_star_stop, RuneClass.accepts]
  apply run_group_plus_notRune _ _ (by decide) _ _ _ _ _ qs hs
  simp [run_seq, run_lit, run_plus_space, run_star_stop, RuneClass.accepts]
  apply run_opt_some
  simp [run_seq, run_lit, run_plus_space, run_star_stop, RuneClass.accepts]
  apply run_group_star_notRune _ _ (by decide) _ _ _ _ _ qa
  simp [run_seq, run_lit, run_plus_space, run_star_stop, RuneClass.accepts]

/-- The pattern on an anchor with an image that has no `alt` attribute. -/
theorem matchAt_anchor_plain (h s : GoString) (hh : h ≠ []) (hs : s ≠ [])
    (qh : 0x22 ∉ h) (qs : 0x22 ∉ s) :
    htmlBadgeRegex.matchAt 3 (bytes "<a href=\"" ++ h ++ bytes "\"><img src=\"" ++ s ++
        bytes "\"></a>") =
      some ⟨[], [none, some h, some s, none]⟩ := by
  have b1 : bytes "<a href=\"" = [0x3C, 0x61, 0x20, 0x68, 0x72, 0x65, 0x66, 0x3D, 0x22] := by
    decide
  have b2 : bytes "\"><img src=\"" =
      [0x22, 0x3E, 0x3C, 0x69, 0x6D, 0x67, 0x20, 0x73, 0x72, 0x63, 0x3D, 0x22] := by decide
  have b4 : bytes "\"></a>" = [0x22, 0x3E, 0x3C, 0x2F, 0x61, 0x3E] := by decide
  rw [b1, b2, b4, Re.matchAt, htmlBadgeRegex_eq]
  simp only [List.append_assoc, List.cons_append, List.nil_append]
  simp [run_seq, run_lit, run_plus_space, run_star_stop, RuneClass.accepts]
  apply run_group_plus_notRune _ _ (by decide) _ _ _ _ _ qh hh
  simp [run_seq, run_lit, run_plus_space, run_star_stop, RuneClass.accepts]
  apply run_group_plus_notRune _ _ (by decide) _ _ _ _ _ qs hs
  simp [run_seq, run_lit, run_plus_space, run_star_stop, RuneClass.accepts]
  rw [run_opt_none]
  · simp [run_seq, run_lit, run_plus_space, run_star_stop, RuneClass.accepts]
  · rw [run_seq, Re.run, run_rune_ascii _ _ _ _ _ (by decide)]
    simp [RuneClass.accepts]

theorem matchAt_nil : htmlBadgeRegex.matchAt 3 [] = none := by
  decide

theorem search_of_matchAt (re : Re) (ncap fuel : Nat) (input : GoString) (st : MatchState)
    (h : re.matchAt ncap input = some st) :
    re.search ncap fuel input = some (0, st) := by
  cases fuel with
  | zero => simp [Re.search, h]
  | succ fuel => simp [Re.search, h]

/-- A match that takes the whole of a content is the only one found. -/
theorem findAllSubmatch_whole (content : GoString) (caps : List (Option GoString))
    (hne : content ≠ [])
    (h : htmlBadgeRegex.matchAt 3 content = some ⟨[], caps⟩) :
    findAllSubmatch htmlBadgeRegex 3 content = [some content :: caps.tail] := by
  have hlen : content.length ≠ 0 := fun e => hne (List.length_eq_zero.mp e)
  have hs := search_of_matchAt htmlBadgeRegex 3 content.length content _ h
  have hnil : htmlBadgeRegex.search 3 0 [] = none := by
    simp [Re.search, matchAt_nil]
  unfold findAllSubmatch
  rw [allMatches, hs]
  simp only [List.length_nil, true_and, List.drop_zero]
  rw [if_neg (fun e => hlen e.symm), allMatches]
  simp only [List.length_nil, hnil, submatches, Nat.sub_zero, List.take_length]

theorem normalizeBadge_fields (b : Badge) :
    (normalizeBadge b).TargetURL = b.TargetURL ∧ (normalizeBadge b).ImageURL = b.ImageURL ∧
      (normalizeBadge b).AltText = b.AltText := by
  unfold normalizeBadge
  cases urlParse b.ImageURL <;> simp only <;> split <;> simp

/-- C11: for a non-empty href `h`, a non-empty src `s` and an alt text `a`,
none of which contains a double quote, the second pass of `extractBadges`
over the bytes `<a href="h"><img src="s" alt="a"></a>` yields exactly one
occurrence, with TargetURL `h`, ImageURL `s` and AltText `a`; over the bytes
`<a href="h"><img src="s"></a>`, where the alt attribute is absent, it
yields exactly one occurrence, with TargetURL `h`, ImageURL `s` and an empty
AltText. -/
theorem htmlBadges_anchor (h s a : GoString) (hh : h ≠ []) (hs : s ≠ [])
    (qh : 0x22 ∉ h) (qs : 0x22 ∉ s) (qa : 0x22 ∉ a) :
    (∃ b, htmlBadges (bytes "<a href=\"" ++ h ++ bytes "\"><img src=\"" ++ s ++
          bytes "\" alt=\"" ++ a ++ bytes "\"></a>") = [b] ∧
        b.TargetURL = h ∧ b.ImageURL = s ∧ b.AltText = a) ∧
    (∃ b, htmlBadges (bytes "<a href=\"" ++ h ++ bytes "\"><img src=\"" ++ s ++
          bytes "\"></a>") = [b] ∧
        b.TargetURL = h ∧ b.ImageURL = s ∧ b.AltText = []) := by
  constructor
  · have hm := matchAt_anchor_alt h s a hh hs qh qs qa
    have hall := findAllSubmatch_whole _ _ (by simp [hh]) hm
    refine ⟨htmlBadge (some (bytes "<a href=\"" ++ h ++ bytes "\"><img src=\"" ++ s ++
        bytes "\" alt=\"" ++ a ++ bytes "\"></a>") :: [none, some h, some s, some a].tail), ?_, ?_⟩
    · unfold htmlBadges
      rw [hall]
      rfl
    · exact normalizeBadge_fields _
  · have hm := matchAt_anchor_plain h s hh hs qh qs
    have hall := findAllSubmatch_whole _ _ (by simp [hh]) hm
    refine ⟨htmlBadge (some (bytes "<a href=\"" ++ h ++ bytes "\"><img src=\"" ++ s ++
        bytes "\"></a>") :: [none, some h, some s, none].tail), ?_, ?_⟩
    · unfold htmlBadges
      rw [hall]
      rfl
    · exact normalizeBadge_fields _

/-- Witness of C11: the anchor `<a href="http://t"><img src="http://i" alt="A"></a>`
and the same anchor without its alt attribute. -/
theorem htmlBadges_anchor_witness :
    htmlBadges (bytes "<a href=\"http://t\"><img src=\"http://i\" alt=\"A\"></a>") =
      [⟨bytes "A", bytes "http://i", bytes "http://t", bytes "i", bytes "t"⟩] ∧
    htmlBadges (bytes "<a href=\"http://t\"><img src=\"http://i\"></a>") =
      [⟨[], bytes "http://i", bytes "http://t", bytes "i", bytes "t"⟩] ∧
    (∃ b, htmlBadges (bytes "<a href=\"" ++ bytes "http://t" ++ bytes "\"><img src=\"" ++
          bytes "http://i" ++ bytes "\" alt=\"" ++ bytes "A" ++ bytes "\"></a>") = [b] ∧
        b.TargetURL = bytes "http://t" ∧ b.ImageURL = bytes "http://i" ∧
        b.AltText = bytes "A") ∧
    (∃ b, htmlBadges (bytes "<a href=\"" ++ bytes "http://t" ++ bytes "\"><img src=\"" ++
          bytes "http://i" ++ bytes "\"></a>") = [b] ∧
        b.TargetURL = bytes "http://t" ∧ b.ImageURL = bytes "http://i" ∧ b.AltText = []) :=
  ⟨by decide, by decide,
    htmlBadges_anchor (bytes "http://t") (bytes "http://i") (bytes "A")
      (by decide) (by decide) (by decide) (by decide) (by decide)⟩

/-! ## Token stripping and the placeholder of the organization -/

/-- C12 (the code at the example of the claim): for the image URL
`https://svc/Acme/badge.svg?token=S&x=1` and the organization `Acme`,
`canonicalizeURL` returns `https://svc/%7BORG%7D/badge.svg?x=1`, not
`https://svc/{ORG}/badge.svg?x=1`: the URL is written back by `u.String()`,
which escapes the braces of the placeholder in the path. The same URL
without the `token` parameter keeps the literal `{ORG}`. The other
parameters are written back sorted by key, and when the organization name
occurs first in the host the substituted URL does not parse and the token
stays in the pattern. -/
theorem canonicalizeURL_token_escapes_org :
    canonicalizeURL lowerExcerpt (bytes "https://svc/Acme/badge.svg?token=S&x=1") (bytes "Acme")
        (bytes "repo") = some (bytes "https://svc/%7BORG%7D/badge.svg?x=1")
    ∧ canonicalizeURL lowerExcerpt (bytes "https://svc/Acme/badge.svg?token=S&x=1") (bytes "Acme")
        (bytes "repo") ≠ some (bytes "https://svc/{ORG}/badge.svg?x=1")
    ∧ canonicalizeURL lowerExcerpt (bytes "https://svc/Acme/badge.svg?x=1") (bytes "Acme")
        (bytes "repo") = some (bytes "https://svc/{ORG}/badge.svg?x=1")
    ∧ canonicalizeURL lowerExcerpt (bytes "https://svc/Acme/badge.svg?x=1&token=S&a=2")
        (bytes "Acme")
        (bytes "repo") = some (bytes "https://svc/%7BORG%7D/badge.svg?a=2&x=1")
    ∧ canonicalizeURL lowerExcerpt (bytes "https://acme.io/Acme/badge.svg?token=S&x=1")
        (bytes "Acme")
        (bytes "repo") = some (bytes "https://{ORG}.io/Acme/badge.svg?token=S&x=1") := by
  refine ⟨?_, ?_, ?_, ?_, ?_⟩ <;> decide

/-- Unescaping a byte string gives a byte string, in every mode. -/
theorem isBytes_unescape (mode : Encoding) : ∀ (n : Nat) (s t : GoString), s.length ≤ n →
    isBytes s → unescape mode s = some t → isBytes t := by
  intro n
  induction n with
  | zero =>
    intro s t hn _ h
    have : s = [] := List.length_eq_zero.mp (Nat.le_zero.mp hn)
    subst this
    rw [unescape.eq_def] at h
    simp only [Option.some.injEq] at h
    subst h
    intro b hb; cases hb
  | succ n ih =>
    intro s t hn hs h
    rw [unescape.eq_def] at h
    split at h
    · simp only [Option.some.injEq] at h
      subst h
      intro b hb; cases hb
    · rename_i h1 h2 rest
      split at h
      · split at h
        · cases h
        · split at h
          · cases h
          · cases hr : unescape mode rest with
            | none => rw [hr] at h; cases h
            | some r3 =>
              rw [hr] at h
              simp only [Option.map_some', Option.some.injEq] at h
              subst h
              simp only [List.length_cons] at hn
              have hr2 : isBytes rest := fun b hb => hs b (List.mem_cons_of_mem _
                (List.mem_cons_of_mem _ (List.mem_cons_of_mem _ hb)))
              intro b hb
              rcases List.mem_cons.mp hb with hb | hb
              · subst hb
                have := unhex_lt h1
                have := unhex_lt h2
                omega
              · exact ih rest r3 (by omega) hr2 hr b hb
      · cases h
    · cases h
    · rename_i rest
      cases hr : unescape mode rest with
      | none => rw [hr] at h; cases h
      | some r3 =>
        rw [hr] at h
        simp only [Option.map_some', Option.some.injEq] at h
        subst h
        simp only [List.length_cons] at hn
        have hr2 : isBytes rest := fun b hb => hs b (List.mem_cons_of_mem _ hb)
        intro b hb
        rcases List.mem_cons.mp hb with hb | hb
        · subst hb; split <;> decide
        · exact ih rest r3 (by omega) hr2 hr b hb
    · rename_i c rest _ _ _
      split at h
      · cases h
      · cases hr : unescape mode rest with
        | none => rw [hr] at h; cases h
        | some r3 =>
          rw [hr] at h
          simp only [Option.map_some', Option.some.injEq] at h
          subst h
          simp only [List.length_cons] at hn
          have hr2 : isBytes rest := fun b hb => hs b (List.mem_cons_of_mem _ hb)
          intro b hb
          rcases List.mem_cons.mp hb with hb | hb
          · subst hb; exact hs _ (List.mem_cons_self _ _)
          · exact ih rest r3 (by omega) hr2 hr b hb

theorem isBytes_nil : isBytes [] := fun b hb => by cases hb

theorem isBytes_append_iff (s t : GoString) : isBytes (s ++ t) ↔ isBytes s ∧ isBytes t := by
  unfold isBytes
  simp only [List.mem_append]
  constructor
  · intro h
    exact ⟨fun b hb => h b (Or.inl hb), fun b hb => h b (Or.inr hb)⟩
  · rintro ⟨h1, h2⟩ b (hb | hb)
    · exact h1 b hb
    · exact h2 b hb

theorem isBytes_unescape_of (mode : Encoding) (s t : GoString) (hs : isBytes s)
    (h : unescape mode s = some t) : isBytes t :=
  isBytes_unescape mode s.length s t (le_refl _) hs h

theorem parseHost_isBytes (host h : GoString) (hs : isBytes host)
    (hp : parseHost host = some h) : isBytes h := by
  unfold parseHost at hp
  split at hp
  · split at hp
    · cases hp
    · split at hp
      · cases hp
      · split at hp
        · simp only [Option.bind_eq_some, Option.some.injEq] at hp
          obtain ⟨x1, h1, x2, h2, x3, h3, rfl⟩ := hp
          rw [isBytes_append_iff, isBytes_append_iff]
          exact ⟨⟨isBytes_unescape_of _ _ _ (isBytes_sublist (List.take_sublist _ _) hs) h1,
            isBytes_unescape_of _ _ _ (isBytes_sublist
              ((List.drop_sublist _ _).trans (List.take_sublist _ _)) hs) h2⟩,
            isBytes_unescape_of _ _ _ (isBytes_sublist (List.drop_sublist _ _) hs) h3⟩
        · exact isBytes_unescape_of _ _ _ hs hp
  · split at hp
    · split at hp
      · cases hp
      · exact isBytes_unescape_of _ _ _ hs hp
    · exact isBytes_unescape_of _ _ _ hs hp

theorem parseAuthority_isBytes (authority : GoString) (r : Option Userinfo × GoString)
    (hs : isBytes authority) (hp : parseAuthority authority = some r) :
    isBytes r.2 ∧ ∀ ui, r.1 = some ui → isBytes ui.username ∧ isBytes ui.password := by
  unfold parseAuthority at hp
  split at hp
  · cases hh : parseHost authority with
    | none => rw [hh] at hp; cases hp
    | some host =>
      rw [hh] at hp
      simp only [Option.map_some', Option.some.injEq] at hp
      subst hp
      exact ⟨parseHost_isBytes _ _ hs hh, fun ui hui => by cases hui⟩
  · rename_i i _
    cases hh : parseHost (List.drop (i + 1) authority) with
    | none => rw [hh] at hp; cases hp
    | some host =>
      rw [hh] at hp
      simp only [Option.some_bind] at hp
      have hhost := parseHost_isBytes _ _ (isBytes_sublist (List.drop_sublist _ _) hs) hh
      have hui : isBytes (List.take i authority) := isBytes_sublist (List.take_sublist _ _) hs
      split at hp
      · cases hp
      · split at hp
        · cases hn : unescape Encoding.encodeUserPassword (List.take i authority) with
          | none => rw [hn] at hp; cases hp
          | some name =>
            rw [hn] at hp
            simp only [Option.map_some', Option.some.injEq] at hp
            subst hp
            refine ⟨hhost, fun ui hui2 => ?_⟩
            simp only [Option.some.injEq] at hui2
            subst hui2
            exact ⟨isBytes_unescape_of _ _ _ hui hn, isBytes_nil⟩
        · cases hn : unescape Encoding.encodeUserPassword
              (cutByte (List.take i authority) 0x3A).1 with
          | none => rw [hn] at hp; cases hp
          | some name =>
            rw [hn] at hp
            simp only [Option.some_bind] at hp
            cases hw : unescape Encoding.encodeUserPassword
                (cutByte (List.take i authority) 0x3A).2.1 with
            | none => rw [hw] at hp; cases hp
            | some pass =>
              rw [hw] at hp
              simp only [Option.map_some', Option.some.injEq] at hp
              subst hp
              refine ⟨hhost, fun ui hui2 => ?_⟩
              simp only [Option.some.injEq] at hui2
              subst hui2
              have c1 : isBytes (cutByte (List.take i authority) 0x3A).1 :=
                isBytes_sublist (List.takeWhile_sublist _) hui
              have c2 : isBytes (cutByte (List.take i authority) 0x3A).2.1 :=
                isBytes_sublist ((List.drop_sublist _ _).trans (List.dropWhile_sublist _)) hui
              exact ⟨isBytes_unescape_of _ _ _ c1 hn, isBytes_unescape_of _ _ _ c2 hw⟩

theorem setPath_isBytes (u u2 : URL) (p : GoString) (hu : u.isBytes) (hp : isBytes p)
    (h : setPath u p = some u2) : u2.isBytes := by
  unfold setPath at h
  cases hx : unescape Encoding.encodePath p with
  | none => rw [hx] at h; cases h
  | some path =>
    rw [hx] at h
    simp only [Option.map_some', Option.some.injEq] at h
    have hpath := isBytes_unescape_of _ _ _ hp hx
    split at h <;> (subst h; exact ⟨hpath, hu.2.1, hu.2.2.1, hu.2.2.2⟩)

theorem setFragment_isBytes (u u2 : URL) (f : GoString) (hu : u.isBytes) (hf : isBytes f)
    (h : setFragment u f = some u2) : u2.isBytes := by
  unfold setFragment at h
  cases hx : unescape Encoding.encodeFragment f with
  | none => rw [hx] at h; cases h
  | some frag =>
    rw [hx] at h
    simp only [Option.map_some', Option.some.injEq] at h
    have hfrag := isBytes_unescape_of _ _ _ hf hx
    split at h <;> (subst h; exact ⟨hu.1, hu.2.1, hfrag, hu.2.2.2⟩)

theorem parseRest_isBytes (url u : URL) (rest : GoString) (hu : url.isBytes)
    (hr : isBytes rest) (h : parseRest url rest = some u) : u.isBytes := by
  unfold parseRest at h
  split at h
  · simp only [Option.some.injEq] at h
    subst h
    exact hu
  · split at h
    · cases h
    · split at h
      · simp only at h
        cases ha : parseAuthority
            (List.takeWhile (fun b => b != 0x2F) (List.drop 2 rest)) with
        | none => rw [ha] at h; cases h
        | some uh =>
          rw [ha] at h
          simp only [Option.some_bind] at h
          have hauth := parseAuthority_isBytes _ _ (isBytes_sublist
            ((List.takeWhile_sublist _).trans (List.drop_sublist _ _)) hr) ha
          refine setPath_isBytes _ _ _ ?_
            (isBytes_sublist ((List.dropWhile_sublist _).trans (List.drop_sublist _ _)) hr) h
          exact ⟨hu.1, hauth.1, hu.2.2.1, hauth.2⟩
      · split at h
        · refine setPath_isBytes _ _ _ ?_ hr h
          exact hu
        · exact setPath_isBytes _ _ _ hu hr h

theorem parse_isBytes (s : GoString) (u : URL) (hs : isBytes s) (h : parse s = some u) :
    u.isBytes := by
  have hempty : ∀ url : URL, url.Path = [] → url.Host = [] → url.Fragment = [] →
      url.User = none → url.isBytes := by
    intro url h1 h2 h3 h4
    refine ⟨?_, ?_, ?_, ?_⟩
    · rw [h1]; exact isBytes_nil
    · rw [h2]; exact isBytes_nil
    · rw [h3]; exact isBytes_nil
    · intro ui hui
      rw [h4] at hui
      cases hui
  unfold parse at h
  split at h
  · cases h
  · split at h
    · simp only [Option.some.injEq] at h
      subst h
      exact ⟨by decide, isBytes_nil, isBytes_nil, fun ui hui => by cases hui⟩
    · cases hg : getScheme s with
      | none => rw [hg] at h; cases h
      | some sr =>
        rw [hg] at h
        simp only [Option.some_bind] at h
        obtain ⟨sch, rest0⟩ := sr
        simp only at h
        have hrest0 : isBytes rest0 := by
          rcases getScheme_spec s sch rest0 hg with ⟨_, he⟩ | ⟨he, _⟩
          · rw [he]; exact hs
          · intro x hx
            apply hs
            rw [he]
            exact List.mem_append_right _ (List.mem_cons_of_mem _ hx)
        split at h
        · exact parseRest_isBytes _ _ _ (hempty _ rfl rfl rfl rfl)
            (isBytes_sublist (List.dropLast_sublist _) hrest0) h
        · exact parseRest_isBytes _ _ _ (hempty _ rfl rfl rfl rfl)
            (isBytes_sublist (List.takeWhile_sublist _) hrest0) h

theorem urlParse_isBytes (s : GoString) (u : URL) (hs : isBytes s)
    (h : urlParse s = some u) : u.isBytes := by
  unfold urlParse at h
  simp only at h
  cases hp : parse (cutByte s 0x23).1 with
  | none => rw [hp] at h; cases h
  | some url =>
    rw [hp] at h
    simp only [Option.some_bind] at h
    have hurl := parse_isBytes _ _ (isBytes_sublist (List.takeWhile_sublist _) hs) hp
    split at h
    · simp only [Option.some.injEq] at h
      subst h
      exact hurl
    · exact setFragment_isBytes _ _ _ hurl
        (isBytes_sublist ((List.drop_sublist _ _).trans (List.dropWhile_sublist _)) hs) h

theorem isBrace_shouldEscape {b : Nat} (h : isBrace b) (mode : Encoding) :
    shouldEscape b mode = true := by
  rcases h with h | h <;> subst h <;> cases mode <;> decide

theorem brace_not_mem_escape {b : Nat} (h : isBrace b) (mode : Encoding) (s : GoString)
    (hs : isBytes s) : b ∉ escape mode s := by
  intro hb
  unfold escape at hb
  rcases List.mem_flatMap.mp hb with ⟨c, hc, hbc⟩
  have hc256 := hs c hc
  unfold escapeByte at hbc
  split at hbc
  · split at hbc
    · simp only [List.mem_singleton] at hbc
      rcases h with h | h <;> omega
    · simp only [List.mem_cons, List.mem_singleton, List.not_mem_nil, or_false] at hbc
      have hup : ∀ n, n < 16 → upperhex n ≤ 0x46 := by
        intro n hn
        unfold upperhex
        split <;> omega
      have h1 := hup (c / 16) (by omega)
      have h2 := hup (c % 16) (by omega)
      rcases hbc with e | e | e <;> rcases h with h | h <;> omega
  · rename_i hne
    simp only [List.mem_singleton] at hbc
    subst hbc
    exact hne (isBrace_shouldEscape h mode)

theorem brace_not_mem_validEncoded {b : Nat} (h : isBrace b) (mode : Encoding) (s : GoString)
    (hv : validEncoded mode s = true) : b ∉ s := by
  intro hb
  unfold validEncoded at hv
  have := List.all_eq_true.mp hv b hb
  rw [isBrace_shouldEscape h mode] at this
  rcases h with h | h <;> subst h <;> revert this <;> decide

theorem brace_not_mem_escapedPath {b : Nat} (h : isBrace b) (u : URL) (hu : u.isBytes) :
    b ∉ u.EscapedPath := by
  unfold URL.EscapedPath
  split
  · rename_i hc
    exact brace_not_mem_validEncoded h _ _ hc.2.1
  · split
    · rcases h with h | h <;> subst h <;> decide
    · exact brace_not_mem_escape h _ _ hu.1

theorem brace_not_mem_escapedFragment {b : Nat} (h : isBrace b) (u : URL) (hu : u.isBytes) :
    b ∉ u.EscapedFragment := by
  unfold URL.EscapedFragment
  split
  · rename_i hc
    exact brace_not_mem_validEncoded h _ _ hc.2.1
  · exact brace_not_mem_escape h _ _ hu.2.2.1

theorem brace_not_mem_userinfo {b : Nat} (h : isBrace b) (ui : Userinfo)
    (h1 : isBytes ui.username) (h2 : isBytes ui.password) : b ∉ ui.String := by
  unfold Userinfo.String
  intro hb
  rcases List.mem_append.mp hb with hb | hb
  · exact brace_not_mem_escape h _ _ h1 hb
  · split at hb
    · rcases List.mem_append.mp hb with hb | hb
      · rcases h with h | h <;> subst h <;> revert hb <;> decide
      · exact brace_not_mem_escape h _ _ h2 hb
    · cases hb

theorem brace_not_mem_schemePart {b : Nat} (h : isBrace b) (u : URL)
    (hS : ∀ x ∈ u.Scheme, isSchemeByte x = true) : b ∉ u.schemePart := by
  unfold URL.schemePart
  intro hb
  rcases List.mem_append.mp (mem_of_mem_ite_nil hb) with hb | hb
  · have := hS b hb
    rcases h with h | h <;> subst h <;> revert this <;> decide
  · rcases h with h | h <;> subst h <;> revert hb <;> decide

theorem brace_not_mem_authorityPart {b : Nat} (h : isBrace b) (u : URL) (hu : u.isBytes) :
    b ∉ u.authorityPart := by
  unfold URL.authorityPart
  intro hb
  have hb := mem_of_mem_ite_nil hb
  split at hb
  · cases hb
  · rcases List.mem_append.mp hb with hb | hb
    · rcases List.mem_append.mp hb with hb | hb
      · have hb := mem_of_mem_ite_nil hb
        rcases h with h | h <;> subst h <;> revert hb <;> decide
      · split at hb
        · rename_i ui hui
          rcases List.mem_append.mp hb with hb | hb
          · exact brace_not_mem_userinfo h _ (hu.2.2.2 ui hui).1 (hu.2.2.2 ui hui).2 hb
          · rcases h with h | h <;> subst h <;> revert hb <;> decide
        · cases hb
    · exact brace_not_mem_escape h _ _ hu.2.1 (mem_of_mem_ite_nil hb)

theorem brace_not_mem_head {b : Nat} (h : isBrace b) (u : URL) (hu : u.isBytes)
    (hS : ∀ x ∈ u.Scheme, isSchemeByte x = true) (hO : u.Opaque = []) : b ∉ u.head := by
  unfold URL.head
  rw [if_neg (by simp [hO])]
  simp only
  intro hb
  rcases List.mem_append.mp hb with hb | hb
  · rcases List.mem_append.mp hb with hb | hb
    · rcases List.mem_append.mp hb with hb | hb
      · rcases List.mem_append.mp hb with hb | hb
        · exact brace_not_mem_schemePart h u hS hb
        · exact brace_not_mem_authorityPart h u hu hb
      · have hb := mem_of_mem_ite_nil hb
        rcases h with h | h <;> subst h <;> revert hb <;> decide
    · have hb := mem_of_mem_ite_nil hb
      rcases h with h | h <;> subst h <;> revert hb <;> decide
  · exact brace_not_mem_escapedPath h u hu hb

theorem brace_not_mem_encode {b : Nat} (h : isBrace b) (v : Values) (hv : v.isBytes) :
    b ∉ v.Encode := by
  unfold Values.Encode
  apply not_mem_joinByte _ _ (by rcases h with h | h <;> omega)
  intro p hp
  rcases List.mem_map.mp hp with ⟨x, hx, rfl⟩
  have hxb := hv x ((values_sorted_perm v).mem_iff.mp hx)
  intro hm
  rcases List.mem_append.mp hm with hm | hm
  · exact brace_not_mem_escape h _ _ hxb.1 hm
  · rcases List.mem_cons.mp hm with hm | hm
    · rcases h with h | h <;> omega
    · exact brace_not_mem_escape h _ _ hxb.2 hm

/-- What `(*URL).String()` writes for a URL without opaque part whose query
was written by `Values.Encode` holds no brace: a placeholder in the path
comes out as `%7B…%7D`. -/
theorem brace_not_mem_string {b : Nat} (h : isBrace b) (u : URL) (v : Values)
    (hu : u.isBytes) (hv : v.isBytes)
    (hS : ∀ x ∈ u.Scheme, isSchemeByte x = true) (hO : u.Opaque = []) :
    b ∉ URL.String { u with RawQuery := v.Encode } := by
  unfold URL.String
  intro hb
  rcases List.mem_append.mp hb with hb | hb
  · rcases List.mem_append.mp hb with hb | hb
    · exact brace_not_mem_head h _ hu hS hO hb
    · have hb := mem_of_mem_ite_nil hb
      rcases List.mem_append.mp hb with hb | hb
      · rcases h with h | h <;> subst h <;> revert hb <;> decide
      · exact brace_not_mem_encode h v hv hb
  · have hb := mem_of_mem_ite_nil hb
    rcases List.mem_append.mp hb with hb | hb
    · rcases h with h | h <;> subst h <;> revert hb <;> decide
    · exact brace_not_mem_escapedFragment h _ hu hb

/-- Whenever `stripToken` removes a token from a URL of bytes that has no
opaque part, the text it returns holds no brace. -/
theorem stripToken_no_brace (s : GoString) (u : URL) (hs : isBytes s)
    (hp : urlParse s = some u) (ht : u.Query.Get (bytes "token") ≠ [])
    (hO : u.Opaque = []) (b : Nat) (h : isBrace b) : b ∉ stripToken s := by
  rw [stripToken_of_token s u hp ht]
  have hqb : u.Query.isBytes := by
    unfold URL.Query
    rw [urlParse_rawQuery s u hp]
    exact parseQuery_isBytes _ (isBytes_rawQueryOf s hs)
  have hdelb : (u.Query.Del (bytes "token")).isBytes := by
    intro kv hkv
    exact hqb kv (List.mem_filter.mp hkv).1
  exact brace_not_mem_string h u _ (urlParse_isBytes s u hs hp) hdelb
    (urlParse_head_facts s u hp).1 hO

/-- The general form of the defect behind C12: when the organization name is
replaced in a URL of bytes, the document name does not occur, the
substituted URL parses to a URL without opaque part and its `token`
parameter is not empty, the pattern `canonicalizeURL` returns holds no brace
at all, so the text `{ORG}` does not occur in it. -/
theorem canonicalizeURL_token_no_brace (pre post org repo : GoString) (u : URL)
    (hb : isBytes (pre ++ org ++ post))
    (horg : index (toLower lower (pre ++ org ++ post)) (toLower lower org) = some pre.length)
    (hrepo : index (toLower lower (pre ++ bytes "{ORG}" ++ post)) (toLower lower repo) = none)
    (hparse : urlParse (pre ++ bytes "{ORG}" ++ post) = some u)
    (htoken : u.Query.Get (bytes "token") ≠ [])
    (hO : u.Opaque = []) :
    ∃ pattern, canonicalizeURL lower (pre ++ org ++ post) org repo = some pattern ∧
      (∀ b, isBrace b → b ∉ pattern) ∧ index pattern (bytes "{ORG}") = none := by
  have hres : replaceOrg lower (pre ++ org ++ post) org =
      some (pre ++ bytes "{ORG}" ++ post, toLower lower (pre ++ bytes "{ORG}" ++ post)) := by
    have := replaceOrg_of_index_some (pre ++ org ++ post) org pre.length horg (by simp)
    rw [this]
    simp [List.append_assoc]
  have hcanon : canonicalizeURL lower (pre ++ org ++ post) org repo =
      some (stripToken (pre ++ bytes "{ORG}" ++ post)) := by
    unfold canonicalizeURL
    rw [hres]
    simp only [Option.some_bind]
    rw [replaceRepo_of_index_none _ _ _ hrepo]
    rfl
  have hb2 : isBytes (pre ++ bytes "{ORG}" ++ post) := by
    rw [isBytes_append_iff, isBytes_append_iff] at hb ⊢
    exact ⟨⟨hb.1.1, by decide⟩, hb.2⟩
  have hno := stripToken_no_brace _ u hb2 hparse htoken hO
  refine ⟨_, hcanon, hno, ?_⟩
  rw [index_none_iff]
  intro j _ hpre
  apply hno 0x7B (Or.inl rfl)
  obtain ⟨t, ht⟩ := hpre
  have hmem : 0x7B ∈ List.drop j (stripToken (pre ++ bytes "{ORG}" ++ post)) := by
    rw [← ht]
    exact List.mem_append_left _ (by decide)
  exact List.mem_of_mem_drop hmem

/-- The general form at the example of C12: `https://svc/Acme/badge.svg?token=S&x=1`
with the organization `Acme`. -/
theorem canonicalizeURL_token_no_brace_example :
    ∃ pattern, canonicalizeURL lowerExcerpt (bytes "https://svc/" ++ bytes "Acme" ++
        bytes "/badge.svg?token=S&x=1") (bytes "Acme") (bytes "repo") = some pattern ∧
      (∀ b, isBrace b → b ∉ pattern) ∧ index pattern (bytes "{ORG}") = none :=
  canonicalizeURL_token_no_brace (bytes "https://svc/") (bytes "/badge.svg?token=S&x=1")
    (bytes "Acme") (bytes "repo") sampleOrgURL
    (by decide) (by decide) (by decide) (by decide) (by decide) (by decide)

theorem matchStar_iff (a : Atom) (k : List Nat → Bool) (input : List Nat) :
    matchStar a k input = true ↔
      ∃ block rest, input = block ++ rest ∧ (∀ c ∈ block, a.accepts c = true) ∧
        k rest = true := by
  induction input with
  | nil =>
    unfold matchStar
    constructor
    · intro h
      exact ⟨[], [], rfl, fun c hc => (by cases hc), h⟩
    · rintro ⟨block, rest, he, _, hk⟩
      have := List.append_eq_nil.mp he.symm
      rw [this.2] at hk
      exact hk
  | cons c t ih =>
    unfold matchStar
    rw [Bool.or_eq_true, Bool.and_eq_true, ih]
    constructor
    · rintro (h | ⟨hc, block, rest, he, hb, hk⟩)
      · exact ⟨[], c :: t, rfl, fun x hx => (by cases hx), h⟩
      · refine ⟨c :: block, rest, by rw [he]; rfl, ?_, hk⟩
        intro x hx
        rcases List.mem_cons.mp hx with hx | hx
        · rw [hx]; exact hc
        · exact hb x hx
    · rintro ⟨block, rest, he, hb, hk⟩
      cases block with
      | nil =>
        left
        rw [List.nil_append] at he
        rw [he]
        exact hk
      | cons d block =>
        right
        rw [List.cons_append, List.cons.injEq] at he
        obtain ⟨rfl, rfl⟩ := he
        exact ⟨hb c (List.mem_cons_self _ _), block, rest, rfl,
          fun x hx => hb x (List.mem_cons_of_mem _ hx), hk⟩

/-- The matcher decides the language of the expression: it accepts an input
exactly when the whole input is spelled out by the items. -/
theorem matchItems_iff_spells (re : Regex) : ∀ input : List Nat,
    matchItems re input = true ↔ spells re input := by
  induction re with
  | nil =>
    intro input
    unfold matchItems spells
    constructor
    · intro h
      exact ⟨[], List.Forall₂.nil, by simpa using h⟩
    · rintro ⟨blocks, hf, he⟩
      cases hf
      rw [he]
      rfl
  | cons item items ih =>
    intro input
    obtain ⟨a, q⟩ := item
    cases q with
    | one =>
      unfold matchItems
      cases input with
      | nil =>
        simp only [Bool.false_eq_true, false_iff]
        rintro ⟨blocks, hf, he⟩
        cases hf with
        | cons h1 h2 =>
          rename_i block bs
          have hl : block.length = 1 := h1.2
          have := congrArg List.length he
          simp only [List.length_nil, List.flatten_cons, List.length_append] at this
          omega
      | cons c rest =>
        simp only [Bool.and_eq_true]
        rw [ih rest]
        constructor
        · rintro ⟨hc, bs, hf, he⟩
          refine ⟨[c] :: bs, List.Forall₂.cons ⟨?_, rfl⟩ hf, by rw [he]; rfl⟩
          intro x hx
          rw [List.mem_singleton.mp hx]
          exact hc
        · rintro ⟨blocks, hf, he⟩
          cases hf with
          | cons h1 h2 =>
            rename_i block bs
            have hl : block.length = 1 := h1.2
            obtain ⟨d, rfl⟩ := List.length_eq_one.mp hl
            simp only [List.flatten_cons, List.singleton_append, List.cons.injEq] at he
            obtain ⟨rfl, rfl⟩ := he
            exact ⟨h1.1 c (List.mem_singleton_self _), bs, h2, rfl⟩
    | star =>
      unfold matchItems
      rw [matchStar_iff]
      constructor
      · rintro ⟨block, rest, he, hb, hk⟩
        obtain ⟨bs, hf, hr⟩ := (ih rest).mp hk
        exact ⟨block :: bs, List.Forall₂.cons ⟨hb, trivial⟩ hf, by rw [he, hr]; rfl⟩
      · rintro ⟨blocks, hf, he⟩
        cases hf with
        | cons h1 h2 =>
          rename_i block bs
          exact ⟨block, bs.flatten, he, h1.1, (ih _).mpr ⟨bs, h2, rfl⟩⟩
    | plus =>
      unfold matchItems
      cases input with
      | nil =>
        simp only [Bool.false_eq_true, false_iff]
        rintro ⟨blocks, hf, he⟩
        cases hf with
        | cons h1 h2 =>
          rename_i block bs
          have hl : 1 ≤ block.length := h1.2
          have := congrArg List.length he
          simp only [List.length_nil, List.flatten_cons, List.length_append] at this
          omega
      | cons c rest =>
        simp only [Bool.and_eq_true]
        rw [matchStar_iff]
        constructor
        · rintro ⟨hc, block, rest2, he, hb, hk⟩
          obtain ⟨bs, hf, hr⟩ := (ih rest2).mp hk
          refine ⟨(c :: block) :: bs, List.Forall₂.cons ⟨?_, ?_⟩ hf, by rw [he, hr]; rfl⟩
          · intro x hx
            rcases List.mem_cons.mp hx with hx | hx
            · rw [hx]; exact hc
            · exact hb x hx
          · show 1 ≤ (c :: block).length
            simp
        · rintro ⟨blocks, hf, he⟩
          cases hf with
          | cons h1 h2 =>
            rename_i block bs
            have hl : 1 ≤ block.length := h1.2
            cases block with
            | nil => simp at hl
            | cons d block =>
              simp only [List.flatten_cons, List.cons_append, List.cons.injEq] at he
              obtain ⟨rfl, rfl⟩ := he
              exact ⟨h1.1 c (List.mem_cons_self _ _), block, bs.flatten, rfl,
                fun x hx => h1.1 x (List.mem_cons_of_mem _ hx), (ih _).mpr ⟨bs, h2, rfl⟩⟩

/-- A rule matches a pattern exactly when its expression compiles and the
runes of the whole pattern are spelled out by it. -/
theorem ruleMatches_iff (pattern : GoString) (e : BadgeConfigEntry) :
    ruleMatches pattern e = true ↔
      ∃ re, compile (ruleRegex e.Pattern) = some re ∧ spells re (runes pattern) := by
  unfold ruleMatches
  cases hc : compile (ruleRegex e.Pattern) with
  | none => simp
  | some re =>
    simp only [Option.some.injEq, exists_eq_left']
    unfold matchString
    exact matchItems_iff_spells re _

theorem replaceAll_of_not_mem (old new : GoString) (x : Nat) (hx : x ∈ old) :
    ∀ s : GoString, x ∉ s → replaceAll old new 0 s = s := by
  intro s
  induction s with
  | nil => intro _; rfl
  | cons b rest ih =>
    intro hs
    have hno : old.isPrefixOf (b :: rest) = false := by
      cases hp : old.isPrefixOf (b :: rest) with
      | false => rfl
      | true =>
        exfalso
        obtain ⟨t, ht⟩ := List.isPrefixOf_iff_prefix.mp hp
        apply hs
        rw [← ht]
        exact List.mem_append_left _ hx
    rw [replaceAll_cons_of_no_match _ _ _ _ hno, ih (fun h => hs (List.mem_cons_of_mem _ h))]

theorem mem_quoteMeta (r : GoString) (x : Nat) (hx : x ∈ quoteMeta r) : x = 0x5C ∨ x ∈ r := by
  unfold quoteMeta at hx
  rcases List.mem_flatMap.mp hx with ⟨b, hb, hxb⟩
  split at hxb
  · simp only [List.mem_cons, List.mem_singleton, List.not_mem_nil, or_false] at hxb
    rcases hxb with h | h
    · exact Or.inl h
    · exact Or.inr (h ▸ hb)
  · exact Or.inr (List.mem_singleton.mp hxb ▸ hb)

theorem isASCII_quoteMeta (r : GoString) (h : isASCII r) : isASCII (quoteMeta r) := by
  intro x hx
  rcases mem_quoteMeta r x hx with h1 | h1
  · omega
  · exact h x h1

/-- The expression of a rule pattern without a brace is the quoted pattern
between `^` and `$`: no placeholder is put in. -/
theorem ruleRegex_of_no_brace (r : GoString) (hb : 0x7B ∉ r) :
    ruleRegex r = bytes "^" ++ quoteMeta r ++ bytes "$" := by
  have hq : 0x7B ∉ quoteMeta r := fun h => by
    rcases mem_quoteMeta r _ h with h1 | h1
    · omega
    · exact hb h1
  rw [(ruleRegex_wildcard_noop r).1,
    replaceAll_of_not_mem (bytes "\\\x7bORG\\\x7d") _ 0x7B (by decide) _ hq,
    replaceAll_of_not_mem (bytes "\\\x7bREPO\\\x7d") _ 0x7B (by decide) _ hq]

theorem runesFrom_of_isASCII (s : GoString) (h : isASCII s) :
    runesFrom 0 s = s.map fun b => (b, true) := by
  induction s with
  | nil => rfl
  | cons b rest ih =>
    have hb : b < 0x80 := h b (List.mem_cons_self _ _)
    rw [runesFrom, decodeRune_ascii b rest hb]
    simp only [Nat.sub_self, List.map_cons]
    rw [ih (fun x hx => h x (List.mem_cons_of_mem _ hx))]
    have : (b == 0xFFFD) = false := by
      rw [beq_eq_false_iff_ne]
      omega
    simp [this]

theorem runes_of_isASCII (s : GoString) (h : isASCII s) : runes s = s := by
  unfold runes
  rw [runesFrom_of_isASCII s h, List.map_map]
  exact List.map_id _

theorem validUTF8_of_isASCII (s : GoString) (h : isASCII s) : validUTF8 s = true := by
  unfold validUTF8
  rw [runesFrom_of_isASCII s h]
  simp

/-- An input whose runes are all ASCII is the list of its runes. -/
theorem eq_of_runes_isASCII : ∀ (p r : GoString), isASCII r → runes p = r → p = r := by
  intro p
  induction p with
  | nil =>
    intro r _ h
    exact h
  | cons b rest ih =>
    intro r hr h
    unfold runes at h
    by_cases hb : b < 0x80
    · rw [runesFrom_ascii b rest hb] at h
      cases r with
      | nil => cases h
      | cons c r =>
        simp only [List.cons.injEq] at h
        rw [h.1, ih r (fun x hx => hr x (List.mem_cons_of_mem _ hx)) h.2]
    · exfalso
      rw [runesFrom_high] at h
      have h1 := (decodeRune_high b rest (by omega)).1
      have := hr _ (h ▸ List.mem_cons_self _ _)
      omega

theorem parseItems_quoteMeta (r : GoString) (h : isASCII r) : ∀ fuel : Nat,
    (quoteMeta r).length ≤ fuel → parseItems fuel (quoteMeta r) = some (litItems r) := by
  induction r with
  | nil =>
    intro fuel _
    cases fuel <;> rfl
  | cons b rest ih =>
    intro fuel hf
    have hrest : isASCII rest := fun x hx => h x (List.mem_cons_of_mem _ hx)
    have hq := takeQuant_quoted _ (quoted_quoteMeta rest)
    have hcons : quoteMeta (b :: rest) =
        (if isSpecial b then [0x5C, b] else [b]) ++ quoteMeta rest := by
      unfold quoteMeta
      rw [List.flatMap_cons]
    rw [hcons] at hf ⊢
    cases hs : isSpecial b with
    | true =>
      rw [hs] at hf
      simp only [if_true, List.cons_append, List.nil_append, List.length_cons] at hf ⊢
      cases fuel with
      | zero => omega
      | succ fuel =>
        rw [parseItems_escaped, if_pos ⟨h b (List.mem_cons_self _ _), hs⟩, hq,
          ih hrest fuel (by omega)]
        rfl
    | false =>
      rw [hs] at hf
      simp only [Bool.false_eq_true, if_false, List.cons_append, List.nil_append,
        List.length_cons] at hf ⊢
      cases fuel with
      | zero => omega
      | succ fuel =>
        rw [parseItems_plain _ _ _ hs, hq, ih hrest fuel (by omega)]
        rfl

/-- The expression of an ASCII rule pattern without a brace compiles to the
pattern itself, byte for byte. -/
theorem compile_of_no_brace (r : GoString) (h : isASCII r) (hb : 0x7B ∉ r) :
    compile (ruleRegex r) = some (litItems r) := by
  have hq := isASCII_quoteMeta r h
  have hall : isASCII (bytes "^" ++ quoteMeta r ++ bytes "$") :=
    isASCII_append.mpr ⟨isASCII_append.mpr ⟨by decide, hq⟩, by decide⟩
  rw [ruleRegex_of_no_brace r hb]
  unfold compile
  rw [if_pos (validUTF8_of_isASCII _ hall), runes_of_isASCII _ hall]
  have e1 : bytes "^" = [0x5E] := by decide
  have e2 : bytes "$" = [0x24] := by decide
  rw [e1, e2]
  simp only [List.singleton_append, List.cons_append, List.reverse_append, List.reverse_cons,
    List.reverse_nil, List.nil_append, List.length_reverse, List.reverse_reverse]
  exact parseItems_quoteMeta r h _ (le_refl _)

theorem matchItems_litItems (r : GoString) : ∀ input : List Nat,
    matchItems (litItems r) input = true ↔ input = r := by
  induction r with
  | nil =>
    intro input
    cases input <;> simp [litItems, matchItems]
  | cons b rest ih =>
    intro input
    have hl : litItems (b :: rest) = (Atom.lit b, Quant.one) :: litItems rest := rfl
    rw [hl]
    cases input with
    | nil => simp [matchItems]
    | cons c t =>
      rw [matchItems, Bool.and_eq_true, ih t]
      simp only [Atom.accepts, beq_iff_eq, List.cons.injEq]
      constructor
      · rintro ⟨h1, h2⟩
        exact ⟨h1.symm, h2⟩
      · rintro ⟨h1, h2⟩
        exact ⟨h1.symm, h2⟩

/-- A rule whose pattern is ASCII and holds no brace matches exactly one
pattern, the rule pattern itself: its matcher is anchored at both ends and
every byte of it is taken literally. -/
theorem ruleMatches_literal (pattern : GoString) (e : BadgeConfigEntry)
    (h : isASCII e.Pattern) (hb : 0x7B ∉ e.Pattern) :
    ruleMatches pattern e = true ↔ pattern = e.Pattern := by
  unfold ruleMatches
  rw [compile_of_no_brace _ h hb]
  simp only
  unfold matchString
  rw [matchItems_litItems]
  constructor
  · exact eq_of_runes_isASCII pattern _ h
  · intro he
    rw [he]
    exact runes_of_isASCII _ h

/-! ## The first matching rule -/

/-- C1: `lookupBadge` returns the fields of the first rule, in list order,
whose anchored matcher matches the whole pattern, and the `Unknown` tuple
with the lower-cased, slash-free pattern as id when there is none; the
result depends on the rule list only through its sublist of matching rules
(so adding, dropping or moving non-matching rules changes nothing), and of
two matching rules the one that stands first wins.  A rule matches when its
expression compiles and spells out the whole pattern, rune by rune, from the
first to the last; a rule whose pattern is ASCII and holds no brace matches
the pattern equal to it and no other.  This holds for every case table
`lower`. -/
theorem lookupBadge_first_match (pattern : GoString) (config : BadgeConfig) :
    (lookupBadge lower pattern config =
      (match config.Badges.find? (ruleMatches pattern) with
       | some e => (e.Name, e.Category, e.Placeholder, e.ID)
       | none => (bytes "Unknown", bytes "Unknown", bytes "",
           (toLower lower pattern).map (fun b => if b = 0x2F then 0x2D else b))))
    ∧ (∀ config2 : BadgeConfig,
        config2.Badges.filter (ruleMatches pattern) =
          config.Badges.filter (ruleMatches pattern) →
        lookupBadge lower pattern config2 = lookupBadge lower pattern config)
    ∧ (∀ (pre post : List BadgeConfigEntry) (e : BadgeConfigEntry),
        config.Badges = pre ++ e :: post →
        (∀ x ∈ pre, ruleMatches pattern x = false) →
        ruleMatches pattern e = true →
        lookupBadge lower pattern config = (e.Name, e.Category, e.Placeholder, e.ID))
    ∧ (∀ e : BadgeConfigEntry, ruleMatches pattern e = true ↔
        ∃ re, compile (ruleRegex e.Pattern) = some re ∧ spells re (runes pattern))
    ∧ (∀ e : BadgeConfigEntry, isASCII e.Pattern → 0x7B ∉ e.Pattern →
        (ruleMatches pattern e = true ↔ pattern = e.Pattern)) := by
  refine ⟨?_, ?_, ?_, ?_, ?_⟩
  · unfold lookupBadge
    rw [lookupBadgeLoop_find, normalizeRepoName_eq_map]
  · intro config2 h
    unfold lookupBadge
    rw [← lookupBadgeLoop_filter pattern config2.Badges, h, lookupBadgeLoop_filter]
  · intro pre post e hcfg hpre he
    unfold lookupBadge
    rw [hcfg, lookupBadgeLoop_append_of_none pattern pre _ hpre,
      lookupBadgeLoop_cons_matching pattern e post he]
  · exact fun e => ruleMatches_iff pattern e
  · exact fun e h hb => ruleMatches_literal pattern e h hb

/-- Witness of C1: of two rules that match the pattern, the one that stands
first is returned, whichever it is, and a non-matching rule before them
changes nothing.  A rule that spells out only the head or only the tail of
the pattern is passed over, a placeholder takes no slash and no empty text,
and without a matching rule the id is the lower-cased pattern with `-` for
`/`. -/
theorem lookupBadge_first_match_witness :
    lookupBadge lowerExcerpt (bytes "https://h/{ORG}/{REPO}/.*")
      ⟨[⟨bytes "n", bytes "https://other/{ORG}", bytes "N", bytes "Cn", bytes ""⟩,
        ⟨bytes "a", bytes "https://h/{ORG}/{REPO}/.*", bytes "A", bytes "Ca", bytes ""⟩,
        ⟨bytes "b", bytes "https://h/{ORG}/{ORG}/.*", bytes "B", bytes "Cb", bytes "p"⟩]⟩ =
      (bytes "A", bytes "Ca", bytes "", bytes "a")
    ∧ lookupBadge lowerExcerpt (bytes "https://h/{ORG}/{REPO}/.*")
      ⟨[⟨bytes "b", bytes "https://h/{ORG}/{ORG}/.*", bytes "B", bytes "Cb", bytes "p"⟩,
        ⟨bytes "a", bytes "https://h/{ORG}/{REPO}/.*", bytes "A", bytes "Ca", bytes ""⟩,
        ⟨bytes "n", bytes "https://other/{ORG}", bytes "N", bytes "Cn", bytes ""⟩]⟩ =
      (bytes "B", bytes "Cb", bytes "p", bytes "b")
    ∧ lookupBadge lowerExcerpt (bytes "https://x/ab")
      ⟨[⟨bytes "head", bytes "https://x/a", bytes "H", bytes "Ch", bytes ""⟩,
        ⟨bytes "tail", bytes "x/ab", bytes "T", bytes "Ct", bytes ""⟩,
        ⟨bytes "whole", bytes "https://x/ab", bytes "W", bytes "Cw", bytes ""⟩]⟩ =
      (bytes "W", bytes "Cw", bytes "", bytes "whole")
    ∧ (ruleMatches (bytes "https://x/ab")
        ⟨bytes "head", bytes "https://x/a", bytes "H", bytes "Ch", bytes ""⟩ = true ↔
      bytes "https://x/ab" = bytes "https://x/a")
    ∧ lookupBadge lowerExcerpt (bytes "https://h/a/c/b")
      ⟨[⟨bytes "o", bytes "https://h/{ORG}/b", bytes "O", bytes "Co", bytes ""⟩]⟩ =
      (bytes "Unknown", bytes "Unknown", bytes "", bytes "https:--h-a-c-b")
    ∧ lookupBadge lowerExcerpt (bytes "https://h//b")
      ⟨[⟨bytes "o", bytes "https://h/{ORG}/b", bytes "O", bytes "Co", bytes ""⟩]⟩ =
      (bytes "Unknown", bytes "Unknown", bytes "", bytes "https:--h--b")
    ∧ lookupBadge lowerExcerpt (bytes "https://H/A/b")
      ⟨[⟨bytes "o", bytes "https://h/{ORG}/b", bytes "O", bytes "Co", bytes ""⟩,
        ⟨bytes "u", bytes "https://H/{ORG}/b", bytes "U", bytes "Cu", bytes ""⟩]⟩ =
      (bytes "U", bytes "Cu", bytes "", bytes "u")
    ∧ lookupBadge lowerExcerpt (bytes "https://H/A.svg") ⟨[]⟩ =
      (bytes "Unknown", bytes "Unknown", bytes "", bytes "https:--h-a.svg") :=
  ⟨(lookupBadge_first_match (bytes "https://h/{ORG}/{REPO}/.*")
      ⟨[⟨bytes "n", bytes "https://other/{ORG}", bytes "N", bytes "Cn", bytes ""⟩,
        ⟨bytes "a", bytes "https://h/{ORG}/{REPO}/.*", bytes "A", bytes "Ca", bytes ""⟩,
        ⟨bytes "b", bytes "https://h/{ORG}/{ORG}/.*", bytes "B", bytes "Cb", bytes "p"⟩]⟩).2.2.1
      [⟨bytes "n", bytes "https://other/{ORG}", bytes "N", bytes "Cn", bytes ""⟩]
      [⟨bytes "b", bytes "https://h/{ORG}/{ORG}/.*", bytes "B", bytes "Cb", bytes "p"⟩]
      ⟨bytes "a", bytes "https://h/{ORG}/{REPO}/.*", bytes "A", bytes "Ca", bytes ""⟩
      rfl (by decide) (by decide),
   (lookupBadge_first_match (bytes "https://h/{ORG}/{REPO}/.*")
      ⟨[⟨bytes "b", bytes "https://h/{ORG}/{ORG}/.*", bytes "B", bytes "Cb", bytes "p"⟩,
        ⟨bytes "a", bytes "https://h/{ORG}/{REPO}/.*", bytes "A", bytes "Ca", bytes ""⟩,
        ⟨bytes "n", bytes "https://other/{ORG}", bytes "N", bytes "Cn", bytes ""⟩]⟩).2.2.1
      []
      [⟨bytes "a", bytes "https://h/{ORG}/{REPO}/.*", bytes "A", bytes "Ca", bytes ""⟩,
        ⟨bytes "n", bytes "https://other/{ORG}", bytes "N", bytes "Cn", bytes ""⟩]
      ⟨bytes "b", bytes "https://h/{ORG}/{ORG}/.*", bytes "B", bytes "Cb", bytes "p"⟩
      rfl (by decide) (by decide),
   (lookupBadge_first_match (bytes "https://x/ab")
      ⟨[⟨bytes "head", bytes "https://x/a", bytes "H", bytes "Ch", bytes ""⟩,
        ⟨bytes "tail", bytes "x/ab", bytes "T", bytes "Ct", bytes ""⟩,
        ⟨bytes "whole", bytes "https://x/ab", bytes "W", bytes "Cw", bytes ""⟩]⟩).2.2.1
      [⟨bytes "head", bytes "https://x/a", bytes "H", bytes "Ch", bytes ""⟩,
        ⟨bytes "tail", bytes "x/ab", bytes "T", bytes "Ct", bytes ""⟩]
      []
      ⟨bytes "whole", bytes "https://x/ab", bytes "W", bytes "Cw", bytes ""⟩
      rfl (by decide) (by decide),
   (@lookupBadge_first_match lowerExcerpt (bytes "https://x/ab") ⟨[]⟩).2.2.2.2
      ⟨bytes "head", bytes "https://x/a", bytes "H", bytes "Ch", bytes ""⟩
      (by decide) (by decide),
   by decide, by decide, by decide, by decide⟩

/-- Witness of C5: in `https://h/Acme/acme/x.svg` with the organization
`acme` the first occurrence, `Acme`, is replaced and the second one stays. -/
theorem canonicalizeURL_org_of_isASCII_witness :
    canonicalizeURL lowerExcerpt
        (bytes "https://h/" ++ bytes "Acme" ++ bytes "/acme/x.svg") (bytes "acme")
        (bytes "zz") =
      some (bytes "https://h/" ++ bytes "{ORG}" ++ bytes "/acme/x.svg")
    ∧ bytes "https://h/" ++ bytes "{ORG}" ++ bytes "/acme/x.svg" =
      bytes "https://h/{ORG}/acme/x.svg" :=
  ⟨canonicalizeURL_org_of_isASCII (bytes "https://h/") (bytes "Acme") (bytes "/acme/x.svg")
      (bytes "acme") (bytes "zz") (by decide) (by decide) (by decide) (by decide) (by decide)
      (by decide),
    by decide⟩

/-! ## The category groups of `buildDashboard` -/

theorem badgesLoop_none (config : BadgeConfig) (org repo : GoString) :
    ∀ (badges : List Badge) (summary : RepoSummary) (m : BadgeMap),
      (∃ b ∈ badges, canonicalizeURL lower b.ImageURL org repo = none) →
      badgesLoop lower config org repo badges summary m = none := by
  intro badges
  induction badges with
  | nil =>
    rintro summary m ⟨b, hb, _⟩
    cases hb
  | cons b rest ih =>
    rintro summary m ⟨x, hx, hnone⟩
    unfold badgesLoop
    cases hc : canonicalizeURL lower b.ImageURL org repo with
    | none => rfl
    | some p =>
      simp only
      rcases List.mem_cons.mp hx with hx | hx
      · rw [hx, hc] at hnone
        cases hnone
      · exact ih _ _ ⟨x, hx, hnone⟩

theorem reposLoop_none (config : BadgeConfig) (org : GoString) :
    ∀ (repos : List RepositoryData) (vm : DashboardViewModel) (m : BadgeMap)
      (sums : List RepoSummary),
      (∃ r ∈ repos, ∃ b ∈ r.Badges,
        canonicalizeURL lower b.ImageURL org r.Repository = none) →
      reposLoop lower config org repos vm m sums = none := by
  intro repos
  induction repos with
  | nil =>
    rintro vm m sums ⟨r, hr, _⟩
    cases hr
  | cons r rest ih =>
    rintro vm m sums ⟨x, hx, hpanic⟩
    unfold reposLoop
    simp only
    cases hb : badgesLoop lower config org r.Repository r.Badges
        { Name := r.Repository, BadgeCount := r.Badges.length, BadgeIDs := [] } m with
    | none => rfl
    | some res =>
      simp only
      rcases List.mem_cons.mp hx with hx | hx
      · rw [hx] at hpanic
        rw [badgesLoop_none config org r.Repository r.Badges _ m hpanic] at hb
        cases hb
      · exact ih _ _ _ ⟨x, hx, hpanic⟩

/-- A panic of `canonicalizeURL` on any badge ends `buildDashboard`. -/
theorem buildDashboard_none (iter : (α : Type) → List α → List α)
    (repos : List RepositoryData) (config : BadgeConfig) (orgName lastUpdated : GoString)
    (h : ∃ r ∈ repos, ∃ b ∈ r.Badges,
      canonicalizeURL lower b.ImageURL orgName r.Repository = none) :
    buildDashboard lower iter repos config orgName lastUpdated = none := by
  unfold buildDashboard
  simp only
  rw [reposLoop_none config orgName repos _ [] [] h]

/-- C9: for every input, and for every order `iter` in which the maps are
visited and every case table `lower`: either a call of `canonicalizeURL`
panics on a badge of the input, and `buildDashboard` builds nothing, or it
returns and the names of the groups in `BadgesByCategory` are pairwise
distinct, are exactly the categories of the aggregates in `badgeMap`, and
consist of the names other than `Unknown` in strictly ascending byte order,
followed by `Unknown` when it is present. -/
theorem buildDashboard_categories (iter : (α : Type) → List α → List α)
    (hiter : ∀ (α : Type) (l : List α), (iter α l).Perm l)
    (repos : List RepositoryData) (config : BadgeConfig) (orgName lastUpdated : GoString) :
    (buildDashboard lower iter repos config orgName lastUpdated = none ∧
      ∃ r ∈ repos, ∃ b ∈ r.Badges,
        canonicalizeURL lower b.ImageURL orgName r.Repository = none)
    ∨ ∃ vm badgeMap,
      buildDashboard lower iter repos config orgName lastUpdated = some (vm, badgeMap) ∧
      (vm.BadgesByCategory.map (fun g => g.Name)).Nodup ∧
      (∀ c, c ∈ vm.BadgesByCategory.map (fun g => g.Name) ↔
        ∃ e ∈ badgeMap, e.2.Category = c) ∧
      ∃ named,
        (vm.BadgesByCategory.map (fun g => g.Name) = named ∨
          vm.BadgesByCategory.map (fun g => g.Name) = named ++ [bytes "Unknown"]) ∧
        bytes "Unknown" ∉ named ∧ named.Pairwise strLt := by
  by_cases hsome : ∀ r ∈ repos, ∀ b ∈ r.Badges,
      (canonicalizeURL lower b.ImageURL orgName r.Repository).isSome = true
  · exact Or.inr (buildDashboard_groups iter hiter repos config orgName lastUpdated hsome)
  · left
    have hpanic : ∃ r ∈ repos, ∃ b ∈ r.Badges,
        canonicalizeURL lower b.ImageURL orgName r.Repository = none := by
      by_contra hno
      apply hsome
      intro r hr b hb
      cases hc : canonicalizeURL lower b.ImageURL orgName r.Repository with
      | none => exact absurd ⟨r, hr, b, hb, hc⟩ hno
      | some p => rfl
    exact ⟨buildDashboard_none iter repos config orgName lastUpdated hpanic, hpanic⟩

/-- Witness of C9: one document with badges of the categories B, Unknown and
A, the maps visited in reverse insertion order; the groups come out as A, B,
Unknown.  With a second document whose badge URL makes `canonicalizeURL`
panic (C8) nothing is built. -/
theorem buildDashboard_categories_witness :
    (buildDashboard lowerExcerpt (fun _ l => l.reverse)
        [⟨bytes "r1", [], [], true,
          [⟨[], bytes "https://b/x.svg", [], [], []⟩, ⟨[], bytes "https://u/x.svg", [], [], []⟩,
           ⟨[], bytes "https://a/x.svg", [], [], []⟩]⟩]
        ⟨[⟨bytes "b", bytes "https://b/x.svg", bytes "b", bytes "B", []⟩,
          ⟨bytes "a", bytes "https://a/x.svg", bytes "a", bytes "A", []⟩]⟩
        (bytes "acme") (bytes "now")).map
      (fun res => res.1.BadgesByCategory.map (fun g => g.Name)) =
      some [bytes "A", bytes "B", bytes "Unknown"]
    ∧ buildDashboard lowerExcerpt (fun _ l => l.reverse)
        [⟨bytes "r1", [], [], true, [⟨[], bytes "https://b/x.svg", [], [], []⟩]⟩,
         ⟨bytes "r2", [], [], true, [⟨[], [0xC8, 0xBA, 0x78], [], [], []⟩]⟩]
        ⟨[]⟩ (bytes "x") (bytes "now") = none
    ∧ ((buildDashboard lowerExcerpt (fun _ l => l.reverse)
        [⟨bytes "r1", [], [], true,
          [⟨[], bytes "https://b/x.svg", [], [], []⟩, ⟨[], bytes "https://u/x.svg", [], [], []⟩,
           ⟨[], bytes "https://a/x.svg", [], [], []⟩]⟩]
        ⟨[⟨bytes "b", bytes "https://b/x.svg", bytes "b", bytes "B", []⟩,
          ⟨bytes "a", bytes "https://a/x.svg", bytes "a", bytes "A", []⟩]⟩
        (bytes "acme") (bytes "now") = none ∧
      ∃ r ∈ [(⟨bytes "r1", [], [], true,
          [⟨[], bytes "https://b/x.svg", [], [], []⟩, ⟨[], bytes "https://u/x.svg", [], [], []⟩,
           ⟨[], bytes "https://a/x.svg", [], [], []⟩]⟩ : RepositoryData)],
        ∃ b ∈ r.Badges,
          canonicalizeURL lowerExcerpt b.ImageURL (bytes "acme") r.Repository = none)
    ∨ ∃ vm badgeMap,
      buildDashboard lowerExcerpt (fun _ l => l.reverse)
        [⟨bytes "r1", [], [], true,
          [⟨[], bytes "https://b/x.svg", [], [], []⟩, ⟨[], bytes "https://u/x.svg", [], [], []⟩,
           ⟨[], bytes "https://a/x.svg", [], [], []⟩]⟩]
        ⟨[⟨bytes "b", bytes "https://b/x.svg", bytes "b", bytes "B", []⟩,
          ⟨bytes "a", bytes "https://a/x.svg", bytes "a", bytes "A", []⟩]⟩
        (bytes "acme") (bytes "now") = some (vm, badgeMap) ∧
      (vm.BadgesByCategory.map (fun g => g.Name)).Nodup ∧
      (∀ c, c ∈ vm.BadgesByCategory.map (fun g => g.Name) ↔
        ∃ e ∈ badgeMap, e.2.Category = c) ∧
      ∃ named,
        (vm.BadgesByCategory.map (fun g => g.Name) = named ∨
          vm.BadgesByCategory.map (fun g => g.Name) = named ++ [bytes "Unknown"]) ∧
        bytes "Unknown" ∉ named ∧ named.Pairwise strLt) :=
  ⟨by decide, by decide,
    buildDashboard_categories (fun _ l => l.reverse) (fun _ l => List.reverse_perm l) _ _ _ _⟩

end BadgeIndexer
